import Mathlib

/-!
# EdgeVPN ledger, block model, peer gater, event loop and stream manager

A shallow embedding of `pkg/blockchain` (block.go, data.go, store_memory.go,
ledger.go), of `pkg/trustzone` (peergater.go, the autocleanup of
peerguardian.go, authprovider/ecdsa), of `pkg/hub/room.go`, of the event loop
of `pkg/node/connection.go`, of `pkg/crypto/aes.go`, of `pkg/utils/leader.go`,
of `pkg/stream` (manager.go, the loop of decay.go), of the stream handler and
the announce task of `pkg/vpn/vpn.go`, of the ledger handlers of `api/api.go`
with their client `api/client/client.go`, and of the service client
`api/client/service/service.go`.

Conventions of the embedding:

* Go `int` is the 64-bit two's-complement integer; `Block.Index` is an `Int`
  and every Go addition on it is wrapped by `wrapInt64`.
* Go `string` is modelled by `String`; the bytes of a string are its UTF-8
  encoding.
* A Go `map[string]T` is an association list with pairwise distinct keys
  (`AList`); a `for k, v := range m` loop is a left fold over its entries.
* `time.Now()` is an input: every operation that reads the clock takes the
  printed timestamp as an argument.
* `encoding/json` and `compress/gzip` are external: the decoders used by
  `Update` and the encoder used by `Add` are parameters.
* Mutexes are not modelled: every operation is executed atomically.
* A Go panic is the result `none` of a function into `Option`.
* AES-GCM, base64, PEM, X.509, ASN.1 and ECDSA are external: they are fields
  of the structures `AesGcm` and `EcdsaPrimitives`.
* A libp2p peer ID is its list of bytes; `peerIDString` is its base58 text.
-/

set_option linter.dupNamespace false
set_option maxRecDepth 100000

namespace EdgeVPN

/-! ## SHA-256 (crypto/sha256) and hex encoding (encoding/hex) -/

/-- Round constants of SHA-256. -/
def sha256K : List Nat := [
  0x428a2f98, 0x71374491, 0xb5c0fbcf, 0xe9b5dba5, 0x3956c25b, 0x59f111f1, 0x923f82a4, 0xab1c5ed5,
  0xd807aa98, 0x12835b01, 0x243185be, 0x550c7dc3, 0x72be5d74, 0x80deb1fe, 0x9bdc06a7, 0xc19bf174,
  0xe49b69c1, 0xefbe4786, 0x0fc19dc6, 0x240ca1cc, 0x2de92c6f, 0x4a7484aa, 0x5cb0a9dc, 0x76f988da,
  0x983e5152, 0xa831c66d, 0xb00327c8, 0xbf597fc7, 0xc6e00bf3, 0xd5a79147, 0x06ca6351, 0x14292967,
  0x27b70a85, 0x2e1b2138, 0x4d2c6dfc, 0x53380d13, 0x650a7354, 0x766a0abb, 0x81c2c92e, 0x92722c85,
  0xa2bfe8a1, 0xa81a664b, 0xc24b8b70, 0xc76c51a3, 0xd192e819, 0xd6990624, 0xf40e3585, 0x106aa070,
  0x19a4c116, 0x1e376c08, 0x2748774c, 0x34b0bcb5, 0x391c0cb3, 0x4ed8aa4a, 0x5b9cca4f, 0x682e6ff3,
  0x748f82ee, 0x78a5636f, 0x84c87814, 0x8cc70208, 0x90befffa, 0xa4506ceb, 0xbef9a3f7, 0xc67178f2]

/-- Truncation to a 32-bit word. -/
def w32 (x : Nat) : Nat := x % 4294967296

/-- Right rotation of a 32-bit word. -/
def rotr32 (x n : Nat) : Nat := w32 ((x >>> n) ||| (x <<< (32 - n)))

/-- UTF-8 bytes of one character. -/
def utf8Char (c : Char) : List Nat :=
  let n := c.toNat
  if n < 0x80 then [n]
  else if n < 0x800 then [0xC0 + n / 64, 0x80 + n % 64]
  else if n < 0x10000 then [0xE0 + n / 4096, 0x80 + n / 64 % 64, 0x80 + n % 64]
  else [0xF0 + n / 262144, 0x80 + n / 4096 % 64, 0x80 + n / 64 % 64, 0x80 + n % 64]

/-- The bytes of a Go string, `[]byte(s)`. -/
def utf8Bytes (s : String) : List Nat := s.toList.flatMap utf8Char

/-- Big-endian 64-bit encoding of the message length. -/
def be64 (n : Nat) : List Nat :=
  [n / 2^56 % 256, n / 2^48 % 256, n / 2^40 % 256, n / 2^32 % 256,
   n / 2^24 % 256, n / 2^16 % 256, n / 2^8 % 256, n % 256]

/-- SHA-256 padding: a `0x80` byte, zero bytes up to 56 mod 64, the bit length. -/
def sha256Pad (msg : List Nat) : List Nat :=
  msg ++ 0x80 :: (List.replicate ((119 - msg.length % 64) % 64) 0 ++ be64 (8 * msg.length))

/-- Groups bytes into big-endian 32-bit words. -/
def beWords : List Nat → List Nat
  | a :: b :: c :: d :: rest => (a * 16777216 + b * 65536 + c * 256 + d) :: beWords rest
  | _ => []

/-- Extends the message schedule by `n` words. -/
def schedule : Nat → List Nat → List Nat
  | 0, w => w
  | n + 1, w =>
    let t := w.length
    let w15 := w.getD (t - 15) 0
    let w2 := w.getD (t - 2) 0
    let s0 := rotr32 w15 7 ^^^ rotr32 w15 18 ^^^ (w15 >>> 3)
    let s1 := rotr32 w2 17 ^^^ rotr32 w2 19 ^^^ (w2 >>> 10)
    schedule n (w ++ [w32 (w.getD (t - 16) 0 + s0 + w.getD (t - 7) 0 + s1)])

/-- The eight working variables of SHA-256. -/
structure ShaState where
  a : Nat
  b : Nat
  c : Nat
  d : Nat
  e : Nat
  f : Nat
  g : Nat
  h : Nat

/-- One round of the compression function on a (constant, schedule word) pair. -/
def shaRound (s : ShaState) (kw : Nat × Nat) : ShaState :=
  let S1 := rotr32 s.e 6 ^^^ rotr32 s.e 11 ^^^ rotr32 s.e 25
  let ch := (s.e &&& s.f) ^^^ ((4294967295 - s.e) &&& s.g)
  let t1 := w32 (s.h + S1 + ch + kw.1 + kw.2)
  let S0 := rotr32 s.a 2 ^^^ rotr32 s.a 13 ^^^ rotr32 s.a 22
  let maj := (s.a &&& s.b) ^^^ (s.a &&& s.c) ^^^ (s.b &&& s.c)
  let t2 := w32 (S0 + maj)
  ⟨w32 (t1 + t2), s.a, s.b, s.c, w32 (s.d + t1), s.e, s.f, s.g⟩

/-- Compression of one 64-byte block into the chaining value. -/
def compressBlock (h : ShaState) (blk : List Nat) : ShaState :=
  let w := schedule 48 (beWords blk)
  let r := (sha256K.zip w).foldl shaRound h
  ⟨w32 (h.a + r.a), w32 (h.b + r.b), w32 (h.c + r.c), w32 (h.d + r.d),
   w32 (h.e + r.e), w32 (h.f + r.f), w32 (h.g + r.g), w32 (h.h + r.h)⟩

/-- Folds the compression function over `n` consecutive 64-byte blocks. -/
def shaBlocks : Nat → ShaState → List Nat → ShaState
  | 0, h, _ => h
  | n + 1, h, bytes => shaBlocks n (compressBlock h (bytes.take 64)) (bytes.drop 64)

/-- One lower-case hexadecimal digit. -/
def hexDigit (n : Nat) : Char := "0123456789abcdef".toList.getD n '0'

/-- The eight hexadecimal digits of a 32-bit word. -/
def hexWord (x : Nat) : List Char :=
  [hexDigit (x / 268435456 % 16), hexDigit (x / 16777216 % 16), hexDigit (x / 1048576 % 16),
   hexDigit (x / 65536 % 16), hexDigit (x / 4096 % 16), hexDigit (x / 256 % 16),
   hexDigit (x / 16 % 16), hexDigit (x % 16)]

/-- The function `hex.EncodeToString(sha256(record))` of `Block.Checksum`. -/
def sha256Hex (s : String) : String :=
  let p := sha256Pad (utf8Bytes s)
  let r := shaBlocks (p.length / 64)
    ⟨0x6a09e667, 0xbb67ae85, 0x3c6ef372, 0xa54ff53a,
     0x510e527f, 0x9b05688c, 0x1f83d9ab, 0x5be0cd19⟩ p
  String.mk ([r.a, r.b, r.c, r.d, r.e, r.f, r.g, r.h].flatMap hexWord)

/-! ## Data model (data.go, block.go) -/

/-- A Go `map[string]T`: an association list with distinct keys. -/
abbrev GoMap (β : Type) := AList (fun _ : String => β)

/-- Equality of Go maps is decided on their entry lists. -/
instance goMapDecEq {β : Type} [DecidableEq β] : DecidableEq (GoMap β) :=
  fun a b => decidable_of_iff (a.entries = b.entries) ⟨AList.ext, fun h => congrArg AList.entries h⟩

/-- The type `Data` of data.go: a string holding a JSON text. -/
abbrev Data := String

/-- The Go type `map[string]Data`, one bucket. -/
abbrev Bucket := GoMap Data

/-- The Go type `map[string]map[string]Data`, the storage of a block. -/
abbrev Storage := GoMap Bucket

/-- The struct `Block` of block.go. -/
structure Block where
  Index : Int
  Timestamp : String
  Storage : Storage
  Hash : String
  PrevHash : String
deriving DecidableEq

/-- Go `int` arithmetic: reduction of an integer to the signed 64-bit range. -/
def wrapInt64 (x : Int) : Int := (x + 9223372036854775808) % 18446744073709551616 - 9223372036854775808

/-- The largest Go `int`, `math.MaxInt64`. -/
def maxInt64 : Int := 9223372036854775807

/-- The smallest Go `int`, `math.MinInt64`. -/
def minInt64 : Int := -9223372036854775808

/-- Bytewise lexicographic order, the order of Go strings under `<`. -/
def bytesLt : List Nat → List Nat → Bool
  | [], [] => false
  | [], _ :: _ => true
  | _ :: _, [] => false
  | x :: xs, y :: ys => decide (x < y) || (x == y && bytesLt xs ys)

/-- The entries of a Go map in the order `fmt` prints them: sorted by key. -/
def sortedEntries {β : Type} (m : GoMap β) : List (Sigma fun _ : String => β) :=
  m.entries.insertionSort (fun x y => bytesLt (utf8Bytes y.1) (utf8Bytes x.1) = false)

/-- The text `fmt.Sprint` prints for a `map[string]Data`. -/
def sprintBucket (b : Bucket) : String :=
  "map[" ++ " ".intercalate ((sortedEntries b).map fun e => e.1 ++ ":" ++ e.2) ++ "]"

/-- The text `fmt.Sprint` prints for a `map[string]map[string]Data`. -/
def sprintStorage (s : Storage) : String :=
  "map[" ++ " ".intercalate ((sortedEntries s).map fun e => e.1 ++ ":" ++ sprintBucket e.2) ++ "]"

/-- The record `fmt.Sprint(b.Index, b.Timestamp, b.Storage, b.PrevHash)`: no
space is inserted because of every two adjacent operands one is a string. -/
def Block.record (b : Block) : String :=
  toString b.Index ++ b.Timestamp ++ sprintStorage b.Storage ++ b.PrevHash

/-- The method `Block.Checksum` of block.go. -/
def Block.Checksum (b : Block) : String := sha256Hex b.record

/-- The method `Block.IsValid` of block.go. -/
def Block.IsValid (newBlock oldBlock : Block) : Bool :=
  if wrapInt64 (oldBlock.Index + 1) != newBlock.Index then false
  else if oldBlock.Hash != newBlock.PrevHash then false
  else if newBlock.Checksum != newBlock.Hash then false
  else true

/-- The method `Block.NewBlock` of block.go; `now` is `time.Now().UTC().String()`. -/
def Block.NewBlock (oldBlock : Block) (now : String) (s : EdgeVPN.Storage) : Block :=
  let newBlock : Block := ⟨0, "", ∅, "", ""⟩
  let newBlock := { newBlock with Index := wrapInt64 (oldBlock.Index + 1) }
  let newBlock := { newBlock with Timestamp := now }
  let newBlock := { newBlock with Storage := s }
  let newBlock := { newBlock with PrevHash := oldBlock.Hash }
  let newBlock := { newBlock with Hash := newBlock.Checksum }
  newBlock

/-! ## The in-memory store (store_memory.go) -/

/-- The struct `MemoryStore`: one slot holding the latest block; `none` is the
nil pointer of a store that never received a block. -/
structure MemoryStore where
  block : Option Block
deriving DecidableEq

/-- The method `MemoryStore.Add`: the slot is overwritten. -/
def MemoryStore.Add (_m : MemoryStore) (b : Block) : MemoryStore := ⟨some b⟩

/-- The method `MemoryStore.Len`: zero on the nil slot, else the index of the block. -/
def MemoryStore.Len (m : MemoryStore) : Int :=
  match m.block with
  | none => 0
  | some b => b.Index

/-- The method `MemoryStore.Last`: dereferences the slot; `none` is the panic
of Go on the nil pointer. -/
def MemoryStore.Last (m : MemoryStore) : Option Block := m.block

/-! ## Messages (hub/message.go) and the external decoders -/

/-- The struct `hub.Message`; annotation values are kept as their JSON text. -/
structure Message where
  Message : String
  SenderID : String
  Annotations : GoMap String
deriving DecidableEq

/-- The external decoders used on the receive path: `gzip.NewReader`,
`ioutil.ReadAll` on the gzip reader, and `json.Unmarshal` into a `Block`.
The reader handed from the first to the second is the stream it reads. -/
structure Codec where
  gzipNewReader : String → Except String String
  readAll : String → Except String String
  jsonUnmarshal : String → Except String Block

/-- The function `deCompress` of ledger.go. -/
def deCompress (c : Codec) (b : String) : Except String String :=
  match c.gzipNewReader b with
  | .error err => .error err
  | .ok r =>
    match c.readAll r with
    | .error err => .error err
    | .ok result => .ok result

/-! ## The ledger (ledger.go) -/

/-- The struct `Ledger` over the in-memory store. The field `channel` is the
writer the ledger broadcasts to, modelled by the list of blocks written to it
so far (each one is written as the gzip of its JSON text). -/
structure Ledger where
  blockchain : MemoryStore
  channel : List Block
deriving DecidableEq

/-- The method `Ledger.newGenesis`; `now` is `time.Now().String()`. The hash
field is the checksum of the zero block `Block{}`, taken before the literal
is assigned. -/
def Ledger.newGenesis (l : Ledger) (now : String) : Ledger :=
  let genesisBlock : Block := ⟨0, "", ∅, "", ""⟩
  let genesisBlock : Block := ⟨0, now, ∅, genesisBlock.Checksum, ""⟩
  { l with blockchain := l.blockchain.Add genesisBlock }

/-- The function `New` of ledger.go on a memory store `s`. -/
def New (s : MemoryStore) (now : String) : Ledger :=
  let c : Ledger := ⟨s, []⟩
  if s.Len = 0 then c.newGenesis now else c

/-- The method `bucket.copy` of ledger.go. -/
def bucketCopy (b : Bucket) : Bucket :=
  b.entries.foldl (fun copy e => copy.insert e.1 e.2) ∅

/-- The method `buckets.copy` of ledger.go. -/
def bucketsCopy (b : Storage) : Storage :=
  b.entries.foldl (fun copy e => copy.insert e.1 (bucketCopy e.2)) ∅

/-- The Go statement `m[b][k] = v` on a map of maps. The inner map is shared
by reference, so the write is visible through `m`. Every call site creates
`m[b]` beforehand; on a missing bucket (where Go panics on the nil map) the
model leaves `m` as it is. -/
def setInner (m : Storage) (b k : String) (v : Data) : Storage :=
  match m.lookup b with
  | some inner => m.insert b (inner.insert k v)
  | none => m

/-- The guard `if _, exists := m[b]; !exists { m[b] = make(map[string]Data) }`. -/
def ensureBucket (m : Storage) (b : String) : Storage :=
  if (m.lookup b).isNone then m.insert b ∅ else m

/-- The method `Ledger.writeData`; `now` is the clock read by `NewBlock`.
`none` is the panic of `Last` on the nil slot. -/
def Ledger.writeData (l : Ledger) (now : String) (s : Storage) : Option Ledger :=
  match l.blockchain.Last with
  | none => none
  | some last =>
    let newBlock := last.NewBlock now s
    let blockchain := if newBlock.IsValid last then l.blockchain.Add newBlock else l.blockchain
    match blockchain.Last with
    | none => none
    | some head => some ⟨blockchain, l.channel ++ [head]⟩

/-- The method `Ledger.Add`; `jsonMarshal` is `json.Marshal` on the values,
whose error is discarded (the stored text is then empty). -/
def Ledger.Add {V : Type} (jsonMarshal : V → Option String) (l : Ledger) (now : String)
    (b : String) (s : GoMap V) : Option Ledger :=
  match l.blockchain.Last with
  | none => none
  | some last =>
    let current := bucketsCopy last.Storage
    let current := s.entries.foldl (fun current e =>
      let current := ensureBucket current b
      let dat := (jsonMarshal e.2).getD ""
      setInner current b e.1 dat) current
    l.writeData now current

/-- The method `Ledger.Delete`. -/
def Ledger.Delete (l : Ledger) (now : String) (b k : String) : Option Ledger :=
  match l.blockchain.Last with
  | none => none
  | some last =>
    let new := last.Storage.entries.foldl (fun new e =>
      let new := ensureBucket new e.1
      e.2.entries.foldl (fun new kv =>
        if !(e.1 == b && kv.1 == k) then setInner new e.1 kv.1 kv.2 else new) new) ∅
    l.writeData now new

/-- The method `Ledger.DeleteBucket`. -/
def Ledger.DeleteBucket (l : Ledger) (now : String) (b : String) : Option Ledger :=
  match l.blockchain.Last with
  | none => none
  | some last =>
    let new := last.Storage.entries.foldl (fun new e =>
      if e.1 == b then new
      else
        let new := ensureBucket new e.1
        e.2.entries.foldl (fun new kv => setInner new e.1 kv.1 kv.2) new) ∅
    l.writeData now new

/-- The method `Ledger.GetKey`. -/
def Ledger.GetKey (l : Ledger) (b s : String) : Data × Bool :=
  if l.blockchain.Len > 0 then
    match l.blockchain.Last with
    | none => ("", false)
    | some last =>
      match last.Storage.lookup b with
      | none => ("", false)
      | some bucket =>
        match bucket.lookup s with
        | some value => (value, true)
        | none => ("", false)
  else ("", false)

/-- The method `Ledger.CurrentData`; `none` is the panic of `Last` on the nil slot. -/
def Ledger.CurrentData (l : Ledger) : Option Storage :=
  match l.blockchain.Last with
  | none => none
  | some last => some (bucketsCopy last.Storage)

/-- The method `Ledger.LastBlock`. -/
def Ledger.LastBlock (l : Ledger) : Option Block := l.blockchain.Last

/-- The method `Ledger.Index`. -/
def Ledger.Index (l : Ledger) : Int := l.blockchain.Len

/-- The method `Ledger.Update`: the error returned (`none` is nil) and the
ledger after the call. The arguments `f` and `c` of the Go method are not
used by its body. -/
def Ledger.Update (c : Codec) (l : Ledger) (h : Message) : Option String × Ledger :=
  match deCompress c h.Message with
  | .error err => (some ("解压失败: " ++ err), l)
  | .ok b =>
    match c.jsonUnmarshal b with
    | .error err => (some ("解析区块链数据失败: " ++ err), l)
    | .ok block =>
      if block.Index > l.blockchain.Len then
        (none, { l with blockchain := l.blockchain.Add block })
      else (none, l)

/-! ## The peer gater (trustzone/peergater.go) -/

/-- The struct `PeerGater`; a `peer.ID` is a string. -/
structure PeerGater where
  trustDB : List String
  enabled : Bool
  relaxed : Bool
deriving DecidableEq

/-- The function `NewPeerGater`. -/
def NewPeerGater (relaxed : Bool) : PeerGater := ⟨[], true, relaxed⟩

/-- The loop `for _, pp := range pg.trustDB` of `Gate` with its final `return true`. -/
def gateScan (p : String) : List String → Bool
  | [] => true
  | pp :: rest => if pp == p then false else gateScan p rest

/-- The method `PeerGater.Gate`; the node argument is not used by the code. -/
def PeerGater.Gate (pg : PeerGater) (p : String) : Bool :=
  if !pg.enabled then false
  else if pg.relaxed && pg.trustDB.length == 0 then false
  else gateScan p pg.trustDB

/-! ## Observations and loop schemes used in the proofs -/

/-- What a reader of the two-level map observes at `m[b][k]`: `none` when the
bucket is missing, `some none` when the bucket exists without the key. -/
def storageView (m : Storage) (b k : String) : Option (Option Data) :=
  (m.lookup b).map fun bucket => bucket.lookup k

/-- The inner loop shared by `Delete` and `DeleteBucket`: the entries `kvs`
whose key passes `keep` are written into the bucket `bb` of `m`. -/
def copyInto (keep : String → Bool) (bb : String)
    (kvs : List (Sigma fun _ : String => Data)) (m : Storage) : Storage :=
  kvs.foldl (fun new kv => if keep kv.1 then setInner new bb kv.1 kv.2 else new) m

/-- The outer loop shared by `Delete` and `DeleteBucket`: every bucket that is
not skipped is created in the accumulator and filled by `copyInto`. -/
def copyBuckets (skip : String → Bool) (keep : String → String → Bool)
    (es : List (Sigma fun _ : String => Bucket)) (acc : Storage) : Storage :=
  es.foldl (fun new e =>
    if skip e.1 then new else copyInto (keep e.1) e.1 e.2.entries (ensureBucket new e.1)) acc

/-- The storage `Delete(b, k)` hands to `writeData`. -/
def deleteStorage (b k : String) (s : Storage) : Storage :=
  copyBuckets (fun _ => false) (fun bb kk => !(bb == b && kk == k)) s.entries ∅

/-- The storage `DeleteBucket(b)` hands to `writeData`. -/
def deleteBucketStorage (b : String) (s : Storage) : Storage :=
  copyBuckets (fun bb => bb == b) (fun _ _ => true) s.entries ∅

/-! ## Runs of a ledger -/

/-- One step of a run of a ledger: a local write (with the clock reading it
makes) or the receipt of a message. -/
inductive LedgerOp (V : Type) where
  | add (now b : String) (s : GoMap V)
  | delete (now b k : String)
  | deleteBucket (now b : String)
  | update (h : Message)

/-- The ledger after one step; `none` is a panic. -/
def Ledger.apply {V : Type} (c : Codec) (jsonMarshal : V → Option String) (l : Ledger) :
    LedgerOp V → Option Ledger
  | .add now b s => l.Add jsonMarshal now b s
  | .delete now b k => l.Delete now b k
  | .deleteBucket now b => l.DeleteBucket now b
  | .update h => some (l.Update c h).2

/-- The ledger after a sequence of steps. -/
def Ledger.run {V : Type} (c : Codec) (jsonMarshal : V → Option String) :
    Ledger → List (LedgerOp V) → Option Ledger
  | l, [] => some l
  | l, op :: ops =>
    match l.apply c jsonMarshal op with
    | none => none
    | some next => Ledger.run c jsonMarshal next ops

/-- The shape of the ledgers that runs from `New` go through until the head
index wraps: there is a head block, its index is not negative, and a head of
index 0 is a genesis block with empty storage. -/
def Ledger.regular (l : Ledger) : Bool :=
  match l.blockchain.block with
  | none => false
  | some blk => decide (0 ≤ blk.Index) && (blk.Index != 0 || blk.Storage.entries.isEmpty)

/-! ## Concrete instances used to evaluate the model -/

/-- The encoder `json.Marshal` on Go integers: the decimal numeral. -/
def marshalInt (v : Int) : Option String := some (toString v)

/-- A codec given by two finite tables: `gz` lists the payloads that are
valid gzip streams with the bytes they decompress to, `js` lists the byte
strings that are JSON texts of a block with the block they decode to.
Everything outside the tables is rejected by the respective decoder. -/
def tableCodec (gz : List (String × String)) (js : List (String × Block)) : Codec where
  gzipNewReader := fun b =>
    if (gz.lookup b).isSome then .ok b else .error "gzip: invalid header"
  readAll := fun r =>
    match gz.lookup r with
    | some body => .ok body
    | none => .error "unexpected EOF"
  jsonUnmarshal := fun b =>
    match js.lookup b with
    | some blk => .ok blk
    | none => .error "invalid character"

/-- A ledger as `New` returns it on an empty memory store. -/
def freshLedger : Ledger := New ⟨none⟩ "2021-11-04 10:00:00 +0000 UTC m=+0.001"

/-- A block a peer can broadcast: the largest index a Go `int` holds and one
stored entry `machines/10.1.0.1`. -/
def farBlock : Block :=
  ⟨9223372036854775807, "2021-11-04 10:00:01 +0000 UTC",
    AList.singleton "machines" (AList.singleton "10.1.0.1" "1"), "", ""⟩

/-- A block a peer can broadcast on top of the genesis block of any ledger
(whose hash is the checksum of the zero block): the index skips ahead and the
hash field is not a checksum. -/
def forgedBlock : Block :=
  ⟨5, "2021-11-04 10:00:01 +0000 UTC", ∅, "forged",
    "993c923422cd134b6aad0235ebfd4290a7b27b83d1bcd6b1fb2addc4b45b2fa6"⟩

/-- The inbound message carrying `forgedBlock`. -/
def forgedMessage : Message := ⟨"forged", "12D3KooWPeer", ∅⟩

/-- The genesis block of `freshLedger`, written out. -/
def freshGenesis : Block :=
  ⟨0, "2021-11-04 10:00:00 +0000 UTC m=+0.001", ∅,
    "993c923422cd134b6aad0235ebfd4290a7b27b83d1bcd6b1fb2addc4b45b2fa6", ""⟩

/-- A head block with index 1 holding `machines/10.1.0.1` and `dns/a`. -/
def sampleHead : Block :=
  ⟨1, "2021-11-04 10:00:01 +0000 UTC",
    (AList.singleton "machines" (AList.singleton "10.1.0.1" "1")).insert "dns"
      (AList.singleton "a" "2"), "", ""⟩

/-- The inbound message carrying `farBlock`. -/
def farMessage : Message := ⟨"far", "12D3KooWPeer", ∅⟩

/-- The decoders on the wire payloads of the examples: `far` and `forged` are
gzip streams of the JSON texts of `farBlock` and `forgedBlock`, `notjson` is a
gzip stream of bytes that are no JSON text, anything else is not gzip. -/
def sampleCodec : Codec :=
  tableCodec [("far", "far.json"), ("forged", "forged.json"), ("notjson", "<html>")]
    [("far.json", farBlock), ("forged.json", forgedBlock)]

/-- The ledger after `freshLedger` received `farMessage`. -/
def farLedger : Ledger := (freshLedger.Update sampleCodec farMessage).2

/-! ## Leader election (utils/leader.go) -/

/-- The 32-bit FNV-1a hash of `hash/fnv`: offset basis 2166136261, prime
16777619, one xor and one multiplication modulo `2^32` per byte. -/
def fnv32a (bytes : List Nat) : Nat :=
  bytes.foldl (fun h b => ((h ^^^ b) * 16777619) % 4294967296) 2166136261

/-- The function `hash` of leader.go. -/
def hash (s : String) : Nat := fnv32a (utf8Bytes s)

/-- One iteration of the loop of `Leader` on the state made of the map
`leaderboard` and the variable `leader`; reading a missing key of a Go map
gives 0. -/
def leaderStep (st : GoMap Nat × String) (a : String) : GoMap Nat × String :=
  let leaderboard := st.1.insert a (hash a)
  if (leaderboard.lookup st.2).getD 0 < (leaderboard.lookup a).getD 0
  then (leaderboard, a) else (leaderboard, st.2)

/-- The function `Leader` of leader.go. `none` is the panic of `actives[0]`
on an empty slice. -/
def Leader (actives : List String) : Option String :=
  match actives with
  | [] => none
  | first :: _ => some (actives.foldl leaderStep (∅, first)).2

/-- The loop of `Leader` without the map: the running leader is replaced by
every element with a strictly larger hash. -/
def pickLeader (leader : String) (actives : List String) : String :=
  actives.foldl (fun ld a => if hash ld < hash a then a else ld) leader

/-- Two distinct peer IDs (Ed25519 identities in base58) with the same
FNV-1a hash. -/
def collidingPeerA : String := "12D3KooWSN2pw8vpJVTXF9mHNv6W2oewG6PyPPJPe5vFAwTMEBgj"

/-- The second of the two colliding peer IDs. -/
def collidingPeerB : String := "12D3KooWD3jBxTVvhFQMt3MKRwwp6PLupLTWFgW1Vqp5Dh17GQx4"

/-- Three peer IDs as one node enumerates the alive set. -/
def aliveView1 : List String :=
  ["12D3KooWDkX2y2pknCEfaAUNuRjrQNcpDb1tumZYp4hwWbSjugm8",
   "12D3KooWNc2grUvGh2miFb39SVWs6BhpqmNQ81avWpjWzftQsAzy",
   "12D3KooWB8fL5uXW5KxsME4HJmD5XyKENm2ne9H5Cgxv2YVpUXZp"]

/-- The same three peer IDs as another node enumerates them. -/
def aliveView2 : List String :=
  ["12D3KooWB8fL5uXW5KxsME4HJmD5XyKENm2ne9H5Cgxv2YVpUXZp",
   "12D3KooWDkX2y2pknCEfaAUNuRjrQNcpDb1tumZYp4hwWbSjugm8",
   "12D3KooWNc2grUvGh2miFb39SVWs6BhpqmNQ81avWpjWzftQsAzy"]

/-! ## The announce tasks of the ledger (ledger.go) -/

/-- One tick of the task that `Ledger.Persist` hands to `Announce`: the
ledger after the tick and whether `cancel()` was called. Indexing a missing
bucket gives the nil map, indexing a missing key the empty `Data`; the error
of `json.Marshal` is discarded. `none` is the panic of `Last` on the nil
slot. -/
def Ledger.persistTick {V : Type} (jsonMarshal : V → Option String) (l : Ledger)
    (now bucket key : String) (value : V) : Option (Ledger × Bool) :=
  match l.CurrentData with
  | none => none
  | some data =>
    let entry := ((data.lookup bucket).getD ∅).lookup key
    let v := entry.getD ""
    let found := entry.isSome
    let realv := (jsonMarshal value).getD ""
    if !found || v != realv then
      (l.Add jsonMarshal now bucket (AList.singleton key value)).map fun written => (written, false)
    else if found && v == realv then some (l, true)
    else some (l, false)

/-! ## Peer identities (go-libp2p core/peer) and the hub room (hub/room.go) -/

/-- The alphabet of base58 (Bitcoin flavour), as used by `peer.ID.String`. -/
def base58Alphabet : List Char :=
  "123456789ABCDEFGHJKLMNPQRSTUVWXYZabcdefghijkmnopqrstuvwxyz".toList

/-- The base-58 digits of a number, most significant first; `fuel` bounds the
number of digits. -/
def base58Digits : Nat → Nat → List Nat
  | 0, _ => []
  | fuel + 1, n => if n = 0 then [] else base58Digits fuel (n / 58) ++ [n % 58]

/-- The method `peer.ID.String`: the base58 text of the bytes of the ID, one
`1` per leading zero byte followed by the digits of the big-endian number. -/
def peerIDString (id : List Nat) : String :=
  String.mk (List.replicate (id.takeWhile (fun b => b == 0)).length '1' ++
    (base58Digits (2 * id.length) (id.foldl (fun acc b => acc * 256 + b) 0)).map
      fun d => base58Alphabet.getD d '1')

/-- A message as the pub/sub subscription returns it: the transport peer it
was received from (the bytes of a `peer.ID`) and the payload. -/
structure PubsubMessage where
  ReceivedFrom : List Nat
  Data : String
deriving DecidableEq

/-- One iteration of `room.readLoop` on a message returned by `sub.Next`: the
message pushed to the channel, `none` when the iteration ends in `continue`.
The parameter `jsonUnmarshal` is `json.Unmarshal` into a fresh `Message`. -/
def readLoopStep (jsonUnmarshal : String → Except String Message) (self : List Nat)
    (msg : PubsubMessage) : Option Message :=
  if msg.ReceivedFrom == self then none
  else
    match jsonUnmarshal msg.Data with
    | .error _ => none
    | .ok cm => some { cm with SenderID := peerIDString msg.ReceivedFrom }

/-! ## The AES sealer (crypto/aes.go, crypto/sealer_aes.go) -/

/-- The value of one hexadecimal digit given as a byte, as in `encoding/hex`. -/
def fromHexChar (c : Nat) : Option Nat :=
  if 48 ≤ c ∧ c ≤ 57 then some (c - 48)
  else if 97 ≤ c ∧ c ≤ 102 then some (c - 97 + 10)
  else if 65 ≤ c ∧ c ≤ 70 then some (c - 65 + 10)
  else none

/-- The loop of `hex.Decode`: the bytes decoded before the first error, and
the error. -/
def hexDecode : List Nat → List Nat → List Nat × Option String
  | [], acc => (acc, none)
  | [p], acc =>
    match fromHexChar p with
    | none => (acc, some "encoding/hex: invalid byte")
    | some _ => (acc, some "encoding/hex: odd length hex string")
  | p :: q :: rest, acc =>
    match fromHexChar p, fromHexChar q with
    | some a, some b => hexDecode rest (acc ++ [a * 16 + b])
    | _, _ => (acc, some "encoding/hex: invalid byte")

/-- The function `hex.DecodeString`. -/
def hexDecodeString (s : String) : List Nat × Option String := hexDecode (utf8Bytes s) []

/-- The external primitives of `crypto/aes` and `crypto/cipher` used by
`AESDecrypt`: `aes.NewCipher` on the key, `cipher.NewGCM` on the block,
`gcm.NonceSize()`, and `gcm.Open(nil, nonce, ciphertext, nil)` with its
result converted to a string. A block and a GCM are represented by the key
they were made from. -/
structure AesGcm where
  newCipher : List Nat → Except String (List Nat)
  newGCM : List Nat → Except String (List Nat)
  nonceSize : Nat
  gcmOpen : List Nat → List Nat → List Nat → Except String String

/-- The function `AESDecrypt` of aes.go: the plaintext and the error (`none`
is nil). The error of `hex.DecodeString` is discarded. -/
def AESDecrypt (p : AesGcm) (text : String) (key : List Nat) : String × Option String :=
  let ciphertext := (hexDecodeString text).1
  match p.newCipher key with
  | .error err => ("", some err)
  | .ok block =>
    match p.newGCM block with
    | .error err => ("", some err)
    | .ok gcm =>
      if ciphertext.length < p.nonceSize then ("", some "密文格式错误")
      else
        match p.gcmOpen gcm (ciphertext.take p.nonceSize) (ciphertext.drop p.nonceSize) with
        | .error err => ("", some err)
        | .ok decodedtext => (decodedtext, none)

/-- The array `enckey := [32]byte\x7b\x7d` after `copy(enckey[:], key)`. -/
def sealKeyArray (key : String) : List Nat :=
  (utf8Bytes key).take 32 ++ List.replicate (32 - (utf8Bytes key).length) 0

/-- The interface `node.Sealer`, restricted to the method the receive path
uses: `Unseal(message, key)` returns a string and an error. -/
structure Sealer where
  Unseal : String → String → String × Option String

/-- The sealer `crypto.AESSealer`. -/
def AESSealer (p : AesGcm) : Sealer where
  Unseal := fun message key => AESDecrypt p message (sealKeyArray key)

/-! ## The event loop of the node (node/connection.go) -/

/-- The fields of `node.Config` read by the receive branch of `handleEvents`.
`PeerGater` is the interface value (`none` is nil), given by its method
`Gate` on the sender; `PeerTable` maps an address to the bytes of a
`peer.ID`. -/
structure NodeConfig where
  PeerGater : Option (String → Bool)
  PeerTable : GoMap (List Nat)
  Sealer : Sealer

/-- The method `Node.handleReceivedMessage`: every handler is called on the
message, in order; the result lists the calls made. -/
def handleReceivedMessage {H : Type} (m : Message) (handlers : List H) : List (H × Message) :=
  handlers.map fun h => (h, m)

/-- The loop over `PeerTable` in `handleEvents`: whether `found` is set.
`peer.ID(m.SenderID)` is the ID made of the bytes of the sender text. -/
def peerTableFound (table : GoMap (List Nat)) (sender : String) : Bool :=
  table.entries.foldl (fun found e =>
    if peerIDString e.2 == peerIDString (utf8Bytes sender) then true else found) false

/-- The branch `case m := <-roomMessages` of `Node.handleEvents` on one
value `m` of the channel (`none` is the nil pointer): the handler calls it
makes. `sealkey` is the value of `e.sealkey()`. -/
def handleRoomMessage {H : Type} (cfg : NodeConfig) (sealkey : String) (handlers : List H)
    (peerGater : Bool) (m : Option Message) : List (H × Message) :=
  match m with
  | none => []
  | some m =>
    if peerGater && (match cfg.PeerGater with
        | some gate => gate m.SenderID
        | none => false) then []
    else if decide (cfg.PeerTable.entries.length > 0) &&
        !(peerTableFound cfg.PeerTable m.SenderID) then []
    else
      let c := m
      let c := { c with Message := (cfg.Sealer.Unseal c.Message sealkey).1 }
      handleReceivedMessage c handlers

/-- A GCM that authenticates no ciphertext: key and block setup succeed, the
nonce has the standard 12 bytes, `Open` fails. -/
def rejectingGcm : AesGcm where
  newCipher := fun key => .ok key
  newGCM := fun block => .ok block
  nonceSize := 12
  gcmOpen := fun _ _ _ => .error "cipher: message authentication failed"

/-- A decoder of wire payloads given by a finite table; every other payload
is rejected. -/
def tableMessageDecoder (table : List (String × Message)) (data : String) :
    Except String Message :=
  match table.lookup data with
  | some m => .ok m
  | none => .error "invalid character"

/-- The bytes of the peer ID `collidingPeerA`: the identity multihash of an
Ed25519 public key. -/
def samplePeerBytes : List Nat :=
  [0, 36, 8, 1, 18, 32, 245, 215, 181, 7, 117, 149, 69, 119, 224, 128, 96, 36, 207, 117, 131,
   34, 44, 2, 126, 146, 30, 254, 5, 235, 201, 232, 20, 74, 228, 79, 47, 240]

/-- The two tests that the receive branch of `handleEvents` makes before it
unseals, as one condition: no gater is configured or the gater does not gate
the sender, and the static peer table is empty or holds a peer whose string
form is the string form of `peer.ID(m.SenderID)`, the ID made of the bytes of
the sender text. This is the comparison of the code; the condition of the
specification, that the table lists the sender, is `claimDelivers`. -/
def specDelivers (cfg : NodeConfig) (sender : String) : Bool :=
  (match cfg.PeerGater with
    | none => true
    | some gate => !gate sender) &&
  (cfg.PeerTable.entries.isEmpty ||
    cfg.PeerTable.entries.any fun e => peerIDString e.2 == peerIDString (utf8Bytes sender))

/-- The condition of delivery in the words of the specification, for a
message whose `SenderID` is `sender`, the string form of the peer it came
from: no gater is configured or the gater does not gate the sender, and the
static peer table is empty or the sender is in it, that is, the table holds
the peer ID whose string form is `sender`. -/
def claimDelivers (cfg : NodeConfig) (sender : String) : Bool :=
  (match cfg.PeerGater with
    | none => true
    | some gate => !gate sender) &&
  (cfg.PeerTable.entries.isEmpty ||
    cfg.PeerTable.entries.any fun e => peerIDString e.2 == sender)

/-- A node configuration without gater and without peer table whose sealer
is the AES sealer over `rejectingGcm`. -/
def openConfig : NodeConfig := ⟨none, ∅, AESSealer rejectingGcm⟩

/-- A sealed payload as it travels on the private channel: 31 bytes in
hexadecimal (nonce, three bytes of ciphertext, tag). -/
def sealedPayload : String := "3f9a1c0d5e7b2a4468c1d0e2f3a4b5c6d7e8f9a0b1c2d3e4f5a6b7c8d9e0f1"

/-! ## The ECDSA auth provider (trustzone/authprovider/ecdsa) -/

/-- The external primitives used by `verify` and `Authenticate`:
`base64.URLEncoding.DecodeString`; `pem.Decode`, given by the `Bytes` of the
block it finds (`none` is the nil block it returns when the input holds no
PEM block); `x509.ParsePKIXPublicKey` followed by the type assertion to an
ECDSA key (`none` is a key of another kind); `asn1.Unmarshal` into the pair
`(R, S)`; `ecdsa.Verify`; `json.Unmarshal` of a `Data` into a string; and
`fmt.Sprint` of an annotation value, given as its JSON text. -/
structure EcdsaPrimitives where
  base64Decode : String → Except String String
  pemDecode : String → Option String
  parsePKIXPublicKey : String → Except String (Option String)
  asn1Unmarshal : String → Except String (Int × Int)
  ecdsaVerify : String → String → Int → Int → Bool
  jsonUnmarshalString : String → Option String
  sprint : String → String

/-- The function `hashReader` of crypto.go on a buffer: the hexadecimal text
of the SHA-256 of its content. Reading a buffer does not fail. -/
def hashReader (data : String) : String := sha256Hex data

/-- The function `unmarshalSignature` of crypto.go. -/
def unmarshalSignature (p : EcdsaPrimitives) (sig : String) : Except String (Int × Int) :=
  match p.asn1Unmarshal sig with
  | .error err => .error err
  | .ok ts => .ok ts

/-- The function `loadPublicKey` of crypto.go. The outer `none` is the panic
of `block.Bytes` on the nil block. -/
def loadPublicKey (p : EcdsaPrimitives) (bs : String) : Option (Except String String) :=
  match p.base64Decode bs with
  | .error err => some (.error err)
  | .ok bDecoded =>
    match p.pemDecode bDecoded with
    | none => none
    | some blockBytes =>
      match p.parsePKIXPublicKey blockBytes with
      | .error err => some (.error err)
      | .ok none => some (.error "不支持的公钥格式")
      | .ok (some pk) => some (.ok pk)

/-- The function `verify` of crypto.go: `some none` is the nil error of a
correct signature, `some (some err)` an error, and the outer `none` the panic
of `block.Bytes` on the nil block. -/
def verify (p : EcdsaPrimitives) (pubKeyPEM signature data : String) : Option (Option String) :=
  match loadPublicKey p pubKeyPEM with
  | none => none
  | some (.error err) => some (some err)
  | some (.ok key) =>
    match p.base64Decode signature with
    | .error err => some (some err)
    | .ok bsDec =>
      match p.pemDecode bsDec with
      | none => none
      | some blockBytes =>
        match unmarshalSignature p blockBytes with
        | .error err => some (some err)
        | .ok (r, s) =>
          if !p.ecdsaVerify key (hashReader data) r s then some (some "签名不正确")
          else some none

/-- The function `strings.Contains` on character lists. -/
def containsChars : List Char → List Char → Bool
  | [], sub => sub.isEmpty
  | c :: rest, sub => sub.isPrefixOf (c :: rest) || containsChars rest sub

/-- The function `strings.Contains`. -/
def stringsContains (s substr : String) : Bool := containsChars s.toList substr.toList

/-- The first loop of `Authenticate`: the strings decoded from the values of
the entries whose key contains `ecdsa`; a value that is no JSON string leaves
the empty string. -/
def collectPubKeys (p : EcdsaPrimitives) (tzdata : Bucket) : List String :=
  tzdata.entries.foldl (fun pubKeys e =>
    if stringsContains e.1 "ecdsa" then pubKeys ++ [(p.jsonUnmarshalString e.2).getD ""]
    else pubKeys) []

/-- The second loop of `Authenticate` with its final `return false`; `none`
is a panic of `verify`. -/
def verifyAny (p : EcdsaPrimitives) (signature data : String) : List String → Option Bool
  | [] => some false
  | pubkey :: rest =>
    match verify p pubkey signature data with
    | none => none
    | some none => some true
    | some (some _) => verifyAny p signature data rest

/-- The method `ECDSA521.Authenticate`; the channel argument is not used by
the code. `none` is a panic. -/
def Authenticate (p : EcdsaPrimitives) (m : Message) (tzdata : Bucket) : Option Bool :=
  match m.Annotations.lookup "sigs" with
  | none => some false
  | some sigs =>
    let pubKeys := collectPubKeys p tzdata
    if pubKeys.length == 0 then some false
    else verifyAny p (p.sprint sigs) m.Message pubKeys

/-- The string a JSON text of a string without escapes stands for. -/
def unquote (j : String) : Option String :=
  match j.toList with
  | '"' :: rest =>
    match rest.reverse with
    | '"' :: inner =>
      if inner.all (fun c => c != '"' && c != '\\') then some (String.mk inner.reverse) else none
    | _ => none
  | _ => none

/-- The primitives on the texts of the examples. `aGVsbG8=` is the base64
text of `hello`, the empty string that of the empty string, and neither
result holds a PEM block; `trusted.pub` stands for the base64 text of the PEM
file `trusted.pem` of an ECDSA key `trusted.key`, and `challenge.sig` for the
base64 text of a PEM signature block whose ASN.1 content is the pair
`(11, 22)`, which that key accepts for the SHA-256 of `challenge`. -/
def sampleEcdsa : EcdsaPrimitives where
  base64Decode := fun s =>
    match [("", ""), ("aGVsbG8=", "hello"), ("trusted.pub", "trusted.pem"),
      ("challenge.sig", "challenge.sig.pem")].lookup s with
    | some d => .ok d
    | none => .error "illegal base64 data"
  pemDecode := fun s =>
    [("trusted.pem", "trusted.der"), ("challenge.sig.pem", "challenge.sig.der")].lookup s
  parsePKIXPublicKey := fun s =>
    match [("trusted.der", some "trusted.key")].lookup s with
    | some k => .ok k
    | none => .error "asn1: structure error"
  asn1Unmarshal := fun s =>
    match [("challenge.sig.der", ((11 : Int), (22 : Int)))].lookup s with
    | some rs => .ok rs
    | none => .error "asn1: structure error"
  ecdsaVerify := fun key hash r s =>
    key == "trusted.key" && hash == sha256Hex "challenge" && r == 11 && s == 22
  jsonUnmarshalString := unquote
  sprint := fun j => (unquote j).getD j

/-- A public message that answers the challenge with a valid signature. -/
def signedChallenge : Message :=
  ⟨"challenge", collidingPeerA, AList.singleton "sigs" "\"challenge.sig\""⟩

/-- A public message whose `sigs` annotation is valid base64 of bytes that
hold no PEM block. -/
def malformedChallenge : Message :=
  ⟨"challenge", collidingPeerB, AList.singleton "sigs" "\"aGVsbG8=\""⟩

/-- A `trustzoneAuth` bucket with a value that is no JSON string next to the
trusted key, in the order in which the loop of `Authenticate` meets them. -/
def mixedAuthBucket : Bucket :=
  (AList.singleton "ecdsa_1" "\"trusted.pub\"").insert "ecdsa_0" "5"

/-! ## The autocleanup of the peer guardian (trustzone/peerguardian.go) -/

/-- The constant `protocol.TrustZoneKey`. -/
def TrustZoneKey : String := "trustzone"

/-- The constant `protocol.TrustZoneAuthKey`. -/
def TrustZoneAuthKey : String := "trustzoneAuth"

/-- The inner loop labelled `PEER` of the autocleanup: whether it is left
through `break PEER`, which happens at the first peer whose string form is
the key. -/
def peerListed (peers : List (List Nat)) (k : String) : Bool :=
  match peers with
  | [] => false
  | p :: rest => if peerIDString p == k then true else peerListed rest k

/-- The autocleanup block of the task of `PeerGuardian.Challenger`. The
argument `peers` is the result of `ListPeers()`, `clock n` the clock reading
of the `n`-th `Delete`. The label `PEER` is on the inner loop, so
`break PEER` leaves that loop only and the `Delete` that follows it runs for
every key. `none` is the panic of `Last` on the nil slot. -/
def autocleanupPass (l : Ledger) (clock : Nat → String)
    (peers : Except String (List (List Nat))) : Option Ledger :=
  match peers with
  | .error _ => some l
  | .ok peers =>
    match l.CurrentData with
    | none => none
    | some data =>
      let tz := (data.lookup TrustZoneKey).getD ∅
      (tz.entries.foldl (fun (st : Option (Ledger × Nat)) e =>
        match st with
        | none => none
        | some (cur, n) =>
          let _left := peerListed peers e.1
          (cur.Delete (clock n) TrustZoneKey e.1).map fun next => (next, n + 1))
        (some (l, 0))).map Prod.fst

/-- A head block whose trust zone holds the peers `collidingPeerA` and
`collidingPeerB`. -/
def trustZoneHead : Block :=
  ⟨3, "2021-11-04 10:00:03 +0000 UTC",
    AList.singleton "trustzone"
      ((AList.singleton collidingPeerB "\"\"").insert collidingPeerA "\"\""), "", ""⟩

/-! ## The stream manager (stream/manager.go) -/

/-- The struct `connmgr.DecayingValue`; a tag is named by its name, times
are in nanoseconds. -/
structure DecayingValue where
  Tag : String
  Peer : String
  Value : Int
  Added : Int
  LastVisit : Int
deriving DecidableEq

/-- The struct `peerInfo`; a stream is named by its ID, `conns` maps it to
its start time. -/
structure PeerInfo where
  id : String
  tags : GoMap Int
  decaying : GoMap DecayingValue
  value : Int
  temp : Bool
  conns : GoMap Int
  firstSeen : Int
deriving DecidableEq

/-- The fields of the struct `config` that the manager reads. -/
structure ManagerConfig where
  highWater : Int
  lowWater : Int
  gracePeriod : Int
  silencePeriod : Int
deriving DecidableEq

/-- The state of the struct `Manager`: the 256 segments, each the map
`peers` of a `segment`, the map `protected` (a reserved word, hence
`protectedPeers`) and the counter `connCount`. -/
structure Manager where
  cfg : ManagerConfig
  segments : List (GoMap PeerInfo)
  protectedPeers : GoMap (GoMap Unit)
  connCount : Int
deriving DecidableEq

/-- Go `int32` arithmetic: reduction to the signed 32-bit range. -/
def wrapInt32 (x : Int) : Int := (x + 2147483648) % 4294967296 - 2147483648

/-- The function `NewConnManager` without options: grace and silence period
are 10 seconds. -/
def NewConnManager (low hi : Int) : Manager :=
  ⟨⟨hi, low, 10000000000, 10000000000⟩, List.replicate 256 ∅, ∅, 0⟩

/-- The index computed by `segments.get`: the last byte of the peer ID;
`none` is the panic of indexing an empty ID. -/
def segmentIndex (p : String) : Option Nat := (utf8Bytes p).getLast?

/-- The method `Manager.Protect`. -/
def Manager.Protect (cm : Manager) (id tag : String) : Manager :=
  { cm with protectedPeers := cm.protectedPeers.insert id (((cm.protectedPeers.lookup id).getD ∅).insert tag ()) }

/-- The method `Manager.Connected` for a stream `c` to the remote peer `p`;
the clock readings of one call are taken equal. `none` is the panic of
`segments.get` on an empty ID. -/
def Manager.Connected (cm : Manager) (now : Int) (p c : String) : Option Manager :=
  match segmentIndex p with
  | none => none
  | some i =>
    let s := cm.segments.getD i ∅
    let pinfo : PeerInfo :=
      match s.lookup p with
      | none => ⟨p, ∅, ∅, 0, false, ∅, now⟩
      | some pinfo => if pinfo.temp then { pinfo with temp := false, firstSeen := now } else pinfo
    let pinfo := { pinfo with conns := AList.singleton c now }
    some { cm with segments := cm.segments.set i (s.insert p pinfo),
                   connCount := wrapInt32 (cm.connCount + 1) }

/-- The peers tracked by the manager, in the order in which a loop over the
segments and their maps meets them. -/
def trackedPeers (segments : List (GoMap PeerInfo)) : List (Sigma fun _ : String => PeerInfo) :=
  segments.flatMap fun s => s.entries

/-- The first loop of `getConnsToClose`: the copies of the peers that are
neither protected nor inside the grace period, and the number of their
streams. -/
def collectCandidates (cm : Manager) (gracePeriodStart : Int) : List PeerInfo × Int :=
  cm.segments.foldl (fun acc s =>
    s.entries.foldl (fun acc e =>
      if (cm.protectedPeers.lookup e.1).isSome then acc
      else if e.2.firstSeen > gracePeriodStart then acc
      else (acc.1 ++ [e.2], acc.2 + e.2.conns.entries.length)) acc) ([], 0)

/-- The comparison of `peerInfos.SortByValue`: temporary peers first, then by
value. -/
def peerLess (left right : PeerInfo) : Bool :=
  if left.temp != right.temp then left.temp else decide (left.value < right.value)

/-- The method `peerInfos.SortByValue`. `sort.Slice` is not stable and leaves
the order among peers that compare equal unspecified; the model sorts by
insertion, and the theorems on it use only that the result is a permutation
of the input. -/
def sortByValue (p : List PeerInfo) : List PeerInfo :=
  p.insertionSort fun a b => peerLess b a = false

/-- The statement `delete(s.peers, id)` on the segment of index `i`. -/
def deletePeer (segments : List (GoMap PeerInfo)) (i : Nat) (id : String) :
    List (GoMap PeerInfo) :=
  segments.set i ((segments.getD i ∅).erase id)

/-- The second loop of `getConnsToClose` on the sorted candidates: the
selected streams and the segments after the loop. `none` is the panic of
`segments.get` on an empty ID. -/
def closeLoop : List PeerInfo → Int → List String → List (GoMap PeerInfo) →
    Option (List String × List (GoMap PeerInfo))
  | [], _, selected, segments => some (selected, segments)
  | inf :: rest, target, selected, segments =>
    if target ≤ 0 then some (selected, segments)
    else
      match segmentIndex inf.id with
      | none => none
      | some i =>
        if inf.conns.entries.length == 0 && inf.temp then
          closeLoop rest target selected (deletePeer segments i inf.id)
        else
          closeLoop rest (target - inf.conns.entries.length) (selected ++ inf.conns.keys) segments

/-- The method `Manager.getConnsToClose` at clock reading `now`: the streams
to close and the manager after the call. The subtraction
`ncandidates - cm.cfg.lowWater` and the sum `target+10` are those of Go
`int`. `none` is a panic: of `make([]network.Stream, 0, target+10)` when that
capacity is negative or exceeds `maxCap`, the largest capacity the runtime
allocates, or of `segments.get` on an empty ID. -/
def Manager.getConnsToClose (cm : Manager) (maxCap now : Int) :
    Option (List String × Manager) :=
  if cm.cfg.lowWater == 0 || cm.cfg.highWater == 0 then some ([], cm)
  else if cm.connCount ≤ cm.cfg.lowWater then some ([], cm)
  else
    let gracePeriodStart := now - cm.cfg.gracePeriod
    let found := collectCandidates cm gracePeriodStart
    if found.2 < cm.cfg.lowWater then some ([], cm)
    else
      let candidates := sortByValue found.1
      let target := wrapInt64 (found.2 - cm.cfg.lowWater)
      let capacity := wrapInt64 (target + 10)
      if capacity < 0 ∨ capacity > maxCap then none
      else
        (closeLoop candidates target [] cm.segments).map fun r =>
          (r.1, { cm with segments := r.2 })

/-- The method `Manager.trim`: every stream returned by `getConnsToClose` is
closed. Closing a stream sends no notification to the manager, whose state
is the one `getConnsToClose` left. The result lists the closed streams. -/
def Manager.trim (cm : Manager) (maxCap now : Int) : Option (List String × Manager) :=
  cm.getConnsToClose maxCap now

/-- The largest capacity for which `make([]network.Stream, 0, n)` does not
exceed the address space of the heap on a 64-bit machine: `2^48` bytes at 16
bytes for each interface value. -/
def heapStreamCap : Int := 17592186044416

/-- The number of streams of a peer that are not in the list `closed`. -/
def openConns (closed : List String) (inf : PeerInfo) : Nat :=
  (inf.conns.keys.filter fun c => !closed.contains c).length

/-- The number of tracked streams that are still open when the streams of
`closed` have been closed. -/
def streamsLeft (segments : List (GoMap PeerInfo)) (closed : List String) : Nat :=
  ((trackedPeers segments).map fun e => openConns closed e.2).sum

/-- The number `N` of tracked streams. -/
def trackedStreams (segments : List (GoMap PeerInfo)) : Nat :=
  ((trackedPeers segments).map fun e => e.2.conns.entries.length).sum

/-- The number `P` of streams of protected peers. -/
def protectedStreams (cm : Manager) : Nat :=
  (((trackedPeers cm.segments).filter fun e => (cm.protectedPeers.lookup e.1).isSome).map
    fun e => e.2.conns.entries.length).sum

/-- The number `G` of streams of peers inside the grace period at `now`. -/
def graceStreams (cm : Manager) (now : Int) : Nat :=
  (((trackedPeers cm.segments).filter fun e =>
    decide (e.2.firstSeen > now - cm.cfg.gracePeriod)).map
      fun e => e.2.conns.entries.length).sum

/-- The manager after a sequence of `Connected` notifications at time 0,
each for one stream to one peer. -/
def connectAll (cm : Manager) : List (String × String) → Option Manager
  | [] => some cm
  | (p, c) :: rest =>
    match cm.Connected 0 p c with
    | none => none
    | some next => connectAll next rest

/-- A manager with low watermark 1 and high watermark 3 that tracks four
peers with one stream each, two of them protected. -/
def crowdedManager : Option Manager :=
  (connectAll (NewConnManager 1 3)
    [("peerA", "streamA"), ("peerB", "streamB"), ("peerC", "streamC"), ("peerD", "streamD")]).map
    fun cm => (cm.Protect "peerC" "vpn").Protect "peerD" "vpn"

/-- A manager with low watermark 5 and high watermark 8 that tracks ten
peers with one stream each, connected at time 0, two of them protected. -/
def tenPeerManager : Option Manager :=
  (connectAll (NewConnManager 5 8)
    [("peer0", "stream0"), ("peer1", "stream1"), ("peer2", "stream2"), ("peer3", "stream3"),
     ("peer4", "stream4"), ("peer5", "stream5"), ("peer6", "stream6"), ("peer7", "stream7"),
     ("peer8", "stream8"), ("peer9", "stream9")]).map
    fun cm => (cm.Protect "peer8" "vpn").Protect "peer9" "vpn"

/-- Whether the first loop of `getConnsToClose` keeps a tracked peer as a
candidate: it is not protected and its `firstSeen` is not after the start of
the grace period. -/
def isCandidate (cm : Manager) (gracePeriodStart : Int)
    (e : Sigma fun _ : String => PeerInfo) : Bool :=
  !(cm.protectedPeers.lookup e.1).isSome && !decide (e.2.firstSeen > gracePeriodStart)

/-- The number of streams of a list of peers. -/
def connsOf (l : List PeerInfo) : Nat := (l.map fun inf => inf.conns.entries.length).sum


/-- The state of `crowdedManager`; the connections of that sample do not
fail, the fresh manager stands for the case that they did. -/
def crowdedState : Manager := crowdedManager.getD (NewConnManager 1 3)


/-! ## Protection, notifications and scores of the stream manager (stream/manager.go) -/

/-- The method `Manager.Unprotect`: the manager after the call and the
result. -/
def Manager.Unprotect (cm : Manager) (id tag : String) : Manager × Bool :=
  match cm.protectedPeers.lookup id with
  | none => (cm, false)
  | some tags =>
    let tags := tags.erase tag
    if tags.entries.length == 0 then
      ({ cm with protectedPeers := cm.protectedPeers.erase id }, false)
    else ({ cm with protectedPeers := cm.protectedPeers.insert id tags }, true)

/-- The method `Manager.IsProtected`. -/
def Manager.IsProtected (cm : Manager) (id tag : String) : Bool :=
  match cm.protectedPeers.lookup id with
  | none => false
  | some tags => if tag == "" then true else (tags.lookup tag).isSome

/-- The method `Manager.Disconnected` for the stream `c` to the remote peer
`p`. `none` is the panic of `segments.get` on an empty ID. -/
def Manager.Disconnected (cm : Manager) (p c : String) : Option Manager :=
  match segmentIndex p with
  | none => none
  | some i =>
    let s := cm.segments.getD i ∅
    match s.lookup p with
    | none => some cm
    | some cinf =>
      match cinf.conns.lookup c with
      | none => some cm
      | some _ =>
        let cinf := { cinf with conns := cinf.conns.erase c }
        let s := if cinf.conns.entries.length == 0 then s.erase p else s.insert p cinf
        some { cm with segments := cm.segments.set i s,
                       connCount := wrapInt32 (cm.connCount - 1) }

/-- A notification of the network to the manager, with the clock reading at
which it arrives. -/
inductive Notification where
  | connected (now : Int) (p c : String)
  | disconnected (p c : String)
deriving DecidableEq

/-- The manager after one notification. -/
def Manager.notify (cm : Manager) : Notification → Option Manager
  | .connected now p c => cm.Connected now p c
  | .disconnected p c => cm.Disconnected p c

/-- The manager after a sequence of notifications. -/
def Manager.notifyAll (cm : Manager) : List Notification → Option Manager
  | [] => some cm
  | n :: rest =>
    match cm.notify n with
    | none => none
    | some next => next.notifyAll rest

/-- The method `segment.tagInfoFor`: the entry of the peer and the segment
after the call, which holds a temporary entry for a peer it did not hold. -/
def tagInfoFor (s : GoMap PeerInfo) (p : String) (now : Int) : PeerInfo × GoMap PeerInfo :=
  match s.lookup p with
  | some pi => (pi, s)
  | none =>
    let pi : PeerInfo := ⟨p, ∅, ∅, 0, true, ∅, now⟩
    (pi, s.insert p pi)

/-- The method `Manager.TagPeer`. -/
def Manager.TagPeer (cm : Manager) (now : Int) (p tag : String) (val : Int) : Option Manager :=
  match segmentIndex p with
  | none => none
  | some i =>
    let s := cm.segments.getD i ∅
    let found := tagInfoFor s p now
    let pi := found.1
    let pi := { pi with value := wrapInt64 (pi.value + wrapInt64 (val - (pi.tags.lookup tag).getD 0)) }
    let pi := { pi with tags := pi.tags.insert tag val }
    some { cm with segments := cm.segments.set i (found.2.insert p pi) }

/-- The method `Manager.UntagPeer`. -/
def Manager.UntagPeer (cm : Manager) (p tag : String) : Option Manager :=
  match segmentIndex p with
  | none => none
  | some i =>
    let s := cm.segments.getD i ∅
    match s.lookup p with
    | none => some cm
    | some pi =>
      let pi := { pi with value := wrapInt64 (pi.value - (pi.tags.lookup tag).getD 0) }
      let pi := { pi with tags := pi.tags.erase tag }
      some { cm with segments := cm.segments.set i (s.insert p pi) }

/-- The method `Manager.UpsertTag`. -/
def Manager.UpsertTag (cm : Manager) (now : Int) (p tag : String) (upsert : Int → Int) :
    Option Manager :=
  match segmentIndex p with
  | none => none
  | some i =>
    let s := cm.segments.getD i ∅
    let found := tagInfoFor s p now
    let pi := found.1
    let oldval := (pi.tags.lookup tag).getD 0
    let newval := upsert oldval
    let pi := { pi with value := wrapInt64 (pi.value + wrapInt64 (newval - oldval)) }
    let pi := { pi with tags := pi.tags.insert tag newval }
    some { cm with segments := cm.segments.set i (found.2.insert p pi) }

/-! ## Decaying tags (stream/decay.go) -/

/-- The struct `decayingTag`. A peer keeps its decaying values under the
pointer to the tag; the model uses the name of the tag as that identity. -/
structure DecayingTag where
  name : String
  interval : Int
  nextTick : Int
  decayFn : DecayingValue → Int × Bool
  bumpFn : DecayingValue → Int → Int

/-- The state shared by the loop of `decayer.process`: the manager and the
map `knownTags`. -/
structure Decayer where
  mgr : Manager
  knownTags : GoMap DecayingTag

/-- Applies `f` to every peer of a segment in place, as a loop
`for _, p := range s.peers` that writes through the pointer `p` does. -/
def forPeers (f : PeerInfo → PeerInfo) (s : GoMap PeerInfo) : GoMap PeerInfo :=
  ⟨s.entries.map fun e => ⟨e.1, f e.2⟩, by
    have h := s.nodupKeys
    have hk : (s.entries.map fun e => (⟨e.1, f e.2⟩ : Sigma fun _ : String => PeerInfo)).keys =
        s.entries.keys := by
      unfold List.keys
      rw [List.map_map]
      rfl
    unfold List.NodupKeys at h ⊢
    rw [hk]
    exact h⟩

/-- The body of the loop over `p.decaying` in the ticker branch, on the
entry `e`: a value whose tag is in `visit` is replaced by the result of the
decay function of the tag, or deleted, and the difference is added to the
score of the peer. -/
def decayStep (visit : GoMap DecayingTag) (now : Int) (p : PeerInfo)
    (e : Sigma fun _ : String => DecayingValue) : PeerInfo :=
  match visit.lookup e.1 with
  | none => p
  | some tag =>
    let delta : Int := 0
    let r := tag.decayFn e.2
    if r.2 then
      let delta := wrapInt64 (delta - e.2.Value)
      { p with decaying := p.decaying.erase e.1, value := wrapInt64 (p.value + delta) }
    else
      let delta := wrapInt64 (delta + wrapInt64 (r.1 - e.2.Value))
      { p with decaying := p.decaying.insert e.1 { e.2 with Value := r.1, LastVisit := now },
               value := wrapInt64 (p.value + delta) }

/-- The loop `for tag, v := range p.decaying` of the ticker branch for one
peer. -/
def decayPeer (visit : GoMap DecayingTag) (now : Int) (p : PeerInfo) : PeerInfo :=
  p.decaying.entries.foldl (decayStep visit now) p

/-- The branch `case now = <-ticker.C` of `decayer.process`. -/
def Decayer.tick (d : Decayer) (now : Int) : Decayer :=
  let visit : GoMap DecayingTag := d.knownTags.entries.foldl (fun visit e =>
    if e.2.nextTick > now then visit else visit.insert e.1 e.2) ∅
  let segments := d.mgr.segments.map (forPeers (decayPeer visit now))
  let knownTags := visit.entries.foldl (fun known e =>
    known.insert e.1 { e.2 with nextTick := e.2.nextTick + e.2.interval }) d.knownTags
  ⟨{ d.mgr with segments := segments }, knownTags⟩

/-- The branch `case bmp = <-d.bumpTagCh` of `decayer.process`. `none` is the
panic of `segments.get` on an empty ID. -/
def Decayer.bump (d : Decayer) (now : Int) (peer : String) (tag : DecayingTag) (delta : Int) :
    Option Decayer :=
  match segmentIndex peer with
  | none => none
  | some i =>
    let s := d.mgr.segments.getD i ∅
    let found := tagInfoFor s peer now
    let p := found.1
    let v : DecayingValue :=
      match p.decaying.lookup tag.name with
      | some v => v
      | none => ⟨tag.name, peer, 0, now, now⟩
    let prev := v.Value
    let v := { v with Value := tag.bumpFn v delta, LastVisit := now }
    let p := { p with decaying := p.decaying.insert tag.name v,
                      value := wrapInt64 (p.value + wrapInt64 (v.Value - prev)) }
    some { d with mgr := { d.mgr with segments := d.mgr.segments.set i (found.2.insert peer p) } }

/-- The branch `case rm := <-d.removeTagCh` of `decayer.process`. -/
def Decayer.remove (d : Decayer) (now : Int) (peer : String) (tag : DecayingTag) :
    Option Decayer :=
  match segmentIndex peer with
  | none => none
  | some i =>
    let s := d.mgr.segments.getD i ∅
    let found := tagInfoFor s peer now
    let p := found.1
    match p.decaying.lookup tag.name with
    | none => some { d with mgr := { d.mgr with segments := d.mgr.segments.set i found.2 } }
    | some v =>
      let p := { p with value := wrapInt64 (p.value - v.Value),
                        decaying := p.decaying.erase tag.name }
      some { d with mgr := { d.mgr with segments := d.mgr.segments.set i (found.2.insert peer p) } }

/-- The update of one peer in the branch `case t := <-d.closeTagCh`. -/
def closePeerTag (t : DecayingTag) (p : PeerInfo) : PeerInfo :=
  match p.decaying.lookup t.name with
  | none => p
  | some dt => { p with value := wrapInt64 (p.value - dt.Value),
                        decaying := p.decaying.erase t.name }

/-- The branch `case t := <-d.closeTagCh` of `decayer.process`. -/
def Decayer.closeTag (d : Decayer) (t : DecayingTag) : Decayer :=
  ⟨{ d.mgr with segments := d.mgr.segments.map (forPeers (closePeerTag t)) },
    d.knownTags.erase t.name⟩

/-- An operation that touches the score of a peer. -/
inductive ScoreOp where
  | tagPeer (p tag : String) (val : Int)
  | untagPeer (p tag : String)
  | upsertTag (p tag : String) (upsert : Int → Int)
  | bump (peer : String) (tag : DecayingTag) (delta : Int)
  | remove (peer : String) (tag : DecayingTag)
  | tick
  | closeTag (tag : DecayingTag)

/-- The peer named by an operation, if it names one. -/
def ScoreOp.peer : ScoreOp → Option String
  | .tagPeer p _ _ => some p
  | .untagPeer p _ => some p
  | .upsertTag p _ _ => some p
  | .bump peer _ _ => some peer
  | .remove peer _ => some peer
  | .tick => none
  | .closeTag _ => none

/-- The state after one operation on the score at clock reading `now`. -/
def Decayer.apply (d : Decayer) (now : Int) : ScoreOp → Option Decayer
  | .tagPeer p tag val => (d.mgr.TagPeer now p tag val).map fun m => { d with mgr := m }
  | .untagPeer p tag => (d.mgr.UntagPeer p tag).map fun m => { d with mgr := m }
  | .upsertTag p tag upsert => (d.mgr.UpsertTag now p tag upsert).map fun m => { d with mgr := m }
  | .bump peer tag delta => d.bump now peer tag delta
  | .remove peer tag => d.remove now peer tag
  | .tick => some (d.tick now)
  | .closeTag tag => some (d.closeTag tag)

/-- The sum of the static tag values of a peer. -/
def sumTags (m : GoMap Int) : Int := (m.entries.map fun e => e.2).sum

/-- The sum of the decaying tag values of a peer. -/
def sumDecaying (m : GoMap DecayingValue) : Int := (m.entries.map fun e => e.2.Value).sum

/-- The invariant of the cached score: `value` is the sum of the static and
of the decaying tag values, in the arithmetic of Go `int`. -/
def scoreOk (p : PeerInfo) : Bool :=
  p.value == wrapInt64 (sumTags p.tags + sumDecaying p.decaying)

/-- The state after a sequence of operations on the score, all at clock
reading `now`. -/
def Decayer.applyAll (d : Decayer) (now : Int) : List ScoreOp → Option Decayer
  | [] => some d
  | op :: rest =>
    match d.apply now op with
    | none => none
    | some next => next.applyAll now rest

/-- A decaying tag with an interval of one minute whose decay halves the value and
removes it when it reaches zero, and whose bump adds the delta. -/
def halvingTag : DecayingTag where
  name := "latency"
  interval := 60000000000
  nextTick := 60000000000
  decayFn := fun v => (v.Value / 2, v.Value / 2 == 0)
  bumpFn := fun v delta => v.Value + delta

/-- The state of `crowdedState` with the decaying tag `halvingTag`
registered, after `peerA` got the static tag `vpn` of value 5 and a bump of 8
on the decaying tag. -/
def scoredDecayer : Decayer :=
  ((Decayer.mk crowdedState (AList.singleton "latency" halvingTag)).applyAll 0
    [.tagPeer "peerA" "vpn" 5, .bump "peerA" halvingTag 8]).getD ⟨crowdedState, ∅⟩

/-- What the theorems observe of a peer: its ID, static tags, decaying
values and cached score. -/
def scoreView (d : Decayer) (p : String) : List (String × List (String × Int) × List (String × Int) × Int) :=
  ((trackedPeers d.mgr.segments).filter fun e => e.1 == p).map fun e =>
    (e.1, e.2.tags.entries.map (fun t => (t.1, t.2)),
      e.2.decaying.entries.map (fun t => (t.1, t.2.Value)), e.2.value)

/-! ## The VPN service (vpn/vpn.go, types/machine.go) -/

/-- The struct `types.Machine`. -/
structure Machine where
  PeerID : String
  Hostname : String
  OS : String
  Arch : String
  Address : String
  Version : String
deriving DecidableEq

/-- The constant `protocol.MachinesLedgerKey`. -/
def MachinesLedgerKey : String := "machines"

/-- The method `Ledger.Exists`. -/
def Ledger.Exists (l : Ledger) (b : String) (f : Data → Bool) : Bool :=
  if l.blockchain.Len > 0 then
    match l.blockchain.Last with
    | none => false
    | some last => ((last.Storage.lookup b).getD ∅).entries.any fun e => f e.2
  else false

/-- The loop over `nc.PeerTable` in `streamHandler`: whether `found` is set
for the remote peer. -/
def peerTableLists (table : GoMap (List Nat)) (remote : List Nat) : Bool :=
  table.entries.foldl (fun found e =>
    if peerIDString e.2 == peerIDString remote then true else found) false

/-- The function returned by `streamHandler` on a stream from the peer
`remote`: `true` when it reaches `io.Copy` from the stream to the interface,
`false` when it resets the stream before. `unmarshalMachine` is the content
of `machine` after `d.Unmarshal(machine)`, whose error is discarded. -/
def streamHandler (unmarshalMachine : Data → Machine) (l : Ledger) (nc : NodeConfig)
    (remote : List Nat) : Bool :=
  if nc.PeerTable.entries.length == 0 && !(l.Exists MachinesLedgerKey fun d =>
      let machine := unmarshalMachine d
      machine.PeerID == peerIDString remote) then false
  else if decide (nc.PeerTable.entries.length > 0) && !(peerTableLists nc.PeerTable remote) then
    false
  else true

/-- What `newBlockChainData` reads from the node and its host: the peer ID,
`os.Hostname()`, `runtime.GOOS`, `runtime.GOARCH` and `internal.Version`. -/
structure HostInfo where
  ID : String
  hostname : String
  GOOS : String
  GOARCH : String
  Version : String
deriving DecidableEq

/-- The function `newBlockChainData`. -/
def newBlockChainData (n : HostInfo) (address : String) : Machine :=
  { PeerID := n.ID, Hostname := n.hostname, OS := n.GOOS, Arch := n.GOARCH,
    Version := n.Version, Address := address }

/-- The closure that `VPNNetworkService` hands to `Announce`, called once:
the ledger after the call. `ip` is `ip.String()`, `unmarshalMachine` and
`marshalMachine` are `json.Unmarshal` into a `Machine` (error discarded) and
`json.Marshal`. `none` is the panic of `Add` on a store without block. -/
def vpnAnnounce (unmarshalMachine : Data → Machine) (marshalMachine : Machine → Option String)
    (n : HostInfo) (l : Ledger) (now ip : String) : Option Ledger :=
  let got := l.GetKey MachinesLedgerKey ip
  let machine := unmarshalMachine got.1
  if !got.2 || machine.PeerID != n.ID then
    l.Add marshalMachine now MachinesLedgerKey (AList.singleton ip (newBlockChainData n ip))
  else some l

/-- A JSON codec for machine records given by a finite table of texts. -/
def tableMachineDecoder (table : List (String × Machine)) (d : Data) : Machine :=
  (table.lookup d).getD ⟨"", "", "", "", "", ""⟩

/-- The host of the examples. -/
def sampleHost : HostInfo := ⟨collidingPeerA, "edge1", "linux", "amd64", "v0.30.1"⟩

/-- A machine record of `sampleHost` at 10.1.0.2 written by an older version
of the program under another host name. -/
def staleMachine : Machine :=
  ⟨collidingPeerA, "edge0", "linux", "amd64", "10.1.0.2", "v0.20.0"⟩

/-- The texts of the machine records of the examples. -/
def machineTexts : List (String × Machine) :=
  [("stale", staleMachine), ("fresh", newBlockChainData sampleHost "10.1.0.2")]

/-- The encoder that goes with `machineTexts`. -/
def marshalSampleMachine (m : Machine) : Option String :=
  if m = staleMachine then some "stale"
  else if m = newBlockChainData sampleHost "10.1.0.2" then some "fresh"
  else none

/-- A head block at index 4 whose bucket `machines` holds `staleMachine` at
10.1.0.2. -/
def machinesHead : Block :=
  ⟨4, "2021-11-04 10:00:00 +0000 UTC", AList.singleton "machines" (AList.singleton "10.1.0.2" "stale"),
    "hash4", "hash3"⟩

/-- The bytes of the peer ID `collidingPeerB`. -/
def samplePeerBytesB : List Nat :=
  [0, 36, 8, 1, 18, 32, 47, 255, 97, 52, 184, 12, 225, 113, 55, 212, 195, 57, 86, 3, 32, 27,
   217, 22, 243, 178, 162, 133, 141, 220, 118, 192, 166, 132, 211, 90, 211, 109]

/-- A node configuration without gater whose static peer table lists one
peer, at 10.1.0.3. -/
def tableConfig (peer : List Nat) : NodeConfig :=
  ⟨none, AList.singleton "10.1.0.3" peer, AESSealer rejectingGcm⟩

/-! ## Blocks pinned by the interoperability test -/

/-- The block with index 0, timestamp `t0`, empty storage and empty previous
hash, under any value of the field `Hash`. -/
def pinnedBlock (hash : String) : Block := ⟨0, "t0", ∅, hash, ""⟩

/-- A block with two buckets, entered in another order than `fmt` prints
them. -/
def printedBlock : Block :=
  ⟨4, "t1", (AList.singleton "dns" ((AList.singleton "a" "1").insert "b" "2")).insert "machines" ∅,
    "", "ph"⟩

/-! ## The ledger API (api/api.go) and its client (api/client/client.go) -/

/-- The external functions of `encoding/json` and `encoding/base64` used by
the API and its client: `json.Marshal` of a Go string (which the encoder of
the web framework also uses), `json.Unmarshal` into a string,
`base64.URLEncoding.EncodeToString` and `base64.URLEncoding.DecodeString`. -/
structure ApiCodec where
  jsonMarshalString : String → Option String
  jsonUnmarshalString : String → Except String String
  base64Encode : String → String
  base64Decode : String → Except String String

/-- The last path segment of the request of `Client.Put(b, k, v)`: the
base64 text of the JSON text of `v`; `jsonMarshal` is `json.Marshal` on the
values. -/
def putValue {V : Type} (c : ApiCodec) (jsonMarshal : V → Except String String) (v : V) :
    Except String String :=
  match jsonMarshal v with
  | .error err => .error err
  | .ok dat => .ok (c.base64Encode dat)

/-- One tick of the task started by the handler of
`PUT /api/ledger/:bucket/:key/:value`, which calls `ledger.Persist` on the
three path parameters. -/
def putHandlerTick (c : ApiCodec) (l : Ledger) (now bucket key value : String) :
    Option (Ledger × Bool) :=
  l.persistTick c.jsonMarshalString now bucket key value

/-- The body written by the handler of `GET /api/ledger/:bucket/:key`:
`c.JSON` encodes `ledger.CurrentData()[bucket][key]`, a `Data`, as a JSON
string followed by a newline. `none` is the panic of `CurrentData` on the nil
slot or the error of the encoder. -/
def getHandlerBody (c : ApiCodec) (l : Ledger) (bucket key : String) : Option String :=
  match l.CurrentData with
  | none => none
  | some data =>
    match c.jsonMarshalString ((((data.lookup bucket).getD ∅).lookup key).getD "") with
    | none => none
    | some text => some (text ++ "\n")

/-- The method `Client.GetBucketKey` on the body of the response. -/
def GetBucketKey (c : ApiCodec) (body : String) : Except String Data :=
  match c.jsonUnmarshalString body with
  | .error err => .error err
  | .ok r =>
    match c.jsonUnmarshalString r with
    | .error err => .error err
    | .ok r =>
      match c.base64Decode r with
      | .error err => .error err
      | .ok d => .ok d

/-- A table of texts as a partial function. -/
def tableLookup (table : List (String × String)) (err : String) (s : String) :
    Except String String :=
  match table.lookup s with
  | some t => .ok t
  | none => .error err

/-- The codec on the texts that occur when the string `bar` is stored:
its JSON text is `"bar"` with the quotes, whose base64 text is `ImJhciI=`. -/
def sampleApiCodec : ApiCodec where
  jsonMarshalString := fun s =>
    [("ImJhciI=", "\"ImJhciI=\""), ("\"ImJhciI=\"", "\"\\\"ImJhciI=\\\"\"")].lookup s
  jsonUnmarshalString :=
    tableLookup [("\"\\\"ImJhciI=\\\"\"\n", "\"ImJhciI=\""), ("\"ImJhciI=\"", "ImJhciI=")]
      "invalid character"
  base64Encode := fun s => ([("\"bar\"", "ImJhciI=")].lookup s).getD ""
  base64Decode := tableLookup [("ImJhciI=", "\"bar\"")] "illegal base64 data"

/-- The function `json.Marshal` on the string `bar`. -/
def marshalBar (v : String) : Except String String :=
  if v == "bar" then .ok "\"bar\"" else .error "unsupported value"

/-! ## AES encryption (crypto/aes.go) -/

/-- The verb `%x` of `fmt.Sprintf` on a byte slice: two lower-case
hexadecimal digits per byte. -/
def hexEncode (bytes : List Nat) : String :=
  String.mk (bytes.flatMap fun b => [hexDigit (b / 16), hexDigit (b % 16)])

/-- The function `AESEncrypt` of aes.go: the ciphertext and the error
(`none` is nil). `gcmSeal gcm nonce plaintext` is what
`gcm.Seal(nonce, nonce, plaintext, nil)` appends to the nonce, and
`readRandom n` the result of filling `n` bytes from `rand.Reader`. -/
def AESEncrypt (p : AesGcm) (gcmSeal : List Nat → List Nat → String → List Nat)
    (readRandom : Nat → Except String (List Nat)) (plaintext : String) (key : List Nat) :
    String × Option String :=
  match p.newCipher key with
  | .error err => ("", some err)
  | .ok block =>
    match p.newGCM block with
    | .error err => ("", some err)
    | .ok gcm =>
      match readRandom p.nonceSize with
      | .error err => ("", some err)
      | .ok nonce =>
        let cypher := nonce ++ gcmSeal gcm nonce plaintext
        let cyp := hexEncode cypher
        (cyp, none)

/-- A stand-in for the sealing of AES-GCM that keeps the shape of the real
one: the ciphertext has the bytes of the plaintext, each shifted by the first
byte of the key, followed by a tag of 16 bytes made of the nonce. -/
def shiftSeal (gcm nonce : List Nat) (plaintext : String) : List Nat :=
  (utf8Bytes plaintext).map (fun b => (b + gcm.headD 0) % 256) ++
    (nonce ++ List.replicate 16 0).take 16

/-- The opening that goes with `shiftSeal`, on ASCII plaintexts: the tag is
checked against the nonce. -/
def shiftGcm : AesGcm where
  newCipher := fun key =>
    if key.length == 32 then .ok key else .error "crypto/aes: invalid key size"
  newGCM := fun block => .ok block
  nonceSize := 12
  gcmOpen := fun gcm nonce ciphertext =>
    if ciphertext.length < 16 then .error "cipher: message authentication failed"
    else if ciphertext.drop (ciphertext.length - 16) != (nonce ++ List.replicate 16 0).take 16 then
      .error "cipher: message authentication failed"
    else .ok (String.mk ((ciphertext.take (ciphertext.length - 16)).map fun b =>
      Char.ofNat ((b + 256 - gcm.headD 0 % 256) % 256)))

/-- A 32-byte key whose first byte is 7. -/
def sampleKey : List Nat := 7 :: List.replicate 31 0

/-- Two draws of a 12-byte nonce. -/
def sampleNonce1 : List Nat := [1, 2, 3, 4, 5, 6, 7, 8, 9, 10, 11, 12]

/-- The second draw. -/
def sampleNonce2 : List Nat := [255, 254, 253, 252, 251, 250, 249, 248, 247, 246, 245, 244]

/-! ## The service client (api/client/service/service.go) -/

/-- The function `strings.HasSuffix`. -/
def hasSuffix (s suffix : String) : Bool :=
  suffix.toList.reverse.isPrefixOf s.toList.reverse

/-- The scan of `strings.ReplaceAll` for a non-empty `old`: the occurrences
of `old` are replaced from left to right, each search starting behind the
last replaced occurrence; `skip` counts the characters of that occurrence
still to be passed. -/
def replaceAllChars (old new : List Char) : Nat → List Char → List Char
  | _, [] => []
  | skip + 1, _ :: rest => replaceAllChars old new skip rest
  | 0, c :: rest =>
    if old.isPrefixOf (c :: rest) then new ++ replaceAllChars old new (old.length - 1) rest
    else c :: replaceAllChars old new 0 rest

/-- The function `strings.ReplaceAll` for a non-empty `old`. -/
def stringsReplaceAll (s old new : String) : String :=
  String.mk (replaceAllChars old.toList new.toList 0 s.toList)

/-- What the service client uses of the API client: the methods
`GetBucketKeys` and `GetBucketKey`. -/
structure ApiClient where
  GetBucketKeys : String → Except String (List String)
  GetBucketKey : String → String → Except String Data

/-- The method `Client.ListItems`. -/
def ListItems (c : ApiClient) (serviceID suffix : String) : Except String (List String) :=
  match c.GetBucketKeys serviceID with
  | .error err => .error err
  | .ok buckets =>
    .ok (buckets.foldl (fun strs b =>
      if hasSuffix b suffix then
        let b := stringsReplaceAll b ("-" ++ suffix) ""
        strs ++ [b]
      else strs) [])

/-- The key that `Client.Advertize(uuid)` writes: `fmt.Sprintf("%s-uuid", uuid)`. -/
def advertizeKey (uuid : String) : String := uuid ++ "-uuid"

/-- The method `Client.AdvertizingNodes` at the clock reading `now`. Times
are counted in nanoseconds; `unmarshalTime` is the field `Time` after
`res.Unmarshal(&d)`, whose error is discarded. -/
def AdvertizingNodes (c : ApiClient) (unmarshalTime : Data → Int) (serviceID : String)
    (now : Int) : Except String (List String) :=
  match ListItems c serviceID "uuid" with
  | .error err => .error err
  | .ok uuids =>
    .ok (uuids.foldl (fun active u =>
      match c.GetBucketKey serviceID (u ++ "-uuid") with
      | .error _ => active
      | .ok res =>
        let d := unmarshalTime res
        if d + 900000000000 > now then active ++ [u] else active) [])

/-- The API client seen through a server whose ledger holds `bucket` under
the service ID: the keys are listed in the order of the map, a key that is
missing reads as the empty text, which the client rejects. -/
def bucketClient (bucket : GoMap Data) : ApiClient where
  GetBucketKeys := fun _ => .ok bucket.keys
  GetBucketKey := fun _ k =>
    match bucket.lookup k with
    | some d => .ok d
    | none => .error "unexpected end of JSON input"

/-- The time of an advertisement whose text is a decimal numeral of
nanoseconds; any other text leaves the zero time, the year 1. -/
def numeralTime (d : Data) : Int :=
  if d.toList.all (fun c => decide ('0' ≤ c ∧ c ≤ '9')) && !d.toList.isEmpty then
    (d.toList.foldl (fun n c => n * 10 + (c.toNat - 48)) 0 : Nat)
  else -62135596800000000000

/-! ## SHA-256 test vectors (FIPS 180-4: the empty message, one block, two blocks) -/

theorem sha256Hex_empty :
    sha256Hex "" = "e3b0c44298fc1c149afbf4c8996fb92427ae41e4649b934ca495991b7852b855" := by
  decide

theorem sha256Hex_abc :
    sha256Hex "abc" = "ba7816bf8f01cfea414140de5dae2223b00361a396177a9cb410ff61f20015ad" := by
  decide

theorem sha256Hex_two_blocks :
    sha256Hex "abcdbcdecdefdefgefghfghighijhijkijkljklmklmnlmnomnopnopq" =
      "248d6a61d20638b8e5c026930c3e6039a33ce45964ff2167f6ecedd419db06c1" := by
  decide

/-! ## Blocks -/

theorem checksum_ignores_hash (b : Block) (x : String) :
    Block.Checksum { b with Hash := x } = b.Checksum := rfl

theorem newBlock_isValid (prev : Block) (now : String) (s : Storage) :
    (prev.NewBlock now s).IsValid prev = true := by
  simp [Block.IsValid, Block.NewBlock, Block.Checksum, Block.record]

theorem wrapInt64_succ (x : Int) (h0 : -9223372036854775808 ≤ x) (h1 : x < 9223372036854775807) :
    wrapInt64 (x + 1) = x + 1 := by
  unfold wrapInt64; omega

theorem writeData_some (last : Block) (ch : List Block) (now : String) (s : Storage) :
    Ledger.writeData ⟨⟨some last⟩, ch⟩ now s =
      some ⟨⟨some (last.NewBlock now s)⟩, ch ++ [last.NewBlock now s]⟩ := by
  simp [Ledger.writeData, MemoryStore.Last, MemoryStore.Add, newBlock_isValid]

/-! ## Two-level maps -/

theorem storageView_empty (b k : String) : storageView ∅ b k = none := rfl

theorem storageView_setInner (m : Storage) (b k : String) (v : Data) (b1 k1 : String) :
    storageView (setInner m b k v) b1 k1 =
      if b1 = b then (m.lookup b).map (fun inner => if k1 = k then some v else inner.lookup k1)
      else storageView m b1 k1 := by
  unfold setInner storageView
  cases hm : m.lookup b with
  | none =>
    by_cases hb : b1 = b
    · subst hb; simp [hm]
    · simp [hb]
  | some inner =>
    by_cases hb : b1 = b
    · subst hb
      by_cases hk : k1 = k
      · subst hk; simp
      · simp [hk, AList.lookup_insert_ne hk]
    · simp [hb, AList.lookup_insert_ne hb]

theorem storageView_ensureBucket (m : Storage) (b b1 k1 : String) :
    storageView (ensureBucket m b) b1 k1 =
      if b1 = b then some ((storageView m b k1).getD none) else storageView m b1 k1 := by
  unfold ensureBucket storageView
  cases hm : m.lookup b with
  | none =>
    by_cases hb : b1 = b
    · subst hb; simp [hm]
    · simp [hb, AList.lookup_insert_ne hb]
  | some inner =>
    by_cases hb : b1 = b
    · subst hb; simp [hm]
    · simp [hb]

theorem storageView_copyInto (keep : String → Bool) (bb b1 k1 : String) :
    ∀ (kvs : List (Sigma fun _ : String => Data)) (m : Storage), kvs.NodupKeys →
      storageView (copyInto keep bb kvs m) b1 k1 =
        if b1 = bb then
          (storageView m bb k1).map fun old =>
            if keep k1 then (match kvs.dlookup k1 with
              | some v => some v
              | none => old) else old
        else storageView m b1 k1
  | [], m, _ => by
    by_cases hb : b1 = bb
    · subst hb; cases h : storageView m b1 k1 <;> simp [copyInto, h]
    · simp [copyInto, hb]
  | kv :: rest, m, nd => by
    have hnd := List.nodupKeys_cons.mp nd
    have ih := storageView_copyInto keep bb b1 k1 rest
      (if keep kv.1 then setInner m bb kv.1 kv.2 else m) hnd.2
    have hstep : copyInto keep bb (kv :: rest) m =
        copyInto keep bb rest (if keep kv.1 then setInner m bb kv.1 kv.2 else m) := rfl
    rw [hstep, ih]
    by_cases hb : b1 = bb
    · subst hb
      simp only [if_true]
      by_cases hk : k1 = kv.1
      · subst hk
        have hnone : rest.dlookup kv.1 = none := List.dlookup_eq_none.mpr hnd.1
        have hsome : (kv :: rest).dlookup kv.1 = some kv.2 := by
          cases kv; exact List.dlookup_cons_eq _ _ _
        rw [hnone, hsome]
        cases hkeep : keep kv.1
        · simp
        · simp only [↓reduceIte]
          rw [storageView_setInner]
          simp only [storageView, ↓reduceIte]
          cases m.lookup b1 <;> simp
      · have hne : (kv :: rest).dlookup k1 = rest.dlookup k1 := List.dlookup_cons_ne _ _ hk
        rw [hne]
        cases hkeep : keep kv.1
        · simp
        · simp only [↓reduceIte]
          rw [storageView_setInner]
          simp only [storageView, ↓reduceIte]
          cases m.lookup b1 <;> simp [hk]
    · simp only [hb, if_false]
      cases hkeep : keep kv.1
      · simp
      · simp [storageView_setInner, hb]

theorem storageView_copyBuckets (skip : String → Bool) (keep : String → String → Bool)
    (b1 k1 : String) :
    ∀ (es : List (Sigma fun _ : String => Bucket)) (acc : Storage), es.NodupKeys →
      storageView (copyBuckets skip keep es acc) b1 k1 =
        match es.dlookup b1 with
        | none => storageView acc b1 k1
        | some bk =>
          if skip b1 then storageView acc b1 k1
          else some (if keep b1 k1 then (match bk.lookup k1 with
            | some v => some v
            | none => (storageView acc b1 k1).getD none) else (storageView acc b1 k1).getD none)
  | [], acc, _ => by simp [copyBuckets]
  | e :: rest, acc, nd => by
    have hnd := List.nodupKeys_cons.mp nd
    have hstep : copyBuckets skip keep (e :: rest) acc =
        copyBuckets skip keep rest
          (if skip e.1 then acc
            else copyInto (keep e.1) e.1 e.2.entries (ensureBucket acc e.1)) := rfl
    rw [hstep, storageView_copyBuckets skip keep b1 k1 rest _ hnd.2]
    by_cases hb : b1 = e.1
    · subst hb
      have hnone : rest.dlookup e.1 = none := List.dlookup_eq_none.mpr hnd.1
      have hsome : (e :: rest).dlookup e.1 = some e.2 := by
        cases e; exact List.dlookup_cons_eq _ _ _
      rw [hnone, hsome]
      cases hskip : skip e.1
      · simp only [Bool.false_eq_true, if_false]
        rw [storageView_copyInto _ _ _ _ _ _ e.2.nodupKeys]
        simp only [if_true, storageView_ensureBucket, Option.map_some']
        rfl
      · simp
    · have hne : (e :: rest).dlookup b1 = rest.dlookup b1 := List.dlookup_cons_ne _ _ hb
      rw [hne]
      have hacc : storageView (if skip e.1 then acc
            else copyInto (keep e.1) e.1 e.2.entries (ensureBucket acc e.1)) b1 k1 =
          storageView acc b1 k1 := by
        cases hskip : skip e.1
        · simp only [Bool.false_eq_true, if_false]
          rw [storageView_copyInto _ _ _ _ _ _ e.2.nodupKeys]
          simp [hb, storageView_ensureBucket]
        · simp
      rw [hacc]

theorem lookup_foldl_insert {β γ : Type} (g : β → γ) (k : String) :
    ∀ (l : List (Sigma fun _ : String => β)) (acc : GoMap γ), l.NodupKeys →
      (l.foldl (fun c e => c.insert e.1 (g e.2)) acc).lookup k =
        match l.dlookup k with
        | some v => some (g v)
        | none => acc.lookup k
  | [], acc, _ => by simp
  | e :: rest, acc, nd => by
    have hnd := List.nodupKeys_cons.mp nd
    rw [List.foldl_cons, lookup_foldl_insert g k rest _ hnd.2]
    by_cases hk : k = e.1
    · subst hk
      have hnone : rest.dlookup e.1 = none := List.dlookup_eq_none.mpr hnd.1
      have hsome : (e :: rest).dlookup e.1 = some e.2 := by
        cases e; exact List.dlookup_cons_eq _ _ _
      rw [hnone, hsome]; simp
    · have hne : (e :: rest).dlookup k = rest.dlookup k := List.dlookup_cons_ne _ _ hk
      rw [hne, AList.lookup_insert_ne hk]

theorem bucketCopy_lookup (b : Bucket) (k : String) : (bucketCopy b).lookup k = b.lookup k := by
  unfold bucketCopy
  have h := lookup_foldl_insert (fun v : Data => v) k b.entries ∅ b.nodupKeys
  rw [h]
  have hl : b.entries.dlookup k = b.lookup k := rfl
  rw [hl]
  cases b.lookup k <;> rfl

theorem storageView_bucketsCopy (s : Storage) (b k : String) :
    storageView (bucketsCopy s) b k = storageView s b k := by
  unfold bucketsCopy storageView
  rw [lookup_foldl_insert bucketCopy b s.entries ∅ s.nodupKeys]
  have hl : s.entries.dlookup b = s.lookup b := rfl
  rw [hl]
  cases s.lookup b <;> simp [bucketCopy_lookup]

theorem storageView_deleteStorage (b k : String) (s : Storage) (b1 k1 : String) :
    storageView (deleteStorage b k s) b1 k1 =
      if b1 = b ∧ k1 = k then (s.lookup b1).map (fun _ => none) else storageView s b1 k1 := by
  unfold deleteStorage
  rw [storageView_copyBuckets _ _ _ _ _ _ s.nodupKeys]
  have hl : s.entries.dlookup b1 = s.lookup b1 := rfl
  rw [hl]
  unfold storageView
  cases s.lookup b1 with
  | none => simp
  | some bk =>
    by_cases h : b1 = b ∧ k1 = k
    · simp [h, storageView]
    · have h2 : (b1 == b && k1 == k) = false := by
        simpa [Bool.and_eq_false_iff] using h
      simp only [h, if_false, h2]
      cases hv : bk.lookup k1 <;> simp [storageView, hv]

theorem storageView_deleteBucketStorage (b : String) (s : Storage) (b1 k1 : String) :
    storageView (deleteBucketStorage b s) b1 k1 =
      if b1 = b then none else storageView s b1 k1 := by
  unfold deleteBucketStorage
  rw [storageView_copyBuckets _ _ _ _ _ _ s.nodupKeys]
  have hl : s.entries.dlookup b1 = s.lookup b1 := rfl
  rw [hl]
  unfold storageView
  cases s.lookup b1 with
  | none => simp
  | some bk =>
    by_cases h : b1 = b
    · simp [h]
    · simp only [h, if_false, beq_iff_eq]
      cases hv : bk.lookup k1 <;> simp [storageView, hv]

/-! ## Ledger operations on a store that holds a block -/

theorem delete_some (last : Block) (ch : List Block) (now b k : String) :
    Ledger.Delete ⟨⟨some last⟩, ch⟩ now b k =
      some ⟨⟨some (last.NewBlock now (deleteStorage b k last.Storage))⟩,
        ch ++ [last.NewBlock now (deleteStorage b k last.Storage)]⟩ := by
  rw [← writeData_some]; rfl

theorem deleteBucket_some (last : Block) (ch : List Block) (now b : String) :
    Ledger.DeleteBucket ⟨⟨some last⟩, ch⟩ now b =
      some ⟨⟨some (last.NewBlock now (deleteBucketStorage b last.Storage))⟩,
        ch ++ [last.NewBlock now (deleteBucketStorage b last.Storage)]⟩ := by
  rw [← writeData_some]; rfl

theorem add_singleton_some {V : Type} (jsonMarshal : V → Option String) (last : Block)
    (ch : List Block) (now b k : String) (v : V) :
    Ledger.Add jsonMarshal ⟨⟨some last⟩, ch⟩ now b (AList.singleton k v) =
      some ⟨⟨some (last.NewBlock now (setInner (ensureBucket (bucketsCopy last.Storage) b) b k
          ((jsonMarshal v).getD "")))⟩,
        ch ++ [last.NewBlock now (setInner (ensureBucket (bucketsCopy last.Storage) b) b k
          ((jsonMarshal v).getD ""))]⟩ := by
  rw [← writeData_some]; rfl

theorem getKey_eq_view (blk : Block) (ch : List Block) (b k : String) :
    Ledger.GetKey ⟨⟨some blk⟩, ch⟩ b k =
      if blk.Index > 0 then
        (match storageView blk.Storage b k with
          | some (some value) => (value, true)
          | _ => ("", false))
      else ("", false) := by
  unfold Ledger.GetKey storageView MemoryStore.Len MemoryStore.Last
  by_cases h : blk.Index > 0
  · simp only [h, if_true]
    cases blk.Storage.lookup b with
    | none => rfl
    | some bucket => cases hv : bucket.lookup k <;> simp [hv]
  · simp only [h, if_false]

theorem newBlock_index (prev : Block) (now : String) (s : Storage) :
    (prev.NewBlock now s).Index = wrapInt64 (prev.Index + 1) := rfl

theorem newBlock_storage (prev : Block) (now : String) (s : Storage) :
    (prev.NewBlock now s).Storage = s := rfl

theorem ensureBucket_lookup (m : Storage) (b : String) :
    ∃ inner, (ensureBucket m b).lookup b = some inner := by
  unfold ensureBucket
  cases hm : m.lookup b with
  | none => exact ⟨∅, by simp⟩
  | some inner => exact ⟨inner, by simp [hm]⟩

theorem freshLedger_eq : freshLedger = ⟨⟨some freshGenesis⟩, []⟩ := by decide

theorem farLedger_eq : farLedger = ⟨⟨some farBlock⟩, []⟩ := by decide

theorem update_decoded (c : Codec) (l : Ledger) (h : Message) (body : String) (incoming : Block)
    (hz : deCompress c h.Message = .ok body) (hj : c.jsonUnmarshal body = .ok incoming) :
    Ledger.Update c l h =
      (none, if incoming.Index > l.blockchain.Len
        then { l with blockchain := l.blockchain.Add incoming } else l) := by
  unfold Ledger.Update
  rw [hz]
  simp only [hj]
  split <;> rfl

theorem update_gzip_error (c : Codec) (l : Ledger) (h : Message) (e : String)
    (hz : deCompress c h.Message = .error e) :
    Ledger.Update c l h = (some ("解压失败: " ++ e), l) := by
  unfold Ledger.Update
  rw [hz]

theorem update_json_error (c : Codec) (l : Ledger) (h : Message) (body e : String)
    (hz : deCompress c h.Message = .ok body) (hj : c.jsonUnmarshal body = .error e) :
    Ledger.Update c l h = (some ("解析区块链数据失败: " ++ e), l) := by
  unfold Ledger.Update
  rw [hz]
  simp only [hj]

theorem update_head_cases (c : Codec) (l : Ledger) (h : Message) :
    (Ledger.Update c l h).2 = l ∨
      ∃ body incoming, deCompress c h.Message = .ok body ∧ c.jsonUnmarshal body = .ok incoming ∧
        incoming.Index > l.blockchain.Len ∧
        (Ledger.Update c l h).2 = { l with blockchain := l.blockchain.Add incoming } := by
  cases hz : deCompress c h.Message with
  | error e => left; rw [update_gzip_error c l h e hz]
  | ok body =>
    cases hj : c.jsonUnmarshal body with
    | error e => left; rw [update_json_error c l h body e hz hj]
    | ok incoming =>
      rw [update_decoded c l h body incoming hz hj]
      by_cases hi : incoming.Index > l.blockchain.Len
      · exact Or.inr ⟨body, incoming, rfl, hj, hi, by simp [hi]⟩
      · left; simp [hi]

/-! ## Claims -/

/-- C1 (the code at the failing input): on the ledger that `New` created and
that then received one block with index `math.MaxInt64`,
`Add("b", \x7b"k": 1\x7d)` stores a head whose index wrapped to `math.MinInt64`,
and `GetKey("b", "k")` answers `("", false)` instead of `("1", true)`, while
`CurrentData`, which reads the same head without the guard on `Len`, shows the
value `1` at `b`/`k`. -/
theorem add_then_getKey_fails_after_wrap :
    farLedger.Index = 9223372036854775807 ∧ marshalInt 1 = some "1" ∧
    (farLedger.Add marshalInt "2021-11-04 10:00:02 +0000 UTC" "b" (AList.singleton "k" 1)).map
        (fun l => (l.Index, l.GetKey "b" "k")) =
      some (-9223372036854775808, "", false) ∧
    ((farLedger.Add marshalInt "2021-11-04 10:00:02 +0000 UTC" "b"
        (AList.singleton "k" 1)).bind Ledger.CurrentData).map
        (fun cur => (cur.lookup "b").bind fun bucket => bucket.lookup "k") =
      some (some "1") := by
  decide

/-- Below the overflow of the index a write is read back: on every ledger
over the in-memory store whose head index `i` satisfies
`0 ≤ i < math.MaxInt64`, for every bucket `b`, key `k` and value `v` with JSON
text `j`, `Add(b, \x7bk: v\x7d)` returns and `GetKey(b, k)` then answers
`(j, true)`. -/
theorem add_then_getKey {V : Type} (jsonMarshal : V → Option String) (blk : Block)
    (ch : List Block) (now b k : String) (v : V) (j : String)
    (hv : jsonMarshal v = some j) (h0 : 0 ≤ blk.Index) (h1 : blk.Index < maxInt64) :
    ∃ l, Ledger.Add jsonMarshal ⟨⟨some blk⟩, ch⟩ now b (AList.singleton k v) = some l ∧
      l.GetKey b k = (j, true) := by
  refine ⟨_, add_singleton_some jsonMarshal blk ch now b k v, ?_⟩
  rw [getKey_eq_view, newBlock_index, newBlock_storage, storageView_setInner]
  have hidx : wrapInt64 (blk.Index + 1) > 0 := by
    unfold maxInt64 at h1
    rw [wrapInt64_succ _ (by omega) h1]; omega
  obtain ⟨inner, hin⟩ := ensureBucket_lookup (bucketsCopy blk.Storage) b
  simp [hidx, hin, hv]

/-- An instance of `add_then_getKey`: the genesis ledger, bucket `b`, key
`k`, value `1`. -/
theorem add_then_getKey_witness :
    marshalInt 1 = some "1" ∧ 0 ≤ freshGenesis.Index ∧ freshGenesis.Index < maxInt64 ∧
    ∃ l, Ledger.Add marshalInt ⟨⟨some freshGenesis⟩, []⟩ "2021-11-04 10:00:02 +0000 UTC" "b"
        (AList.singleton "k" 1) = some l ∧ l.GetKey "b" "k" = ("1", true) :=
  ⟨rfl, by decide, by decide,
    add_then_getKey marshalInt freshGenesis [] "2021-11-04 10:00:02 +0000 UTC" "b" "k" 1 "1"
      rfl (by decide) (by decide)⟩

/-- C2: for every ledger over the in-memory store with head `head` and every
message whose payload decompresses and decodes to the block `incoming`,
`Update` returns no error and leaves as head `incoming` if
`incoming.Index > head.Index`, and the unchanged `head` otherwise (ties
included); nothing is written to the channel. -/
theorem update_head_rule (c : Codec) (head : Block) (ch : List Block) (h : Message)
    (body : String) (incoming : Block)
    (hz : deCompress c h.Message = .ok body) (hj : c.jsonUnmarshal body = .ok incoming) :
    Ledger.Update c ⟨⟨some head⟩, ch⟩ h =
      (none, ⟨⟨some (if incoming.Index > head.Index then incoming else head)⟩, ch⟩) := by
  rw [update_decoded c _ h body incoming hz hj]
  simp only [MemoryStore.Len, MemoryStore.Add]
  split <;> rfl

/-- Witness of C2: a tie. The head `farBlock` receives `farBlock` again and
is kept. -/
theorem update_head_rule_witness :
    deCompress sampleCodec farMessage.Message = .ok "far.json" ∧
    sampleCodec.jsonUnmarshal "far.json" = .ok farBlock ∧
    Ledger.Update sampleCodec ⟨⟨some farBlock⟩, []⟩ farMessage =
      (none, ⟨⟨some (if farBlock.Index > farBlock.Index then farBlock else farBlock)⟩, []⟩) :=
  ⟨rfl, rfl, update_head_rule sampleCodec farBlock [] farMessage "far.json" farBlock rfl rfl⟩

/-- C3 (as stated, refuted): the ledger that `New` created adopts
`forgedBlock`, whose index is `5 > 0`, whose `PrevHash` is the hash of the
previous head, whose `Hash` is not its checksum and whose index is not the
previous index plus one. -/
theorem update_adopts_forged_block :
    freshLedger.blockchain.block = some freshGenesis ∧
    (freshLedger.Update sampleCodec forgedMessage).2.blockchain.block = some forgedBlock ∧
    forgedBlock.Index > 0 ∧ freshGenesis.Hash = forgedBlock.PrevHash ∧
    forgedBlock.Hash ≠ forgedBlock.Checksum ∧
    forgedBlock.Index ≠ wrapInt64 (freshGenesis.Index + 1) := by
  decide

/-- C3 (amended): for every block `B` that `Update` installs as the new head
in place of a different previous head `prev`, `B` is the block the payload
decodes to and `B.Index > prev.Index` holds: the index gate is the only check
(neither `B.Hash == B.Checksum()` nor `B.Index == prev.Index + 1` is
required). -/
theorem update_adoption_gate (c : Codec) (prev : Block) (ch : List Block) (h : Message)
    (B : Block) (hB : (Ledger.Update c ⟨⟨some prev⟩, ch⟩ h).2.blockchain.block = some B)
    (hne : B ≠ prev) :
    B.Index > prev.Index ∧
      ∃ body, deCompress c h.Message = .ok body ∧ c.jsonUnmarshal body = .ok B := by
  rcases update_head_cases c ⟨⟨some prev⟩, ch⟩ h with hsame | ⟨body, incoming, hz, hj, hi, hnew⟩
  · rw [hsame] at hB
    exact absurd (Option.some.inj hB).symm hne
  · rw [hnew] at hB
    have hBi : incoming = B := Option.some.inj hB
    subst hBi
    exact ⟨hi, body, hz, hj⟩

/-- Witness of C3 (amended): the genesis head is replaced by `forgedBlock`. -/
theorem update_adoption_gate_witness :
    (Ledger.Update sampleCodec ⟨⟨some freshGenesis⟩, []⟩ forgedMessage).2.blockchain.block =
      some forgedBlock ∧ forgedBlock ≠ freshGenesis ∧
    (forgedBlock.Index > freshGenesis.Index ∧
      ∃ body, deCompress sampleCodec forgedMessage.Message = .ok body ∧
        sampleCodec.jsonUnmarshal body = .ok forgedBlock) :=
  ⟨rfl, by decide,
    update_adoption_gate sampleCodec freshGenesis [] forgedMessage forgedBlock rfl (by decide)⟩

/-- C4: when the payload of a message is rejected by the gzip decoder, or
decompresses to bytes that the JSON decoder rejects, `Update` returns an error
and the ledger (head block with its index, storage and hashes, and channel)
is exactly what it was. -/
theorem update_rejects_undecodable (c : Codec) (l : Ledger) (h : Message)
    (hbad : (∃ e, deCompress c h.Message = .error e) ∨
      (∃ body e, deCompress c h.Message = .ok body ∧ c.jsonUnmarshal body = .error e)) :
    (Ledger.Update c l h).1 ≠ none ∧ (Ledger.Update c l h).2 = l := by
  rcases hbad with ⟨e, hz⟩ | ⟨body, e, hz, hj⟩
  · rw [update_gzip_error c l h e hz]; simp
  · rw [update_json_error c l h body e hz hj]; simp

/-- Witness of C4: a payload that is a gzip stream of bytes that are no JSON. -/
theorem update_rejects_undecodable_witness :
    ((∃ e, deCompress sampleCodec (Message.mk "notjson" "12D3KooWPeer" ∅).Message = .error e) ∨
      (∃ body e, deCompress sampleCodec (Message.mk "notjson" "12D3KooWPeer" ∅).Message = .ok body ∧
        sampleCodec.jsonUnmarshal body = .error e)) ∧
    (Ledger.Update sampleCodec farLedger (Message.mk "notjson" "12D3KooWPeer" ∅)).1 ≠ none ∧
    (Ledger.Update sampleCodec farLedger (Message.mk "notjson" "12D3KooWPeer" ∅)).2 = farLedger :=
  ⟨Or.inr ⟨"<html>", "invalid character", rfl, rfl⟩,
    update_rejects_undecodable sampleCodec farLedger (Message.mk "notjson" "12D3KooWPeer" ∅)
      (Or.inr ⟨"<html>", "invalid character", rfl, rfl⟩)⟩

/-- C5: for every block `prev`, clock reading and storage map `s`, the block
`n = prev.NewBlock(s)` has `n.Index = prev.Index + 1` (the addition of Go
`int`), `n.PrevHash = prev.Hash`, `n.Storage = s` and `n.Hash = n.Checksum()`,
and `n.IsValid(prev)` is true. -/
theorem newBlock_fields_and_valid (prev : Block) (now : String) (s : Storage) :
    (prev.NewBlock now s).Index = wrapInt64 (prev.Index + 1) ∧
    (prev.NewBlock now s).PrevHash = prev.Hash ∧
    (prev.NewBlock now s).Storage = s ∧
    (prev.NewBlock now s).Hash = (prev.NewBlock now s).Checksum ∧
    (prev.NewBlock now s).IsValid prev = true :=
  ⟨rfl, rfl, rfl, rfl, newBlock_isValid prev now s⟩

/-- The index of a new block is the mathematical successor unless the
previous index is `math.MaxInt64`. -/
theorem newBlock_index_succ (prev : Block) (now : String) (s : Storage)
    (h0 : minInt64 ≤ prev.Index) (h1 : prev.Index < maxInt64) :
    (prev.NewBlock now s).Index = prev.Index + 1 := by
  unfold minInt64 at h0
  unfold maxInt64 at h1
  rw [newBlock_index, wrapInt64_succ _ h0 h1]

/-- The genesis block of `New` on an empty store, for every clock reading:
its hash field is the checksum of the zero block, that is the SHA-256 of
`0map[]`, while its own checksum is the SHA-256 of a record that contains the
timestamp. -/
theorem genesis_hash_and_checksum (now : String) :
    ∃ g, (New ⟨none⟩ now).blockchain.block = some g ∧
      g.Index = 0 ∧ g.Storage = ∅ ∧ g.PrevHash = "" ∧ g.Timestamp = now ∧
      g.Hash = sha256Hex "0map[]" ∧ g.Checksum = sha256Hex ("0" ++ now ++ "map[]" ++ "") :=
  ⟨_, rfl, rfl, rfl, rfl, rfl, rfl, rfl⟩

/-- C6 (the code at the failing input): the genesis block that `New` stores
on an empty memory store has index 0, empty storage and empty `PrevHash`, but
its `Hash` is not its `Checksum()`. -/
theorem genesis_hash_is_not_checksum :
    ∃ g, freshLedger.blockchain.block = some g ∧
      g.Index = 0 ∧ g.Storage = ∅ ∧ g.PrevHash = "" ∧
      g.Hash = "993c923422cd134b6aad0235ebfd4290a7b27b83d1bcd6b1fb2addc4b45b2fa6" ∧
      g.Checksum ≠ g.Hash :=
  ⟨freshGenesis, by decide, by decide, by decide, by decide, by decide, by decide⟩

/-- Every block that `Add`, `Delete` or `DeleteBucket` stores comes out of
`writeData` and carries its own checksum as hash. -/
theorem writeData_head_hash (last : Block) (ch : List Block) (now : String) (s : Storage) :
    ∃ l n, Ledger.writeData ⟨⟨some last⟩, ch⟩ now s = some l ∧
      l.blockchain.block = some n ∧ n.Hash = n.Checksum ∧ n.PrevHash = last.Hash ∧
      n.Index = wrapInt64 (last.Index + 1) ∧ n.Storage = s :=
  ⟨_, _, writeData_some last ch now s, rfl, rfl, rfl, rfl, rfl⟩

/-- Away from `math.MaxInt64` a write moves the head index up by one. -/
theorem writeData_index_succ (last : Block) (ch : List Block) (now : String) (s : Storage)
    (h0 : minInt64 ≤ last.Index) (h1 : last.Index < maxInt64) :
    (Ledger.writeData ⟨⟨some last⟩, ch⟩ now s).map Ledger.Index = some (last.Index + 1) := by
  rw [writeData_some]
  exact congrArg some (newBlock_index_succ last now s h0 h1)

/-- The method `Update` never lowers the head index. -/
theorem update_index_le (c : Codec) (l : Ledger) (h : Message) :
    l.Index ≤ (Ledger.Update c l h).2.Index := by
  rcases update_head_cases c l h with hsame | ⟨body, incoming, _, _, hi, hnew⟩
  · rw [hsame]
  · rw [hnew]
    exact le_of_lt hi

/-- C8 (the code at the failing input): on the ledger whose head has index
`math.MaxInt64` and stores `machines/10.1.0.1`, `GetKey` reports that entry
as present with value `1`; after `Delete("b", "k")` of another pair the head
index has wrapped to `math.MinInt64` and `GetKey` reports the entry as absent,
while `CurrentData`, which reads the same head without the guard on `Len`,
still shows it with value `1`. -/
theorem delete_frame_fails_after_wrap :
    farLedger.Index = 9223372036854775807 ∧
    farLedger.GetKey "machines" "10.1.0.1" = ("1", true) ∧
    (farLedger.Delete "2021-11-04 10:00:02 +0000 UTC" "b" "k").map
        (fun l => (l.Index, l.GetKey "machines" "10.1.0.1")) =
      some (-9223372036854775808, "", false) ∧
    ((farLedger.Delete "2021-11-04 10:00:02 +0000 UTC" "b" "k").bind Ledger.CurrentData).map
        (fun cur => (cur.lookup "machines").bind fun bucket => bucket.lookup "10.1.0.1") =
      some (some "1") := by
  decide

/-- Below the overflow of the index a deletion touches one pair: on every
ledger over the in-memory store whose head index `i` satisfies
`0 ≤ i < math.MaxInt64` and whose storage is empty when `i = 0` (as in the
genesis block), for every bucket `b` and key `k`: `Delete(b, k)` returns,
`GetKey(b, k)` then reports the key as absent, and for every other pair
`GetKey` answers the same value and presence flag as before. -/
theorem delete_then_getKey (blk : Block) (ch : List Block) (now b k : String)
    (h0 : 0 ≤ blk.Index) (h1 : blk.Index < maxInt64) (hg : blk.Index = 0 → blk.Storage = ∅) :
    ∃ l, Ledger.Delete ⟨⟨some blk⟩, ch⟩ now b k = some l ∧
      l.GetKey b k = ("", false) ∧
      ∀ b1 k1, (b1, k1) ≠ (b, k) → l.GetKey b1 k1 = Ledger.GetKey ⟨⟨some blk⟩, ch⟩ b1 k1 := by
  refine ⟨_, delete_some blk ch now b k, ?_, ?_⟩
  · rw [getKey_eq_view, newBlock_storage, storageView_deleteStorage]
    cases blk.Storage.lookup b <;> simp
  · intro b1 k1 hne
    have hidx : wrapInt64 (blk.Index + 1) > 0 := by
      unfold maxInt64 at h1
      rw [wrapInt64_succ _ (by omega) h1]; omega
    have hpair : ¬ (b1 = b ∧ k1 = k) := fun h => hne (by rw [h.1, h.2])
    rw [getKey_eq_view, getKey_eq_view, newBlock_index, newBlock_storage,
      storageView_deleteStorage]
    simp only [hidx, hpair, if_true, if_false]
    by_cases hpos : blk.Index > 0
    · simp only [hpos, if_true]
    · have hz : blk.Index = 0 := by omega
      rw [hg hz]
      simp [hz, storageView_empty]

/-- An instance of `delete_then_getKey`: `Delete("machines", "10.1.0.1")` on
`sampleHead`. -/
theorem delete_then_getKey_witness :
    0 ≤ sampleHead.Index ∧ sampleHead.Index < maxInt64 ∧
    (sampleHead.Index = 0 → sampleHead.Storage = ∅) ∧
    ∃ l, Ledger.Delete ⟨⟨some sampleHead⟩, []⟩ "2021-11-04 10:00:02 +0000 UTC"
        "machines" "10.1.0.1" = some l ∧
      l.GetKey "machines" "10.1.0.1" = ("", false) ∧
      ∀ b1 k1, (b1, k1) ≠ ("machines", "10.1.0.1") →
        l.GetKey b1 k1 = Ledger.GetKey ⟨⟨some sampleHead⟩, []⟩ b1 k1 :=
  ⟨by decide, by decide, by decide,
    delete_then_getKey sampleHead [] "2021-11-04 10:00:02 +0000 UTC" "machines" "10.1.0.1"
      (by decide) (by decide) (by decide)⟩

/-- C9: for every ledger over the in-memory store that holds a head block
and every bucket `b`: `DeleteBucket(b)` returns, `CurrentData()` then has no
entry for `b`, and every other bucket is present exactly if it was present
before and holds at every key what it held before. -/
theorem deleteBucket_then_currentData (blk : Block) (ch : List Block) (now b : String) :
    ∃ l d0 d, Ledger.DeleteBucket ⟨⟨some blk⟩, ch⟩ now b = some l ∧
      Ledger.CurrentData ⟨⟨some blk⟩, ch⟩ = some d0 ∧ l.CurrentData = some d ∧
      d.lookup b = none ∧
      ∀ b1, b1 ≠ b → ∀ k1,
        (d.lookup b1).map (fun bucket => bucket.lookup k1) =
          (d0.lookup b1).map (fun bucket => bucket.lookup k1) := by
  refine ⟨_, _, _, deleteBucket_some blk ch now b, rfl, rfl, ?_, ?_⟩
  · have h := storageView_bucketsCopy
      (blk.NewBlock now (deleteBucketStorage b blk.Storage)).Storage b ""
    rw [newBlock_storage, storageView_deleteBucketStorage] at h
    simpa [storageView] using h
  · intro b1 hb k1
    have h := storageView_bucketsCopy
      (blk.NewBlock now (deleteBucketStorage b blk.Storage)).Storage b1 k1
    rw [newBlock_storage, storageView_deleteBucketStorage, if_neg hb,
      ← storageView_bucketsCopy blk.Storage b1 k1] at h
    exact h

/-- C10: for every gater state and peer `p`, `Gate(p)` returns true exactly
if the gater is enabled, and it is strict (not relaxed) or it is relaxed with
a non-empty `trustDB`, and `p` is not an element of `trustDB`. -/
theorem gate_iff (pg : PeerGater) (p : String) :
    pg.Gate p = true ↔
      pg.enabled = true ∧ (pg.relaxed = false ∨ (pg.relaxed = true ∧ pg.trustDB ≠ [])) ∧
        p ∉ pg.trustDB := by
  have hscan : ∀ l : List String, gateScan p l = true ↔ p ∉ l := by
    intro l
    induction l with
    | nil => simp [gateScan]
    | cons pp rest ih =>
      by_cases hp : pp = p
      · simp [gateScan, hp]
      · have hp2 : ¬ p = pp := fun h => hp h.symm
        simp [gateScan, hp, hp2, ih]
  unfold PeerGater.Gate
  cases he : pg.enabled <;> cases hr : pg.relaxed <;> cases hdb : pg.trustDB <;>
    simp [hscan, ← hdb]

/-! ## Runs from `New` -/

theorem add_some {V : Type} (jsonMarshal : V → Option String) (last : Block)
    (ch : List Block) (now b : String) (s : GoMap V) :
    ∃ st, Ledger.Add jsonMarshal ⟨⟨some last⟩, ch⟩ now b s =
      some ⟨⟨some (last.NewBlock now st)⟩, ch ++ [last.NewBlock now st]⟩ :=
  ⟨_, by rw [← writeData_some]; rfl⟩

/-- The ledger `New` returns on an empty store is regular and has index 0. -/
theorem regular_new (now : String) :
    (New ⟨none⟩ now).regular = true ∧ (New ⟨none⟩ now).Index = 0 :=
  ⟨rfl, rfl⟩

theorem regular_of_written (last : Block) (ch : List Block) (now : String) (st : Storage)
    (h0 : 0 ≤ last.Index) (h1 : last.Index < maxInt64) :
    Ledger.regular ⟨⟨some (last.NewBlock now st)⟩, ch ++ [last.NewBlock now st]⟩ = true ∧
      Ledger.Index ⟨⟨some last⟩, ch⟩ ≤
        Ledger.Index ⟨⟨some (last.NewBlock now st)⟩, ch ++ [last.NewBlock now st]⟩ := by
  have hidx : (last.NewBlock now st).Index = last.Index + 1 :=
    newBlock_index_succ last now st (by unfold minInt64; omega) h1
  constructor
  · simp only [Ledger.regular, hidx, Bool.and_eq_true, Bool.or_eq_true, decide_eq_true_eq,
      bne_iff_ne]
    exact ⟨by omega, Or.inl (by omega)⟩
  · simp only [Ledger.Index, MemoryStore.Len, hidx]
    omega

/-- Every step taken by a regular ledger whose head index is below
`math.MaxInt64` returns a regular ledger whose head index is not smaller. -/
theorem regular_apply {V : Type} (c : Codec) (jsonMarshal : V → Option String) (l : Ledger)
    (op : LedgerOp V) (hr : l.regular = true) (hmax : l.Index < maxInt64) :
    ∃ next, l.apply c jsonMarshal op = some next ∧ next.regular = true ∧
      l.Index ≤ next.Index := by
  obtain ⟨⟨blk⟩, ch⟩ := l
  cases blk with
  | none => simp [Ledger.regular] at hr
  | some last =>
    have h0 : 0 ≤ last.Index := by
      simp only [Ledger.regular, Bool.and_eq_true, decide_eq_true_eq] at hr
      exact hr.1
    have h1 : last.Index < maxInt64 := hmax
    cases op with
    | add now b s =>
      obtain ⟨st, hst⟩ := add_some jsonMarshal last ch now b s
      exact ⟨_, hst, regular_of_written last ch now st h0 h1⟩
    | delete now b k =>
      exact ⟨_, delete_some last ch now b k, regular_of_written last ch now _ h0 h1⟩
    | deleteBucket now b =>
      exact ⟨_, deleteBucket_some last ch now b, regular_of_written last ch now _ h0 h1⟩
    | update h =>
      refine ⟨_, rfl, ?_, update_index_le c _ h⟩
      rcases update_head_cases c ⟨⟨some last⟩, ch⟩ h with hsame | ⟨body, incoming, _, _, hi, hnew⟩
      · rw [hsame]; exact hr
      · rw [hnew]
        have hi2 : last.Index < incoming.Index := hi
        simp only [Ledger.regular, MemoryStore.Add, Bool.and_eq_true, Bool.or_eq_true,
          decide_eq_true_eq, bne_iff_ne]
        exact ⟨by omega, Or.inl (by omega)⟩

/-- A regular ledger has a head block that meets the side conditions of
`add_then_getKey` and `delete_then_getKey`. -/
theorem regular_head (l : Ledger) (hr : l.regular = true) :
    ∃ blk, l = ⟨⟨some blk⟩, l.channel⟩ ∧ 0 ≤ blk.Index ∧ (blk.Index = 0 → blk.Storage = ∅) := by
  obtain ⟨⟨blk⟩, ch⟩ := l
  cases blk with
  | none => simp [Ledger.regular] at hr
  | some last =>
    simp only [Ledger.regular, Bool.and_eq_true, Bool.or_eq_true, decide_eq_true_eq,
      bne_iff_ne, List.isEmpty_iff] at hr
    refine ⟨last, rfl, hr.1, fun hz => ?_⟩
    rcases hr.2 with hne | hem
    · exact absurd hz hne
    · exact AList.ext hem

/-- C7 (the code at the failing input): the ledger created by `New` has head
index 0; the run that receives a message carrying a block of index
`math.MaxInt64` ends with head index `math.MaxInt64`; the run that then calls
`Add` ends with head index `math.MinInt64`. -/
theorem head_index_wraps_after_add :
    freshLedger.Index = 0 ∧
    (Ledger.run sampleCodec marshalInt freshLedger [.update farMessage]).map Ledger.Index =
      some 9223372036854775807 ∧
    (Ledger.run sampleCodec marshalInt freshLedger
        [.update farMessage,
         .add "2021-11-04 10:00:02 +0000 UTC" "b" (AList.singleton "k" 1)]).map Ledger.Index =
      some (-9223372036854775808) := by
  decide

/-! ## Leader election -/

theorem fnv32a_test_vectors :
    hash "" = 2166136261 ∧ hash "a" = 3826002220 ∧ hash "foobar" = 3214735720 := by
  decide

theorem leaderStep_eq (lb : GoMap Nat) (ld a : String) (h : lb.lookup ld = some (hash ld)) :
    leaderStep (lb, ld) a = (lb.insert a (hash a), if hash ld < hash a then a else ld) := by
  have hld : ((lb.insert a (hash a)).lookup ld).getD 0 = hash ld := by
    by_cases hx : ld = a
    · subst hx; simp
    · rw [AList.lookup_insert_ne hx, h]; rfl
  have ha : ((lb.insert a (hash a)).lookup a).getD 0 = hash a := by simp
  unfold leaderStep
  simp only [hld, ha]
  split <;> rfl

theorem leader_fold_eq :
    ∀ (l : List String) (lb : GoMap Nat) (ld : String), lb.lookup ld = some (hash ld) →
      (l.foldl leaderStep (lb, ld)).2 = pickLeader ld l
  | [], _, _, _ => rfl
  | a :: l, lb, ld, h => by
    rw [List.foldl_cons, leaderStep_eq lb ld a h]
    have hstep : pickLeader ld (a :: l) = pickLeader (if hash ld < hash a then a else ld) l := rfl
    rw [hstep]
    by_cases hlt : hash ld < hash a
    · rw [if_pos hlt]
      exact leader_fold_eq l _ a (by simp)
    · rw [if_neg hlt]
      refine leader_fold_eq l _ ld ?_
      by_cases hx : ld = a
      · subst hx; simp
      · rw [AList.lookup_insert_ne hx, h]

theorem leader_cons (first : String) (rest : List String) :
    Leader (first :: rest) = some (pickLeader first rest) := by
  have h0 : leaderStep (∅, first) first = ((∅ : GoMap Nat).insert first (hash first), first) := by
    unfold leaderStep
    simp
  show some (List.foldl leaderStep (∅, first) (first :: rest)).2 = _
  rw [List.foldl_cons, h0]
  exact congrArg some (leader_fold_eq rest _ first (AList.lookup_insert _))

/-- What the loop of `Leader` returns: the start value when nothing in the
list has a larger hash, else the first element of the list whose hash
exceeds the start value and everything before it; in both cases nothing in
the list has a larger hash. -/
theorem pickLeader_spec :
    ∀ (l : List String) (ld : String),
      hash ld ≤ hash (pickLeader ld l) ∧ (∀ a ∈ l, hash a ≤ hash (pickLeader ld l)) ∧
      (pickLeader ld l = ld ∨
        ∃ pre post, l = pre ++ pickLeader ld l :: post ∧ hash ld < hash (pickLeader ld l) ∧
          ∀ a ∈ pre, hash a < hash (pickLeader ld l))
  | [], ld => ⟨le_refl _, by simp, Or.inl rfl⟩
  | a :: l, ld => by
    have hstep : pickLeader ld (a :: l) = pickLeader (if hash ld < hash a then a else ld) l := rfl
    rw [hstep]
    by_cases hlt : hash ld < hash a
    · simp only [hlt, if_true]
      obtain ⟨h1, h2, h3⟩ := pickLeader_spec l a
      refine ⟨by omega, ?_, Or.inr ?_⟩
      · intro b hb
        rcases List.mem_cons.mp hb with rfl | hb
        · exact h1
        · exact h2 b hb
      · rcases h3 with heq | ⟨pre, post, hl, hlt2, hpre⟩
        · refine ⟨[], l, by rw [heq]; rfl, by rw [heq]; exact hlt, by simp⟩
        · refine ⟨a :: pre, post, by rw [List.cons_append, ← hl], by omega, ?_⟩
          intro b hb
          rcases List.mem_cons.mp hb with rfl | hb
          · exact hlt2
          · exact hpre b hb
    · simp only [hlt, if_false]
      obtain ⟨h1, h2, h3⟩ := pickLeader_spec l ld
      refine ⟨h1, ?_, ?_⟩
      · intro b hb
        rcases List.mem_cons.mp hb with rfl | hb
        · omega
        · exact h2 b hb
      · rcases h3 with heq | ⟨pre, post, hl, hlt2, hpre⟩
        · exact Or.inl heq
        · refine Or.inr ⟨a :: pre, post, by rw [List.cons_append, ← hl], hlt2, ?_⟩
          intro b hb
          rcases List.mem_cons.mp hb with rfl | hb
          · omega
          · exact hpre b hb

/-- The leader of a non-empty list: an element of maximal hash, with only
smaller hashes before it. -/
theorem leader_first_max (first : String) (rest : List String) :
    ∃ ld pre post, Leader (first :: rest) = some ld ∧ first :: rest = pre ++ ld :: post ∧
      (∀ a ∈ first :: rest, hash a ≤ hash ld) ∧ ∀ a ∈ pre, hash a < hash ld := by
  obtain ⟨h1, h2, h3⟩ := pickLeader_spec rest first
  have hmax : ∀ a ∈ first :: rest, hash a ≤ hash (pickLeader first rest) := by
    intro a ha
    rcases List.mem_cons.mp ha with rfl | ha
    · exact h1
    · exact h2 a ha
  rcases h3 with heq | ⟨pre, post, hl, hlt, hpre⟩
  · exact ⟨_, [], rest, leader_cons first rest, by rw [heq]; rfl, hmax, by simp⟩
  · refine ⟨_, first :: pre, post, leader_cons first rest, by rw [List.cons_append, ← hl],
      hmax, ?_⟩
    intro a ha
    rcases List.mem_cons.mp ha with rfl | ha
    · exact hlt
    · exact hpre a ha

/-- C18: for every non-empty list of node IDs, `Leader` returns an element
of the list whose FNV-1a hash is at least the hash of every element, and it
is the first such element: every element before it has a strictly smaller
hash. -/
theorem leader_is_first_maximum (first : String) (rest : List String) :
    ∃ ld pre post, Leader (first :: rest) = some ld ∧ ld ∈ first :: rest ∧
      first :: rest = pre ++ ld :: post ∧
      (∀ a ∈ first :: rest, hash a ≤ hash ld) ∧ ∀ a ∈ pre, hash a < hash ld := by
  obtain ⟨ld, pre, post, h1, h2, h3, h4⟩ := leader_first_max first rest
  exact ⟨ld, pre, post, h1, by rw [h2]; simp, h2, h3, h4⟩

/-- C19 (as stated, refuted): two distinct peer IDs with the same FNV-1a
hash; the list in one order elects the first, in the other order the
second. -/
theorem leader_depends_on_order :
    collidingPeerA ≠ collidingPeerB ∧ hash collidingPeerA = hash collidingPeerB ∧
    [collidingPeerA, collidingPeerB].Nodup ∧
    [collidingPeerA, collidingPeerB].Perm [collidingPeerB, collidingPeerA] ∧
    Leader [collidingPeerA, collidingPeerB] = some collidingPeerA ∧
    Leader [collidingPeerB, collidingPeerA] = some collidingPeerB :=
  ⟨by decide, by decide, by decide, List.Perm.swap _ _ _, by decide, by decide⟩

/-- C19 (amended): for every non-empty list of peer IDs in which the
maximal FNV-1a hash is attained by one ID only, and every permutation of that
list, `Leader` returns the same ID on both. -/
theorem leader_perm (l1 l2 : List String) (hperm : l1.Perm l2) (hne : l1 ≠ [])
    (huniq : ∀ a ∈ l1, ∀ b ∈ l1, (∀ c ∈ l1, hash c ≤ hash a) → (∀ c ∈ l1, hash c ≤ hash b) →
      a = b) :
    ∃ ld, Leader l1 = some ld ∧ Leader l2 = some ld := by
  cases l1 with
  | nil => exact absurd rfl hne
  | cons a1 r1 =>
    cases l2 with
    | nil => exact absurd hperm.length_eq (by simp)
    | cons a2 r2 =>
      obtain ⟨ld1, pre1, post1, h1, hl1, hmax1, _⟩ := leader_first_max a1 r1
      obtain ⟨ld2, pre2, post2, h2, hl2, hmax2, _⟩ := leader_first_max a2 r2
      have hm1 : ld1 ∈ a1 :: r1 := by rw [hl1]; simp
      have hm2 : ld2 ∈ a1 :: r1 := hperm.mem_iff.mpr (by rw [hl2]; simp)
      have hmax2' : ∀ c ∈ a1 :: r1, hash c ≤ hash ld2 :=
        fun c hc => hmax2 c (hperm.mem_iff.mp hc)
      have heq : ld1 = ld2 := huniq ld1 hm1 ld2 hm2 hmax1 hmax2'
      exact ⟨ld1, h1, by rw [h2, heq]⟩

/-- Witness of C19 (amended): the same three peer IDs enumerated in two orders. -/
theorem leader_perm_witness :
    aliveView1.Perm aliveView2 ∧
    aliveView1 ≠ [] ∧
    (∀ a ∈ aliveView1, ∀ b ∈ aliveView1,
      (∀ c ∈ aliveView1, hash c ≤ hash a) →
      (∀ c ∈ aliveView1, hash c ≤ hash b) → a = b) ∧
    ∃ ld, Leader aliveView1 = some ld ∧
      Leader aliveView2 = some ld :=
  ⟨by decide, by decide, by decide,
    leader_perm aliveView1 aliveView2
      (by decide) (by decide) (by decide)⟩

/-! ## Persist -/

theorem lookup_getD_eq_view (m : Storage) (b k : String) :
    ((m.lookup b).getD ∅).lookup k = (storageView m b k).getD none := by
  unfold storageView
  cases m.lookup b <;> rfl

theorem persistTick_eq {V : Type} (jsonMarshal : V → Option String) (blk : Block)
    (ch : List Block) (now bucket key : String) (value : V) :
    Ledger.persistTick jsonMarshal ⟨⟨some blk⟩, ch⟩ now bucket key value =
      if storageView blk.Storage bucket key = some (some ((jsonMarshal value).getD ""))
      then some (⟨⟨some blk⟩, ch⟩, true)
      else (Ledger.Add jsonMarshal ⟨⟨some blk⟩, ch⟩ now bucket (AList.singleton key value)).map
        fun written => (written, false) := by
  unfold Ledger.persistTick Ledger.CurrentData MemoryStore.Last
  simp only [lookup_getD_eq_view, storageView_bucketsCopy]
  cases hview : storageView blk.Storage bucket key with
  | none => simp
  | some o =>
    cases o with
    | none => simp
    | some v =>
      by_cases hv : v = (jsonMarshal value).getD ""
      · simp [hv]
      · simp [hv]

theorem storageView_after_add {V : Type} (jsonMarshal : V → Option String) (blk : Block)
    (now b k : String) (v : V) :
    storageView (blk.NewBlock now (setInner (ensureBucket (bucketsCopy blk.Storage) b) b k
      ((jsonMarshal v).getD ""))).Storage b k = some (some ((jsonMarshal v).getD "")) := by
  rw [newBlock_storage, storageView_setInner]
  obtain ⟨inner, hin⟩ := ensureBucket_lookup (bucketsCopy blk.Storage) b
  simp [hin]

/-- C17: one tick of `Persist(bucket, key, value)` on a ledger that holds a
head block. If the ledger holds `(bucket, key)` with the bytes of
`json(value)`, the tick leaves the ledger as it is (same head, same index,
nothing written to the channel) and cancels. Otherwise it returns the ledger
written by `Add(bucket, \x7bkey: value\x7d)` and does not cancel, and every
tick that follows on that ledger cancels without writing. -/
theorem persist_tick {V : Type} (jsonMarshal : V → Option String) (blk : Block)
    (ch : List Block) (now bucket key : String) (value : V) :
    (storageView blk.Storage bucket key = some (some ((jsonMarshal value).getD "")) →
      Ledger.persistTick jsonMarshal ⟨⟨some blk⟩, ch⟩ now bucket key value =
        some (⟨⟨some blk⟩, ch⟩, true)) ∧
    (storageView blk.Storage bucket key ≠ some (some ((jsonMarshal value).getD "")) →
      ∃ written,
        Ledger.Add jsonMarshal ⟨⟨some blk⟩, ch⟩ now bucket (AList.singleton key value) =
          some written ∧
        Ledger.persistTick jsonMarshal ⟨⟨some blk⟩, ch⟩ now bucket key value =
          some (written, false) ∧
        ∀ later, Ledger.persistTick jsonMarshal written later bucket key value =
          some (written, true)) := by
  constructor
  · intro h
    rw [persistTick_eq, if_pos h]
  · intro h
    refine ⟨_, add_singleton_some jsonMarshal blk ch now bucket key value, ?_, ?_⟩
    · rw [persistTick_eq, if_neg h, add_singleton_some]
      rfl
    · intro later
      rw [persistTick_eq, if_pos (storageView_after_add jsonMarshal blk now bucket key value)]

/-- Witness of C17: on the genesis ledger the first tick writes
`dhcp/leader`, the second one cancels; on a ledger that holds the value the
tick cancels at once. -/
theorem persist_tick_witness :
    storageView freshGenesis.Storage "dhcp" "leader" ≠ some (some ((marshalInt 7).getD "")) ∧
    storageView (AList.singleton "dhcp" (AList.singleton "leader" "7") : Storage) "dhcp" "leader" =
      some (some ((marshalInt 7).getD "")) ∧
    ((storageView freshGenesis.Storage "dhcp" "leader" = some (some ((marshalInt 7).getD "")) →
      Ledger.persistTick marshalInt ⟨⟨some freshGenesis⟩, []⟩ "2021-11-04 10:00:02 +0000 UTC"
        "dhcp" "leader" 7 = some (⟨⟨some freshGenesis⟩, []⟩, true)) ∧
    (storageView freshGenesis.Storage "dhcp" "leader" ≠ some (some ((marshalInt 7).getD "")) →
      ∃ written,
        Ledger.Add marshalInt ⟨⟨some freshGenesis⟩, []⟩ "2021-11-04 10:00:02 +0000 UTC" "dhcp"
          (AList.singleton "leader" 7) = some written ∧
        Ledger.persistTick marshalInt ⟨⟨some freshGenesis⟩, []⟩ "2021-11-04 10:00:02 +0000 UTC"
          "dhcp" "leader" 7 = some (written, false) ∧
        ∀ later, Ledger.persistTick marshalInt written later "dhcp" "leader" 7 =
          some (written, true))) :=
  ⟨by decide, by decide,
    persist_tick marshalInt freshGenesis [] "2021-11-04 10:00:02 +0000 UTC" "dhcp" "leader" 7⟩

/-! ## The hub room -/

theorem peerIDString_sample : peerIDString samplePeerBytes = collidingPeerA := by decide

theorem hexDecodeString_samples :
    hexDecodeString "00ff1A" = ([0, 255, 26], none) ∧
    (hexDecodeString "0g").1 = [] ∧ (hexDecodeString "abc").1 = [171] ∧
    (hexDecodeString "abc").2 = some "encoding/hex: odd length hex string" := by
  decide

/-- C12: for every pub/sub message received from transport peer `r`, the
message that `readLoop` pushes to the channel has `SenderID` equal to the
string form of `r`; and two payloads from `r` that decode to messages with
the same `Message` and `Annotations` (differing at most in the `SenderID`
they carry) yield equal pushed messages. -/
theorem readLoop_sender_is_transport_peer (jsonUnmarshal : String → Except String Message)
    (self r : List Nat) (d1 d2 : String) (m1 m2 : Message)
    (h1 : jsonUnmarshal d1 = .ok m1) (h2 : jsonUnmarshal d2 = .ok m2)
    (hm : m1.Message = m2.Message) (ha : m1.Annotations = m2.Annotations) :
    readLoopStep jsonUnmarshal self ⟨r, d1⟩ = readLoopStep jsonUnmarshal self ⟨r, d2⟩ ∧
    (∀ cm, readLoopStep jsonUnmarshal self ⟨r, d1⟩ = some cm → cm.SenderID = peerIDString r) ∧
    (r ≠ self → readLoopStep jsonUnmarshal self ⟨r, d1⟩ =
      some ⟨m1.Message, peerIDString r, m1.Annotations⟩) := by
  unfold readLoopStep
  simp only [h1, h2]
  by_cases hs : r = self
  · simp [hs]
  · simp [hs, hm, ha]

/-- Witness of C12: one payload claims to come from `collidingPeerB`, the
other carries no sender; both arrive from the peer `samplePeerBytes`. -/
theorem readLoop_sender_is_transport_peer_witness :
    tableMessageDecoder
        [("spoofed", ⟨"hello", collidingPeerB, ∅⟩), ("plain", ⟨"hello", "", ∅⟩)] "spoofed" =
      .ok ⟨"hello", collidingPeerB, ∅⟩ ∧
    tableMessageDecoder
        [("spoofed", ⟨"hello", collidingPeerB, ∅⟩), ("plain", ⟨"hello", "", ∅⟩)] "plain" =
      .ok ⟨"hello", "", ∅⟩ ∧
    (Message.mk "hello" collidingPeerB ∅).Message = (Message.mk "hello" "" ∅).Message ∧
    (Message.mk "hello" collidingPeerB ∅).Annotations = (Message.mk "hello" "" ∅).Annotations ∧
    (readLoopStep (tableMessageDecoder
          [("spoofed", ⟨"hello", collidingPeerB, ∅⟩), ("plain", ⟨"hello", "", ∅⟩)]) []
        ⟨samplePeerBytes, "spoofed"⟩ =
      readLoopStep (tableMessageDecoder
          [("spoofed", ⟨"hello", collidingPeerB, ∅⟩), ("plain", ⟨"hello", "", ∅⟩)]) []
        ⟨samplePeerBytes, "plain"⟩ ∧
    (∀ cm, readLoopStep (tableMessageDecoder
          [("spoofed", ⟨"hello", collidingPeerB, ∅⟩), ("plain", ⟨"hello", "", ∅⟩)]) []
        ⟨samplePeerBytes, "spoofed"⟩ = some cm → cm.SenderID = peerIDString samplePeerBytes) ∧
    (samplePeerBytes ≠ [] → readLoopStep (tableMessageDecoder
          [("spoofed", ⟨"hello", collidingPeerB, ∅⟩), ("plain", ⟨"hello", "", ∅⟩)]) []
        ⟨samplePeerBytes, "spoofed"⟩ =
      some ⟨(Message.mk "hello" collidingPeerB ∅).Message, peerIDString samplePeerBytes,
        (Message.mk "hello" collidingPeerB ∅).Annotations⟩)) :=
  ⟨rfl, rfl, rfl, rfl,
    readLoop_sender_is_transport_peer _ [] samplePeerBytes "spoofed" "plain"
      ⟨"hello", collidingPeerB, ∅⟩ ⟨"hello", "", ∅⟩ rfl rfl rfl rfl⟩

/-! ## The event loop of the node -/

theorem foldl_found (P : (Sigma fun _ : String => List Nat) → Bool) :
    ∀ (l : List (Sigma fun _ : String => List Nat)) (init : Bool),
      l.foldl (fun found e => if P e then true else found) init = (init || l.any P)
  | [], init => by simp
  | e :: l, init => by
    rw [List.foldl_cons, foldl_found P l]
    cases hP : P e <;> cases init <;> simp [hP]

theorem peerTableFound_eq (table : GoMap (List Nat)) (sender : String) :
    peerTableFound table sender =
      table.entries.any fun e => peerIDString e.2 == peerIDString (utf8Bytes sender) := by
  unfold peerTableFound
  rw [foldl_found (fun e => peerIDString e.2 == peerIDString (utf8Bytes sender))]
  simp

theorem handleRoomMessage_eq {H : Type} (cfg : NodeConfig) (sealkey : String)
    (handlers : List H) (m : Message) :
    handleRoomMessage cfg sealkey handlers true (some m) =
      if specDelivers cfg m.SenderID = true then
        handlers.map fun h =>
          (h, ⟨(cfg.Sealer.Unseal m.Message sealkey).1, m.SenderID, m.Annotations⟩)
      else [] := by
  obtain ⟨gater, table, sealer⟩ := cfg
  simp only [handleRoomMessage, specDelivers, handleReceivedMessage, peerTableFound_eq]
  have hlen : decide (table.entries.length > 0) = !table.entries.isEmpty := by
    cases table.entries <;> simp
  rw [hlen]
  cases gater with
  | none =>
    cases hE : table.entries.isEmpty <;>
      cases hA : table.entries.any
        (fun e => peerIDString e.2 == peerIDString (utf8Bytes m.SenderID)) <;> simp
  | some gate =>
    cases hG : gate m.SenderID <;> cases hE : table.entries.isEmpty <;>
      cases hA : table.entries.any
        (fun e => peerIDString e.2 == peerIDString (utf8Bytes m.SenderID)) <;> simp [hG]

/-- What the receive branch of `handleEvents` does with peer gating on: the
handlers are called on a message with `SenderID` `s` exactly if no gater is
configured or `Gate(s)` is false, and the static peer table is empty or holds
a peer whose string form is that of `peer.ID(s)`; a message that passes
reaches every handler, a message that does not reaches none. In particular,
with an enabled gater whose `trustDB` is `[A]` and no peer table, a message
from `B` reaches every handler if `B = A` and no handler otherwise. -/
theorem handleEvents_delivers_iff {H : Type} (cfg : NodeConfig) (sealkey : String)
    (handlers : List H) (m : Message) :
    (handleRoomMessage cfg sealkey handlers true (some m) =
      if specDelivers cfg m.SenderID = true then
        handlers.map fun h =>
          (h, ⟨(cfg.Sealer.Unseal m.Message sealkey).1, m.SenderID, m.Annotations⟩)
      else []) ∧
    ∀ (relaxed : Bool) (A B : String),
      handleRoomMessage ⟨some (PeerGater.Gate ⟨[A], true, relaxed⟩), ∅, cfg.Sealer⟩ sealkey
          handlers true (some ⟨m.Message, B, m.Annotations⟩) =
        if B = A then
          handlers.map fun h =>
            (h, ⟨(cfg.Sealer.Unseal m.Message sealkey).1, B, m.Annotations⟩)
        else [] := by
  refine ⟨handleRoomMessage_eq cfg sealkey handlers m, ?_⟩
  intro relaxed A B
  rw [handleRoomMessage_eq]
  by_cases hAB : B = A
  · subst hAB
    simp [specDelivers, PeerGater.Gate, gateScan]
  · have hne2 : ¬ A = B := fun h => hAB h.symm
    simp [specDelivers, PeerGater.Gate, gateScan, hAB, hne2]

/-- C11 (the code at the failing input): a node without gater whose static
peer table holds at 10.1.0.3 the peer ID with string form `collidingPeerA`,
as the option `WithStaticPeer` stores it, receives a message whose `SenderID`
is `collidingPeerA`. The table lists the sender (`claimDelivers` is true, and
the stream handler accepts a stream from that peer over the same table), but
the receive branch of `handleEvents` calls no handler: it compares the string
form of the entry with the string form of `peer.ID(m.SenderID)`, the ID made
of the bytes of the text. The handler is called when the table holds that
ID made of the text, which the stream handler does not accept. -/
theorem listed_sender_reaches_no_handler :
    peerIDString samplePeerBytes = collidingPeerA ∧
    claimDelivers (tableConfig samplePeerBytes) collidingPeerA = true ∧
    handleRoomMessage (tableConfig samplePeerBytes) "sealkey" ["ledger.Update"] true
        (some ⟨sealedPayload, collidingPeerA, ∅⟩) = [] ∧
    streamHandler (tableMachineDecoder machineTexts) ⟨⟨some machinesHead⟩, []⟩
      (tableConfig samplePeerBytes) samplePeerBytes = true ∧
    claimDelivers (tableConfig (utf8Bytes collidingPeerA)) collidingPeerA = false ∧
    handleRoomMessage (tableConfig (utf8Bytes collidingPeerA)) "sealkey" ["ledger.Update"] true
        (some ⟨sealedPayload, collidingPeerA, ∅⟩) =
      [("ledger.Update", ⟨"", collidingPeerA, ∅⟩)] ∧
    streamHandler (tableMachineDecoder machineTexts) ⟨⟨some machinesHead⟩, []⟩
      (tableConfig (utf8Bytes collidingPeerA)) samplePeerBytes = false := by
  decide

theorem aesDecrypt_error_empty (p : AesGcm) (text : String) (key : List Nat)
    (h : (AESDecrypt p text key).2 ≠ none) : (AESDecrypt p text key).1 = "" := by
  unfold AESDecrypt at h ⊢
  cases hc : p.newCipher key with
  | error e => rfl
  | ok block =>
    simp only [hc] at h ⊢
    cases hgcm : p.newGCM block with
    | error e => rfl
    | ok gcm =>
      simp only [hgcm] at h ⊢
      by_cases hlen : (hexDecodeString text).1.length < p.nonceSize
      · simp [hlen]
      · simp only [hlen, if_false] at h ⊢
        cases ho : p.gcmOpen gcm ((hexDecodeString text).1.take p.nonceSize)
            ((hexDecodeString text).1.drop p.nonceSize) with
        | error e => rfl
        | ok decodedtext => simp [ho] at h

/-- C13 (as stated, refuted): a node without gater and peer table receives a
sealed payload that its AES sealer cannot open; the only handler is called
with the empty string as `Message`, not with the payload received. -/
theorem failed_unseal_drops_payload :
    (openConfig.Sealer.Unseal sealedPayload "sealkey").2 ≠ none ∧
    handleRoomMessage openConfig "sealkey" ["ledger.Update"] true
        (some ⟨sealedPayload, collidingPeerA, ∅⟩) =
      [("ledger.Update", ⟨"", collidingPeerA, ∅⟩)] ∧
    sealedPayload ≠ "" := by
  decide

/-- C13 (amended): when unsealing an inbound private-channel message that
passes the gater and the peer table fails, every handler is called with a
message that has the same `SenderID` and annotations and whose `Message` is
the string `Unseal` returned with its error; with the AES sealer that string
is empty. -/
theorem failed_unseal_forwards_returned_string {H : Type} (cfg : NodeConfig) (sealkey : String)
    (handlers : List H) (m : Message) (hpass : specDelivers cfg m.SenderID = true)
    (hfail : (cfg.Sealer.Unseal m.Message sealkey).2 ≠ none) :
    handleRoomMessage cfg sealkey handlers true (some m) =
      handlers.map (fun h =>
        (h, ⟨(cfg.Sealer.Unseal m.Message sealkey).1, m.SenderID, m.Annotations⟩)) ∧
    ∀ p, cfg.Sealer = AESSealer p → (cfg.Sealer.Unseal m.Message sealkey).1 = "" := by
  refine ⟨by rw [handleRoomMessage_eq, if_pos hpass], ?_⟩
  intro p hp
  rw [hp] at hfail ⊢
  exact aesDecrypt_error_empty p m.Message (sealKeyArray sealkey) hfail

/-- Witness of C13 (amended): the configuration and payload of
`failed_unseal_drops_payload`. -/
theorem failed_unseal_forwards_returned_string_witness :
    specDelivers openConfig (Message.mk sealedPayload collidingPeerA ∅).SenderID = true ∧
    (openConfig.Sealer.Unseal (Message.mk sealedPayload collidingPeerA ∅).Message "sealkey").2 ≠
      none ∧
    (handleRoomMessage openConfig "sealkey" ["ledger.Update"] true
        (some ⟨sealedPayload, collidingPeerA, ∅⟩) =
      ["ledger.Update"].map (fun h =>
        (h, ⟨(openConfig.Sealer.Unseal (Message.mk sealedPayload collidingPeerA ∅).Message
          "sealkey").1, (Message.mk sealedPayload collidingPeerA ∅).SenderID,
          (Message.mk sealedPayload collidingPeerA ∅).Annotations⟩)) ∧
    ∀ p, openConfig.Sealer = AESSealer p →
      (openConfig.Sealer.Unseal (Message.mk sealedPayload collidingPeerA ∅).Message
        "sealkey").1 = "") :=
  ⟨by decide, by decide,
    failed_unseal_forwards_returned_string openConfig "sealkey" ["ledger.Update"]
      ⟨sealedPayload, collidingPeerA, ∅⟩ (by decide) (by decide)⟩

/-! ## The ECDSA auth provider -/

theorem authenticate_samples :
    Authenticate sampleEcdsa signedChallenge (AList.singleton "ecdsa_1" "\"trusted.pub\"") =
      some true ∧
    Authenticate sampleEcdsa ⟨"challenge", collidingPeerB, ∅⟩
      (AList.singleton "ecdsa_1" "\"trusted.pub\"") = some false ∧
    Authenticate sampleEcdsa signedChallenge (AList.singleton "other" "\"trusted.pub\"") =
      some false ∧
    Authenticate sampleEcdsa malformedChallenge (AList.singleton "ecdsa_1" "\"trusted.pub\"") =
      none := by
  decide

theorem loadPublicKey_panics (p : EcdsaPrimitives) (bs decoded : String)
    (hb : p.base64Decode bs = .ok decoded) (hp : p.pemDecode decoded = none) :
    loadPublicKey p bs = none := by
  unfold loadPublicKey
  rw [hb]
  simp only [hp]

theorem verify_panics_on_key (p : EcdsaPrimitives) (bs decoded signature data : String)
    (hb : p.base64Decode bs = .ok decoded) (hp : p.pemDecode decoded = none) :
    verify p bs signature data = none := by
  unfold verify
  rw [loadPublicKey_panics p bs decoded hb hp]

theorem verify_panics_on_signature (p : EcdsaPrimitives) (bs key signature decoded data : String)
    (hk : loadPublicKey p bs = some (.ok key))
    (hb : p.base64Decode signature = .ok decoded) (hp : p.pemDecode decoded = none) :
    verify p bs signature data = none := by
  unfold verify
  rw [hk]
  simp only [hb, hp]

/-- C14 (the code at the failing inputs): `Authenticate` panics, in `verify`
on a `sigs` annotation that is valid base64 without a PEM block, and in
`loadPublicKey` on a bucket value that is valid base64 without a PEM block
or that is no JSON string. -/
theorem authenticate_panics_without_pem_block :
    Authenticate sampleEcdsa malformedChallenge (AList.singleton "ecdsa_1" "\"trusted.pub\"") =
      none ∧
    Authenticate sampleEcdsa signedChallenge (AList.singleton "ecdsa_1" "\"aGVsbG8=\"") = none ∧
    Authenticate sampleEcdsa signedChallenge (AList.singleton "ecdsa_1" "5") = none := by
  decide

theorem foldl_collect {α β : Type} (c : α → Bool) (f : α → β) :
    ∀ (l : List α) (init : List β),
      l.foldl (fun acc e => if c e then acc ++ [f e] else acc) init =
        init ++ (l.filter c).map f
  | [], init => by simp
  | e :: l, init => by
    rw [List.foldl_cons, foldl_collect c f l]
    cases hc : c e <;> simp [hc]

/-- The keys collected by `Authenticate` depend on the entries whose key
contains `ecdsa` only. -/
theorem collectPubKeys_eq (p : EcdsaPrimitives) (tzdata : Bucket) :
    collectPubKeys p tzdata =
      (tzdata.entries.filter fun e => stringsContains e.1 "ecdsa").map
        fun e => (p.jsonUnmarshalString e.2).getD "" := by
  have h := foldl_collect (fun e : (Sigma fun _ : String => Data) => stringsContains e.1 "ecdsa")
    (fun e => (p.jsonUnmarshalString e.2).getD "") tzdata.entries []
  rw [List.nil_append] at h
  exact h

theorem verifyAny_some (p : EcdsaPrimitives) (signature data : String) :
    ∀ (keys : List String) (r : Bool), verifyAny p signature data keys = some r →
      (r = true ↔ ∃ k ∈ keys, verify p k signature data = some none)
  | [], r, h => by
    simp only [verifyAny, Option.some.injEq] at h
    simp [← h]
  | k :: rest, r, h => by
    unfold verifyAny at h
    cases hv : verify p k signature data with
    | none => simp [hv] at h
    | some res =>
      cases res with
      | none =>
        simp only [hv, Option.some.injEq] at h
        simp [← h, hv]
      | some err =>
        simp only [hv] at h
        rw [verifyAny_some p signature data rest r h]
        simp [hv]

/-- Whenever `Authenticate` returns, it returns true exactly if the message
has a `sigs` annotation and some entry whose key contains `ecdsa` holds a
public key that verifies the signature against the payload. -/
theorem authenticate_returns_iff (p : EcdsaPrimitives) (m : Message) (tzdata : Bucket)
    (r : Bool) (h : Authenticate p m tzdata = some r) :
    r = true ↔ ∃ sigs, m.Annotations.lookup "sigs" = some sigs ∧
      ∃ e ∈ tzdata.entries, stringsContains e.1 "ecdsa" = true ∧
        verify p ((p.jsonUnmarshalString e.2).getD "") (p.sprint sigs) m.Message = some none := by
  unfold Authenticate at h
  cases hs : m.Annotations.lookup "sigs" with
  | none =>
    simp only [hs, Option.some.injEq] at h
    simp [← h]
  | some sigs =>
    simp only [hs] at h
    by_cases hlen : (collectPubKeys p tzdata).length == 0
    · simp only [hlen, if_true, Option.some.injEq] at h
      have hnil : collectPubKeys p tzdata = [] := by simpa using hlen
      rw [collectPubKeys_eq] at hnil
      constructor
      · intro hr; rw [← h] at hr; cases hr
      · rintro ⟨sigs2, _, e, he, hc, _⟩
        have hmem : (p.jsonUnmarshalString e.2).getD "" ∈
            (tzdata.entries.filter fun e => stringsContains e.1 "ecdsa").map
              fun e => (p.jsonUnmarshalString e.2).getD "" :=
          List.mem_map.mpr ⟨e, List.mem_filter.mpr ⟨he, hc⟩, rfl⟩
        rw [hnil] at hmem
        cases hmem
    · simp only [hlen] at h
      rw [verifyAny_some p _ _ _ r h, collectPubKeys_eq]
      constructor
      · rintro ⟨k, hk, hv⟩
        obtain ⟨e, he, hek⟩ := List.mem_map.mp hk
        have he2 := List.mem_filter.mp he
        exact ⟨sigs, rfl, e, he2.1, he2.2, by rw [hek]; exact hv⟩
      · rintro ⟨sigs2, hs2, e, he, hc, hv⟩
        have hs3 : sigs2 = sigs := by simpa using hs2.symm
        subst hs3
        exact ⟨_, List.mem_map.mpr ⟨e, List.mem_filter.mpr ⟨he, hc⟩, rfl⟩, hv⟩

/-- C15 (the code at the failing input): the message carries a `sigs`
annotation and the bucket holds, under a key containing `ecdsa`, a public key
that verifies it; the loop meets a value that is no JSON string first and
`Authenticate` panics instead of returning true. With the trusted key alone
it returns true; with the other value alone, where no entry verifies the
signature, it panics instead of returning false. -/
theorem authenticate_panics_before_trusted_key :
    mixedAuthBucket.entries.map (fun e => e.1) = ["ecdsa_0", "ecdsa_1"] ∧
    signedChallenge.Annotations.lookup "sigs" = some "\"challenge.sig\"" ∧
    stringsContains "ecdsa_1" "ecdsa" = true ∧
    verify sampleEcdsa "trusted.pub" "challenge.sig" signedChallenge.Message = some none ∧
    Authenticate sampleEcdsa signedChallenge mixedAuthBucket = none ∧
    Authenticate sampleEcdsa signedChallenge (AList.singleton "ecdsa_1" "\"trusted.pub\"") =
      some true ∧
    Authenticate sampleEcdsa signedChallenge (AList.singleton "ecdsa_0" "5") = none := by
  decide

/-! ## The autocleanup of the peer guardian -/

/-- C16 (the code at the failing input): the trust zone holds
`collidingPeerA` and `collidingPeerB`, the gossip peer list holds the peer
whose string form is `collidingPeerA`; after one autocleanup pass the trust
zone holds neither entry. -/
theorem autocleanup_deletes_listed_peer :
    peerIDString samplePeerBytes = collidingPeerA ∧
    Ledger.GetKey ⟨⟨some trustZoneHead⟩, []⟩ "trustzone" collidingPeerA = ("\"\"", true) ∧
    (autocleanupPass ⟨⟨some trustZoneHead⟩, []⟩ (fun _ => "2021-11-04 10:00:04 +0000 UTC")
        (.ok [samplePeerBytes])).map
      (fun l => (l.GetKey "trustzone" collidingPeerA, l.GetKey "trustzone" collidingPeerB,
        l.Index)) =
      some (("", false), ("", false), 5) := by
  decide

theorem autocleanup_fold (clock : Nat → String) (peers : List (List Nat)) :
    ∀ (es : List (Sigma fun _ : String => Data)) (blk : Block) (ch : List Block) (n : Nat),
      ∃ blk2 ch2,
        es.foldl (fun (st : Option (Ledger × Nat)) e =>
          match st with
          | none => none
          | some (cur, n) =>
            let _left := peerListed peers e.1
            (cur.Delete (clock n) TrustZoneKey e.1).map fun next => (next, n + 1))
          (some (⟨⟨some blk⟩, ch⟩, n)) = some (⟨⟨some blk2⟩, ch2⟩, n + es.length) ∧
        ∀ k, storageView blk2.Storage TrustZoneKey k =
          if k ∈ es.map (fun e => e.1) then
            (storageView blk.Storage TrustZoneKey k).map (fun _ => none)
          else storageView blk.Storage TrustZoneKey k
  | [], blk, ch, n => ⟨blk, ch, rfl, by simp⟩
  | e :: es, blk, ch, n => by
    obtain ⟨blk2, ch2, hfold, hview⟩ := autocleanup_fold clock peers es
      (blk.NewBlock (clock n) (deleteStorage TrustZoneKey e.1 blk.Storage))
      (ch ++ [blk.NewBlock (clock n) (deleteStorage TrustZoneKey e.1 blk.Storage)]) (n + 1)
    refine ⟨blk2, ch2, ?_, ?_⟩
    · rw [List.foldl_cons]
      simp only [delete_some, Option.map_some']
      rw [hfold]
      simp only [List.length_cons]
      congr 2
      omega
    · intro k
      rw [hview k, newBlock_storage, storageView_deleteStorage]
      have hmap : (blk.Storage.lookup TrustZoneKey).map (fun _ => (none : Option Data)) =
          (storageView blk.Storage TrustZoneKey k).map (fun _ => none) := by
        unfold storageView
        cases blk.Storage.lookup TrustZoneKey <;> rfl
      by_cases hk : k = e.1
      · subst hk
        simp only [List.map_cons, List.mem_cons, true_or, if_true, true_and, and_self, hmap]
        by_cases hmem : e.1 ∈ es.map (fun e => e.1)
        · simp only [hmem, if_true]
          cases storageView blk.Storage TrustZoneKey e.1 <;> rfl
        · simp only [hmem, if_false]
      · simp only [List.map_cons, List.mem_cons, hk, false_or, and_false, if_false]

/-- One autocleanup pass leaves no entry in the trust zone, whatever the
gossip peer list holds. -/
theorem autocleanup_deletes_every_entry (blk : Block) (ch : List Block) (clock : Nat → String)
    (peers : List (List Nat)) :
    ∃ blk2 ch2, autocleanupPass ⟨⟨some blk⟩, ch⟩ clock (.ok peers) = some ⟨⟨some blk2⟩, ch2⟩ ∧
      ∀ k v, storageView blk2.Storage TrustZoneKey k ≠ some (some v) := by
  obtain ⟨blk2, ch2, hfold, hview⟩ := autocleanup_fold clock peers
    (((bucketsCopy blk.Storage).lookup TrustZoneKey).getD ∅).entries blk ch 0
  refine ⟨blk2, ch2, ?_, ?_⟩
  · unfold autocleanupPass Ledger.CurrentData MemoryStore.Last
    simp only [hfold, Option.map_some']
  · intro k v hv
    rw [hview k] at hv
    by_cases hmem : k ∈ ((((bucketsCopy blk.Storage).lookup TrustZoneKey).getD ∅).entries).map
        (fun e => e.1)
    · rw [if_pos hmem] at hv
      cases hs : storageView blk.Storage TrustZoneKey k <;> simp [hs] at hv
    · rw [if_neg hmem] at hv
      have hnone : (((bucketsCopy blk.Storage).lookup TrustZoneKey).getD ∅).lookup k = none :=
        AList.lookup_eq_none.mpr hmem
      rw [lookup_getD_eq_view, storageView_bucketsCopy, hv] at hnone
      cases hnone

/-! ## The stream manager -/

/-- C20 (the code at the failing inputs). Low watermark `L = 1`, four
tracked streams, two of them of protected peers (`P = 2`), no peer inside the
grace period (`G = 0`) one minute after the connections: the trim pass closes
one stream and leaves three, more than `max(L, P + G) = 2`. Low watermark
`L = 5`, ten tracked streams, two of them of protected peers: the pass closes
three streams and leaves seven, more than `max(L, P + G) = 5`, the number to
which the comments of the package say the pass prunes. -/
theorem trim_leaves_more_than_max :
    crowdedManager.map (fun cm =>
      (cm.cfg.lowWater, cm.cfg.highWater, cm.connCount, trackedStreams cm.segments,
        protectedStreams cm, graceStreams cm 60000000000)) = some (1, 3, 4, 4, 2, 0) ∧
    (crowdedManager.bind fun cm => cm.trim heapStreamCap 60000000000).map
      (fun r => (r.1, streamsLeft r.2.segments r.1)) = some (["streamA"], 3) ∧
    tenPeerManager.map (fun cm =>
      (cm.cfg.lowWater, cm.cfg.highWater, cm.connCount, trackedStreams cm.segments,
        protectedStreams cm, graceStreams cm 60000000000)) = some (5, 8, 10, 10, 2, 0) ∧
    (tenPeerManager.bind fun cm => cm.trim heapStreamCap 60000000000).map
      (fun r => (r.1.length, streamsLeft r.2.segments r.1)) = some (3, 7) :=
  ⟨by decide, by decide, by decide, by decide⟩

theorem foldl_segments {β : Type} (g : β → (Sigma fun _ : String => PeerInfo) → β) :
    ∀ (segments : List (GoMap PeerInfo)) (init : β),
      segments.foldl (fun acc s => s.entries.foldl g acc) init =
        (trackedPeers segments).foldl g init
  | [], init => rfl
  | s :: rest, init => by
    rw [List.foldl_cons, foldl_segments g rest]
    simp [trackedPeers, List.foldl_append]

theorem collect_fold (cm : Manager) (start : Int) :
    ∀ (l : List (Sigma fun _ : String => PeerInfo)) (acc : List PeerInfo × Int),
      l.foldl (fun (acc : List PeerInfo × Int) e =>
        if (cm.protectedPeers.lookup e.1).isSome then acc
        else if e.2.firstSeen > start then acc
        else (acc.1 ++ [e.2], acc.2 + (e.2.conns.entries.length : Int))) acc =
      (acc.1 ++ (l.filter (isCandidate cm start)).map (fun e => e.2),
        acc.2 + ((connsOf ((l.filter (isCandidate cm start)).map fun e => e.2) : Nat) : Int))
  | [], acc => by simp [connsOf]
  | e :: l, acc => by
    rw [List.foldl_cons, collect_fold cm start l]
    by_cases hp : (cm.protectedPeers.lookup e.1).isSome = true
    · have hc : isCandidate cm start e = false := by simp [isCandidate, hp]
      simp [hp, hc]
    · by_cases hg : e.2.firstSeen > start
      · have hc : isCandidate cm start e = false := by simp [isCandidate, hg]
        simp [hp, hg, hc]
      · have hc : isCandidate cm start e = true := by
          simp only [Bool.not_eq_true] at hp
          simp [isCandidate, hp, hg]
        simp only [hp, hg, if_false, hc, List.filter_cons, if_true, List.map_cons,
          List.append_assoc, List.singleton_append, connsOf, List.sum_cons, Bool.false_eq_true]
        congr 1
        push_cast
        omega

theorem collectCandidates_eq (cm : Manager) (start : Int) :
    collectCandidates cm start =
      (((trackedPeers cm.segments).filter (isCandidate cm start)).map (fun e => e.2),
        ((connsOf (((trackedPeers cm.segments).filter (isCandidate cm start)).map
          fun e => e.2) : Nat) : Int)) := by
  unfold collectCandidates
  rw [foldl_segments, collect_fold]
  simp

theorem utf8Char_ne_nil (c : Char) : utf8Char c ≠ [] := by
  unfold utf8Char
  intro h
  simp only at h
  split_ifs at h

theorem segmentIndex_some (p : String) (h : p ≠ "") : ∃ i, segmentIndex p = some i := by
  have hne : utf8Bytes p ≠ [] := by
    unfold utf8Bytes
    cases hl : p.toList with
    | nil => exact absurd (String.ext hl) h
    | cons c cs =>
      intro hnil
      rw [List.flatMap_cons, List.append_eq_nil] at hnil
      exact utf8Char_ne_nil c hnil.1
  cases hs : segmentIndex p with
  | some i => exact ⟨i, rfl⟩
  | none =>
    unfold segmentIndex at hs
    exact absurd (List.getLast?_eq_none_iff.mp hs) hne

theorem within_refl : ∀ a : List (GoMap PeerInfo),
    List.Forall₂ (fun x y : GoMap PeerInfo => x.entries.Sublist y.entries) a a
  | [] => List.Forall₂.nil
  | _ :: rest => List.Forall₂.cons (List.Sublist.refl _) (within_refl rest)

theorem within_trans {a b c : List (GoMap PeerInfo)}
    (hab : List.Forall₂ (fun x y : GoMap PeerInfo => x.entries.Sublist y.entries) a b)
    (hbc : List.Forall₂ (fun x y : GoMap PeerInfo => x.entries.Sublist y.entries) b c) :
    List.Forall₂ (fun x y : GoMap PeerInfo => x.entries.Sublist y.entries) a c := by
  induction hab generalizing c with
  | nil => cases hbc; exact List.Forall₂.nil
  | cons h _ ih =>
    cases hbc with
    | cons h2 t2 => exact List.Forall₂.cons (h.trans h2) (ih t2)

theorem erase_entries_sublist (s : GoMap PeerInfo) (id : String) :
    (s.erase id).entries.Sublist s.entries := by
  show (List.kerase id s.entries).Sublist s.entries
  exact List.kerase_sublist _ _

theorem within_deletePeer (id : String) :
    ∀ (segments : List (GoMap PeerInfo)) (i : Nat),
      List.Forall₂ (fun x y : GoMap PeerInfo => x.entries.Sublist y.entries)
        (deletePeer segments i id) segments
  | [], _ => by
    unfold deletePeer
    simp
  | x :: rest, 0 => by
    unfold deletePeer
    simp only [List.set_cons_zero, List.getD_cons_zero]
    exact List.Forall₂.cons (erase_entries_sublist x id) (within_refl rest)
  | x :: rest, i + 1 => by
    have ih := within_deletePeer id rest i
    unfold deletePeer at ih ⊢
    simp only [List.set_cons_succ, List.getD_cons_succ]
    exact List.Forall₂.cons (List.Sublist.refl _) ih

theorem closeLoop_spec :
    ∀ (cands : List PeerInfo) (target : Int) (sel : List String)
      (segs : List (GoMap PeerInfo)),
      (∀ inf ∈ cands, inf.id ≠ "") →
      ∃ processed rest segs2,
        cands = processed ++ rest ∧
        closeLoop cands target sel segs =
          some (sel ++ processed.flatMap (fun inf => inf.conns.keys), segs2) ∧
        (rest = [] ∨ target - ((connsOf processed : Nat) : Int) ≤ 0) ∧
        List.Forall₂ (fun x y : GoMap PeerInfo => x.entries.Sublist y.entries) segs2 segs
  | [], target, sel, segs, _ =>
    ⟨[], [], segs, rfl, by simp [closeLoop], Or.inl rfl, within_refl segs⟩
  | inf :: rest, target, sel, segs, hids => by
    by_cases ht : target ≤ 0
    · exact ⟨[], inf :: rest, segs, rfl, by simp [closeLoop, ht], Or.inr (by simpa [connsOf] using ht),
        within_refl segs⟩
    · obtain ⟨i, hi⟩ := segmentIndex_some inf.id (hids inf (List.mem_cons_self _ _))
      have hrest : ∀ x ∈ rest, x.id ≠ "" := fun x hx => hids x (List.mem_cons_of_mem _ hx)
      by_cases hz : (inf.conns.entries.length == 0 && inf.temp) = true
      · obtain ⟨processed, rest2, segs2, hsplit, hrun, hstop, hwithin⟩ :=
          closeLoop_spec rest target sel (deletePeer segs i inf.id) hrest
        have hlen : inf.conns.entries.length = 0 := by
          simp only [Bool.and_eq_true, beq_iff_eq] at hz
          exact hz.1
        have hkeys : inf.conns.keys = [] := by
          have : inf.conns.keys.length = 0 := by
            rw [← hlen]; simp [AList.keys, List.keys]
          exact List.length_eq_zero.mp this
        refine ⟨inf :: processed, rest2, segs2, by rw [hsplit]; rfl, ?_, ?_,
          within_trans hwithin (within_deletePeer inf.id segs i)⟩
        · rw [closeLoop, if_neg ht, hi]
          simp only [hz, if_true, List.flatMap_cons, hkeys, List.nil_append]
          exact hrun
        · rcases hstop with h | h
          · exact Or.inl h
          · refine Or.inr ?_
            simp only [connsOf, List.map_cons, List.sum_cons, hlen] at h ⊢
            simpa using h
      · obtain ⟨processed, rest2, segs2, hsplit, hrun, hstop, hwithin⟩ :=
          closeLoop_spec rest (target - inf.conns.entries.length) (sel ++ inf.conns.keys) segs hrest
        refine ⟨inf :: processed, rest2, segs2, by rw [hsplit]; rfl, ?_, ?_, hwithin⟩
        · rw [closeLoop, if_neg ht, hi]
          simp only [hz, List.flatMap_cons]
          rw [← List.append_assoc]
          exact hrun
        · rcases hstop with h | h
          · exact Or.inl h
          · refine Or.inr ?_
            simp only [connsOf, List.map_cons, List.sum_cons] at h ⊢
            rw [Nat.cast_add]
            omega

theorem trackedPeers_within {a b : List (GoMap PeerInfo)}
    (h : List.Forall₂ (fun x y : GoMap PeerInfo => x.entries.Sublist y.entries) a b) :
    (trackedPeers a).Sublist (trackedPeers b) := by
  induction h with
  | nil => exact List.Sublist.refl _
  | cons hxy _ ih =>
    unfold trackedPeers at ih ⊢
    rw [List.flatMap_cons, List.flatMap_cons]
    exact List.Sublist.append hxy ih

theorem streamsLeft_within {a b : List (GoMap PeerInfo)} (closed : List String)
    (h : List.Forall₂ (fun x y : GoMap PeerInfo => x.entries.Sublist y.entries) a b) :
    streamsLeft a closed ≤ streamsLeft b closed := by
  unfold streamsLeft
  exact List.Sublist.sum_le_sum ((trackedPeers_within h).map _) (fun _ _ => Nat.zero_le _)

theorem openConns_le (closed : List String) (inf : PeerInfo) :
    openConns closed inf ≤ inf.conns.entries.length := by
  unfold openConns
  refine le_trans (List.length_filter_le _ _) ?_
  simp [AList.keys, List.keys]

theorem openConns_closed (closed : List String) (inf : PeerInfo)
    (h : ∀ c ∈ inf.conns.keys, c ∈ closed) : openConns closed inf = 0 := by
  unfold openConns
  rw [List.length_eq_zero, List.filter_eq_nil_iff]
  intro c hc
  simp [h c hc]

theorem left_le_candidates (cm : Manager) (now : Int) (closed : List String) :
    ∀ l : List (Sigma fun _ : String => PeerInfo),
      (l.map fun e => openConns closed e.2).sum ≤
        (((l.filter (isCandidate cm (now - cm.cfg.gracePeriod))).map fun e => e.2).map
          (openConns closed)).sum +
        ((l.filter fun e => (cm.protectedPeers.lookup e.1).isSome).map
          fun e => e.2.conns.entries.length).sum +
        ((l.filter fun e => decide (e.2.firstSeen > now - cm.cfg.gracePeriod)).map
          fun e => e.2.conns.entries.length).sum
  | [] => by simp
  | e :: l => by
    have ih := left_le_candidates cm now closed l
    have hle := openConns_le closed e.2
    by_cases hp : (cm.protectedPeers.lookup e.1).isSome = true
    · have hc : isCandidate cm (now - cm.cfg.gracePeriod) e = false := by
        simp [isCandidate, hp]
      by_cases hg : e.2.firstSeen > now - cm.cfg.gracePeriod
      · simp only [List.map_cons, List.sum_cons, List.filter_cons, hc, hp, hg, decide_True,
          if_true, Bool.false_eq_true, if_false]
        omega
      · simp only [List.map_cons, List.sum_cons, List.filter_cons, hc, hp, hg, decide_False,
          if_true, Bool.false_eq_true, if_false]
        omega
    · by_cases hg : e.2.firstSeen > now - cm.cfg.gracePeriod
      · have hc : isCandidate cm (now - cm.cfg.gracePeriod) e = false := by
          simp [isCandidate, hg]
        simp only [List.map_cons, List.sum_cons, List.filter_cons, hc, hp, hg, decide_True,
          if_true, Bool.false_eq_true, if_false]
        omega
      · have hc : isCandidate cm (now - cm.cfg.gracePeriod) e = true := by
          simp only [Bool.not_eq_true] at hp
          simp [isCandidate, hp, hg]
        simp only [List.map_cons, List.sum_cons, List.filter_cons, hc, hp, hg, decide_False,
          if_true, Bool.false_eq_true, if_false]
        omega

theorem processed_closed (sel : List String) :
    ∀ processed : List PeerInfo,
      (processed.map (openConns (sel ++ processed.flatMap fun inf => inf.conns.keys))).sum = 0 := by
  intro processed
  rw [List.sum_eq_zero_iff]
  intro n hn
  obtain ⟨inf, hinf, rfl⟩ := List.mem_map.mp hn
  exact openConns_closed _ inf fun c hc =>
    List.mem_append_right _ (List.mem_flatMap.mpr ⟨inf, hinf, hc⟩)

theorem rest_le (closed : List String) :
    ∀ rest : List PeerInfo, (rest.map (openConns closed)).sum ≤ connsOf rest
  | [] => by simp [connsOf]
  | inf :: rest => by
    have ih := rest_le closed rest
    have hle := openConns_le closed inf
    simp only [connsOf, List.map_cons, List.sum_cons] at ih ⊢
    omega

theorem connsOf_append (a b : List PeerInfo) : connsOf (a ++ b) = connsOf a + connsOf b := by
  simp [connsOf]

theorem sortByValue_perm (p : List PeerInfo) : (sortByValue p).Perm p :=
  List.perm_insertionSort _ p

theorem streamsLeft_le_tracked (segments : List (GoMap PeerInfo)) (closed : List String) :
    streamsLeft segments closed ≤ trackedStreams segments := by
  unfold streamsLeft trackedStreams
  exact List.sum_le_sum fun e _ => openConns_le closed e.2

theorem candidates_le_tracked (cm : Manager) (start : Int) :
    connsOf (((trackedPeers cm.segments).filter (isCandidate cm start)).map fun e => e.2) ≤
      trackedStreams cm.segments := by
  unfold connsOf trackedStreams
  rw [List.map_map]
  exact List.Sublist.sum_le_sum (List.Sublist.map _ (List.filter_sublist _))
    (fun _ _ => Nat.zero_le _)

theorem getConnsToClose_eq (cm : Manager) (maxCap now : Int)
    (hlow : cm.cfg.lowWater ≠ 0) (hhigh : cm.cfg.highWater ≠ 0) :
    cm.getConnsToClose maxCap now =
      if cm.connCount ≤ cm.cfg.lowWater then some ([], cm)
      else if (collectCandidates cm (now - cm.cfg.gracePeriod)).2 < cm.cfg.lowWater then
        some ([], cm)
      else if wrapInt64 (wrapInt64 ((collectCandidates cm (now - cm.cfg.gracePeriod)).2 -
            cm.cfg.lowWater) + 10) < 0 ∨
          wrapInt64 (wrapInt64 ((collectCandidates cm (now - cm.cfg.gracePeriod)).2 -
            cm.cfg.lowWater) + 10) > maxCap then none
      else
        (closeLoop (sortByValue (collectCandidates cm (now - cm.cfg.gracePeriod)).1)
          (wrapInt64 ((collectCandidates cm (now - cm.cfg.gracePeriod)).2 - cm.cfg.lowWater)) []
          cm.segments).map fun r => (r.1, { cm with segments := r.2 }) := by
  unfold Manager.getConnsToClose
  simp [hlow, hhigh]

theorem target_in_range (n low maxCap tracked : Int) (hpos : 0 < low) (hn : ¬ n < low)
    (hnt : n ≤ tracked) (hcap : tracked + 10 ≤ maxCap) (hint : maxCap ≤ maxInt64) :
    wrapInt64 (n - low) = n - low ∧
      ¬ (wrapInt64 (wrapInt64 (n - low) + 10) < 0 ∨
        wrapInt64 (wrapInt64 (n - low) + 10) > maxCap) := by
  unfold wrapInt64 maxInt64 at *
  omega

/-- With a positive low watermark and a number of tracked streams that
leaves room for the allocation, `getConnsToClose` meets neither the overflow
of `target` nor the panic of `make`. -/
theorem getConnsToClose_normal (cm : Manager) (maxCap now : Int)
    (hpos : 0 < cm.cfg.lowWater) (hhigh : cm.cfg.highWater ≠ 0)
    (hcap : (trackedStreams cm.segments : Int) + 10 ≤ maxCap) (hint : maxCap ≤ maxInt64) :
    cm.getConnsToClose maxCap now =
      if cm.connCount ≤ cm.cfg.lowWater then some ([], cm)
      else if (collectCandidates cm (now - cm.cfg.gracePeriod)).2 < cm.cfg.lowWater then
        some ([], cm)
      else
        (closeLoop (sortByValue (collectCandidates cm (now - cm.cfg.gracePeriod)).1)
          ((collectCandidates cm (now - cm.cfg.gracePeriod)).2 - cm.cfg.lowWater) []
          cm.segments).map fun r => (r.1, { cm with segments := r.2 }) := by
  have hlow : cm.cfg.lowWater ≠ 0 := by omega
  rw [getConnsToClose_eq cm maxCap now hlow hhigh]
  by_cases h1 : cm.connCount ≤ cm.cfg.lowWater
  · rw [if_pos h1, if_pos h1]
  · rw [if_neg h1, if_neg h1]
    by_cases h2 : (collectCandidates cm (now - cm.cfg.gracePeriod)).2 < cm.cfg.lowWater
    · rw [if_pos h2, if_pos h2]
    · rw [if_neg h2, if_neg h2]
      have hn : (collectCandidates cm (now - cm.cfg.gracePeriod)).2 ≤
          (trackedStreams cm.segments : Int) := by
        rw [collectCandidates_eq]
        show ((connsOf (((trackedPeers cm.segments).filter
          (isCandidate cm (now - cm.cfg.gracePeriod))).map fun e => e.2) : Nat) : Int) ≤ _
        exact_mod_cast candidates_le_tracked cm (now - cm.cfg.gracePeriod)
      obtain ⟨hw, hnp⟩ := target_in_range _ _ _ _ hpos h2 hn hcap hint
      rw [if_neg hnp, hw]

/-- What the trim pass does guarantee: in a state with a positive low
watermark and a non-zero high watermark whose counter `connCount` is not
below the number of tracked streams, whose tracked peers have non-empty IDs
and whose tracked streams leave room for the allocation, the pass returns and
the number of tracked streams it leaves open is at most `L + P + G`: the low
watermark bounds the streams left to the candidates only, those of protected
peers and of peers inside the grace period come on top. -/
theorem trim_bound (cm : Manager) (maxCap now : Int)
    (hpos : 0 < cm.cfg.lowWater) (hhigh : cm.cfg.highWater ≠ 0)
    (hcount : (trackedStreams cm.segments : Int) ≤ cm.connCount)
    (hids : ∀ e ∈ trackedPeers cm.segments, e.2.id ≠ "")
    (hcap : (trackedStreams cm.segments : Int) + 10 ≤ maxCap) (hint : maxCap ≤ maxInt64) :
    ∃ closed cm2, cm.trim maxCap now = some (closed, cm2) ∧
      (streamsLeft cm2.segments closed : Int) ≤
        cm.cfg.lowWater + (protectedStreams cm : Int) + (graceStreams cm now : Int) := by
  have hsplit : ∀ closed : List String,
      streamsLeft cm.segments closed ≤
        ((((trackedPeers cm.segments).filter (isCandidate cm (now - cm.cfg.gracePeriod))).map
          fun e => e.2).map (openConns closed)).sum +
        protectedStreams cm + graceStreams cm now := fun closed =>
    left_le_candidates cm now closed (trackedPeers cm.segments)
  unfold Manager.trim
  rw [getConnsToClose_normal cm maxCap now hpos hhigh hcap hint, collectCandidates_eq]
  by_cases h1 : cm.connCount ≤ cm.cfg.lowWater
  · refine ⟨[], cm, by rw [if_pos h1], ?_⟩
    have h := streamsLeft_le_tracked cm.segments []
    omega
  · rw [if_neg h1]
    by_cases h2 : ((connsOf (((trackedPeers cm.segments).filter
        (isCandidate cm (now - cm.cfg.gracePeriod))).map fun e => e.2) : Nat) : Int) <
          cm.cfg.lowWater
    · refine ⟨[], cm, by rw [if_pos h2], ?_⟩
      have h := hsplit []
      have hr := rest_le [] (((trackedPeers cm.segments).filter
        (isCandidate cm (now - cm.cfg.gracePeriod))).map fun e => e.2)
      omega
    · rw [if_neg h2]
      have hperm := sortByValue_perm (((trackedPeers cm.segments).filter
        (isCandidate cm (now - cm.cfg.gracePeriod))).map fun e => e.2)
      have hsorted : ∀ inf ∈ sortByValue (((trackedPeers cm.segments).filter
          (isCandidate cm (now - cm.cfg.gracePeriod))).map fun e => e.2), inf.id ≠ "" := by
        intro inf hinf
        obtain ⟨e, he, rfl⟩ := List.mem_map.mp (hperm.mem_iff.mp hinf)
        exact hids e (List.mem_filter.mp he).1
      obtain ⟨processed, rest, segs2, hcut, hrun, hstop, hwithin⟩ :=
        closeLoop_spec _ ((connsOf (((trackedPeers cm.segments).filter
          (isCandidate cm (now - cm.cfg.gracePeriod))).map fun e => e.2) : Nat) -
            cm.cfg.lowWater) [] cm.segments hsorted
      refine ⟨[] ++ processed.flatMap (fun inf => inf.conns.keys),
        { cm with segments := segs2 }, by rw [hrun]; rfl, ?_⟩
      have hle := streamsLeft_within ([] ++ processed.flatMap (fun inf => inf.conns.keys)) hwithin
      have h := hsplit ([] ++ processed.flatMap (fun inf => inf.conns.keys))
      have hsum : ((((trackedPeers cm.segments).filter
          (isCandidate cm (now - cm.cfg.gracePeriod))).map fun e => e.2).map
            (openConns ([] ++ processed.flatMap (fun inf => inf.conns.keys)))).sum =
          ((processed ++ rest).map
            (openConns ([] ++ processed.flatMap (fun inf => inf.conns.keys)))).sum := by
        rw [← hcut]
        exact ((hperm.map _).sum_eq).symm
      have hconns : connsOf (((trackedPeers cm.segments).filter
          (isCandidate cm (now - cm.cfg.gracePeriod))).map fun e => e.2) =
          connsOf processed + connsOf rest := by
        rw [← connsOf_append, ← hcut]
        unfold connsOf
        exact ((hperm.map _).sum_eq).symm
      rw [List.map_append, List.sum_append, processed_closed [] processed, Nat.zero_add] at hsum
      have hr := rest_le ([] ++ processed.flatMap (fun inf => inf.conns.keys)) rest
      show (streamsLeft segs2 ([] ++ processed.flatMap (fun inf => inf.conns.keys)) : Int) ≤ _
      rcases hstop with hnil | hstop
      · subst hnil
        simp only [List.map_nil, List.sum_nil] at hsum
        omega
      · omega

theorem trim_bound_sample :
    0 < crowdedState.cfg.lowWater ∧ crowdedState.cfg.highWater ≠ 0 ∧
    (trackedStreams crowdedState.segments : Int) ≤ crowdedState.connCount ∧
    (∀ e ∈ trackedPeers crowdedState.segments, e.2.id ≠ "") ∧
    (trackedStreams crowdedState.segments : Int) + 10 ≤ heapStreamCap ∧
    heapStreamCap ≤ maxInt64 ∧
    ∃ closed cm2, crowdedState.trim heapStreamCap 60000000000 = some (closed, cm2) ∧
      (streamsLeft cm2.segments closed : Int) ≤
        crowdedState.cfg.lowWater + (protectedStreams crowdedState : Int) +
          (graceStreams crowdedState 60000000000 : Int) :=
  ⟨by decide, by decide, by decide, by decide, by decide, by decide,
    trim_bound crowdedState heapStreamCap 60000000000 (by decide) (by decide) (by decide)
      (by decide) (by decide) (by decide)⟩

/-- At the low watermark `math.MinInt64` the subtraction
`ncandidates - lowWater` wraps to a negative `target`, and
`make([]network.Stream, 0, target+10)` panics. -/
theorem getConnsToClose_panics_on_wrapped_target :
    ({ crowdedState with cfg := { crowdedState.cfg with lowWater := minInt64 } } :
      Manager).getConnsToClose heapStreamCap 60000000000 = none := by
  decide

/-! ## Streams selected by the trim pass -/

/-- Every stream selected by `getConnsToClose` is a stream of a candidate: a
tracked peer that the first loop did not skip. -/
theorem getConnsToClose_candidates (cm : Manager) (maxCap now : Int)
    (hids : ∀ e ∈ trackedPeers cm.segments, e.2.id ≠ "") (closed : List String) (cm2 : Manager)
    (h : cm.getConnsToClose maxCap now = some (closed, cm2)) :
    ∀ c ∈ closed, ∃ e ∈ trackedPeers cm.segments,
      isCandidate cm (now - cm.cfg.gracePeriod) e = true ∧ c ∈ e.2.conns.keys := by
  have hnil : ∀ c ∈ ([] : List String), ∃ e ∈ trackedPeers cm.segments,
      isCandidate cm (now - cm.cfg.gracePeriod) e = true ∧ c ∈ e.2.conns.keys := by simp
  by_cases hz : cm.cfg.lowWater = 0 ∨ cm.cfg.highWater = 0
  · have hret : cm.getConnsToClose maxCap now = some ([], cm) := by
      unfold Manager.getConnsToClose
      rcases hz with h0 | h0 <;> simp [h0]
    rw [hret] at h
    cases h
    exact hnil
  · have hlow : cm.cfg.lowWater ≠ 0 := fun h0 => hz (Or.inl h0)
    have hhigh : cm.cfg.highWater ≠ 0 := fun h0 => hz (Or.inr h0)
    rw [getConnsToClose_eq cm maxCap now hlow hhigh, collectCandidates_eq] at h
    by_cases h1 : cm.connCount ≤ cm.cfg.lowWater
    · rw [if_pos h1] at h
      cases h
      exact hnil
    · rw [if_neg h1] at h
      by_cases h2 : ((connsOf (((trackedPeers cm.segments).filter
          (isCandidate cm (now - cm.cfg.gracePeriod))).map fun e => e.2) : Nat) : Int) <
            cm.cfg.lowWater
      · rw [if_pos h2] at h
        cases h
        exact hnil
      · rw [if_neg h2] at h
        split at h
        · cases h
        · have hperm := sortByValue_perm (((trackedPeers cm.segments).filter
            (isCandidate cm (now - cm.cfg.gracePeriod))).map fun e => e.2)
          have hsorted : ∀ inf ∈ sortByValue (((trackedPeers cm.segments).filter
              (isCandidate cm (now - cm.cfg.gracePeriod))).map fun e => e.2), inf.id ≠ "" := by
            intro inf hinf
            obtain ⟨e, he, rfl⟩ := List.mem_map.mp (hperm.mem_iff.mp hinf)
            exact hids e (List.mem_filter.mp he).1
          obtain ⟨processed, rest, segs2, hcut, hrun, _, _⟩ :=
            closeLoop_spec _ (wrapInt64 ((connsOf (((trackedPeers cm.segments).filter
              (isCandidate cm (now - cm.cfg.gracePeriod))).map fun e => e.2) : Nat) -
                cm.cfg.lowWater)) [] cm.segments hsorted
          rw [hrun] at h
          simp only [Option.map_some', Option.some.injEq, Prod.mk.injEq] at h
          intro c hc
          rw [← h.1, List.nil_append] at hc
          obtain ⟨inf, hinf, hcinf⟩ := List.mem_flatMap.mp hc
          have hmem : inf ∈ sortByValue (((trackedPeers cm.segments).filter
              (isCandidate cm (now - cm.cfg.gracePeriod))).map fun e => e.2) := by
            rw [hcut]
            exact List.mem_append_left _ hinf
          obtain ⟨e, he, rfl⟩ := List.mem_map.mp (hperm.mem_iff.mp hmem)
          have he2 := List.mem_filter.mp he
          exact ⟨e, he2.1, he2.2, hcinf⟩

/-- With a low watermark that is not negative and a number of tracked
streams that leaves room for the allocation, `getConnsToClose` returns. -/
theorem getConnsToClose_returns (cm : Manager) (maxCap now : Int)
    (hids : ∀ e ∈ trackedPeers cm.segments, e.2.id ≠ "")
    (hlow : 0 ≤ cm.cfg.lowWater)
    (hcap : (trackedStreams cm.segments : Int) + 10 ≤ maxCap) (hint : maxCap ≤ maxInt64) :
    ∃ closed cm2, cm.getConnsToClose maxCap now = some (closed, cm2) := by
  by_cases hz : cm.cfg.lowWater = 0 ∨ cm.cfg.highWater = 0
  · refine ⟨[], cm, ?_⟩
    unfold Manager.getConnsToClose
    rcases hz with h0 | h0 <;> simp [h0]
  · have hpos : 0 < cm.cfg.lowWater := by
      have : cm.cfg.lowWater ≠ 0 := fun h0 => hz (Or.inl h0)
      omega
    have hhigh : cm.cfg.highWater ≠ 0 := fun h0 => hz (Or.inr h0)
    rw [getConnsToClose_normal cm maxCap now hpos hhigh hcap hint, collectCandidates_eq]
    by_cases h1 : cm.connCount ≤ cm.cfg.lowWater
    · exact ⟨[], cm, by rw [if_pos h1]⟩
    · rw [if_neg h1]
      by_cases h2 : ((connsOf (((trackedPeers cm.segments).filter
          (isCandidate cm (now - cm.cfg.gracePeriod))).map fun e => e.2) : Nat) : Int) <
            cm.cfg.lowWater
      · exact ⟨[], cm, by rw [if_pos h2]⟩
      · rw [if_neg h2]
        have hperm := sortByValue_perm (((trackedPeers cm.segments).filter
          (isCandidate cm (now - cm.cfg.gracePeriod))).map fun e => e.2)
        have hsorted : ∀ inf ∈ sortByValue (((trackedPeers cm.segments).filter
            (isCandidate cm (now - cm.cfg.gracePeriod))).map fun e => e.2), inf.id ≠ "" := by
          intro inf hinf
          obtain ⟨e, he, rfl⟩ := List.mem_map.mp (hperm.mem_iff.mp hinf)
          exact hids e (List.mem_filter.mp he).1
        obtain ⟨processed, rest, segs2, _, hrun, _, _⟩ :=
          closeLoop_spec _ ((connsOf (((trackedPeers cm.segments).filter
            (isCandidate cm (now - cm.cfg.gracePeriod))).map fun e => e.2) : Nat) -
              cm.cfg.lowWater) [] cm.segments hsorted
        exact ⟨_, _, by rw [hrun]; rfl⟩

theorem isCandidate_iff (cm : Manager) (start : Int) (e : Sigma fun _ : String => PeerInfo) :
    isCandidate cm start e = true ↔
      cm.IsProtected e.1 "" = false ∧ ¬ e.2.firstSeen > start := by
  unfold isCandidate Manager.IsProtected
  cases cm.protectedPeers.lookup e.1 <;> simp

/-- C21: in a state whose tracked peers have non-empty IDs and in which no
stream is held by two tracked peers, every stream that `getConnsToClose`
returns is held by a tracked peer, and every tracked peer that holds one of
them is neither protected (`IsProtected(id, "")` is false: the map
`protected` has no entry for it) nor inside the grace period (its
`firstSeen` is not after `now - gracePeriod`). The call returns whenever the
low watermark is not negative and the tracked streams leave room for the
allocation `make([]network.Stream, 0, target+10)`. -/
theorem trim_spares_protected_and_grace (cm : Manager) (maxCap now : Int)
    (hids : ∀ e ∈ trackedPeers cm.segments, e.2.id ≠ "")
    (hown : ∀ e1 ∈ trackedPeers cm.segments, ∀ e2 ∈ trackedPeers cm.segments,
      ∀ c ∈ e1.2.conns.keys, c ∈ e2.2.conns.keys → e1 = e2) :
    (∀ closed cm2, cm.getConnsToClose maxCap now = some (closed, cm2) →
      (∀ c ∈ closed, ∃ e ∈ trackedPeers cm.segments, c ∈ e.2.conns.keys) ∧
      ∀ c ∈ closed, ∀ e ∈ trackedPeers cm.segments, c ∈ e.2.conns.keys →
        cm.IsProtected e.1 "" = false ∧ ¬ e.2.firstSeen > now - cm.cfg.gracePeriod) ∧
    (0 ≤ cm.cfg.lowWater → (trackedStreams cm.segments : Int) + 10 ≤ maxCap →
      maxCap ≤ maxInt64 → ∃ closed cm2, cm.getConnsToClose maxCap now = some (closed, cm2)) := by
  refine ⟨?_, fun hlow hcap hint => getConnsToClose_returns cm maxCap now hids hlow hcap hint⟩
  intro closed cm2 hrun
  have hcand := getConnsToClose_candidates cm maxCap now hids closed cm2 hrun
  refine ⟨?_, ?_⟩
  · intro c hc
    obtain ⟨e, he, _, hce⟩ := hcand c hc
    exact ⟨e, he, hce⟩
  · intro c hc e he hce
    obtain ⟨e0, he0, hcand0, hce0⟩ := hcand c hc
    have heq : e0 = e := hown e0 he0 e he c hce0 hce
    rw [← heq]
    exact (isCandidate_iff cm _ e0).mp hcand0

/-- Witness of C21: the trim of `crowdedState` one minute after the
connections returns the stream of an unprotected peer. -/
theorem trim_spares_protected_and_grace_witness :
    (∀ e ∈ trackedPeers crowdedState.segments, e.2.id ≠ "") ∧
    (∀ e1 ∈ trackedPeers crowdedState.segments, ∀ e2 ∈ trackedPeers crowdedState.segments,
      ∀ c ∈ e1.2.conns.keys, c ∈ e2.2.conns.keys → e1 = e2) ∧
    (crowdedState.getConnsToClose heapStreamCap 60000000000).map (fun r => r.1) =
      some ["streamA"] ∧
    ((∀ closed cm2, crowdedState.getConnsToClose heapStreamCap 60000000000 = some (closed, cm2) →
      (∀ c ∈ closed, ∃ e ∈ trackedPeers crowdedState.segments, c ∈ e.2.conns.keys) ∧
      ∀ c ∈ closed, ∀ e ∈ trackedPeers crowdedState.segments, c ∈ e.2.conns.keys →
        crowdedState.IsProtected e.1 "" = false ∧
          ¬ e.2.firstSeen > 60000000000 - crowdedState.cfg.gracePeriod) ∧
    (0 ≤ crowdedState.cfg.lowWater →
      (trackedStreams crowdedState.segments : Int) + 10 ≤ heapStreamCap →
      heapStreamCap ≤ maxInt64 →
      ∃ closed cm2, crowdedState.getConnsToClose heapStreamCap 60000000000 =
        some (closed, cm2))) :=
  ⟨by decide, by decide, by decide,
    trim_spares_protected_and_grace crowdedState heapStreamCap 60000000000 (by decide)
      (by decide)⟩

/-- The map `protected` of a fresh manager is empty, and `Protect` and
`Unprotect` keep every entry of it non-empty: a peer has an entry exactly
while it has at least one tag. -/
theorem protected_entries_tagged (cm : Manager) (id tag : String)
    (h : ∀ p tags, cm.protectedPeers.lookup p = some tags → tags.entries ≠ []) :
    (∀ p tags, (NewConnManager cm.cfg.lowWater cm.cfg.highWater).protectedPeers.lookup p =
      some tags → tags.entries ≠ []) ∧
    (∀ p tags, (cm.Protect id tag).protectedPeers.lookup p = some tags → tags.entries ≠ []) ∧
    (∀ p tags, (cm.Unprotect id tag).1.protectedPeers.lookup p = some tags →
      tags.entries ≠ []) := by
  refine ⟨?_, ?_, ?_⟩
  · intro p tags hp
    simp [NewConnManager] at hp
  · intro p tags hp
    unfold Manager.Protect at hp
    by_cases hpid : p = id
    · subst hpid
      simp only [AList.lookup_insert, Option.some.injEq] at hp
      rw [← hp]
      simp [AList.insert_entries]
    · rw [AList.lookup_insert_ne hpid] at hp
      exact h p tags hp
  · intro p tags hp
    unfold Manager.Unprotect at hp
    cases hl : cm.protectedPeers.lookup id with
    | none =>
      simp only [hl] at hp
      exact h p tags hp
    | some old =>
      simp only [hl] at hp
      by_cases hlen : ((old.erase tag).entries.length == 0) = true
      · simp only [hlen, if_true] at hp
        by_cases hpid : p = id
        · subst hpid
          simp [AList.lookup_erase] at hp
        · rw [AList.lookup_erase_ne hpid] at hp
          exact h p tags hp
      · have hlen2 : ((old.erase tag).entries.length == 0) = false := by
          cases hb : ((old.erase tag).entries.length == 0)
          · rfl
          · exact absurd hb hlen
        simp only [hlen2, Bool.false_eq_true, if_false] at hp
        by_cases hpid : p = id
        · subst hpid
          simp only [AList.lookup_insert, Option.some.injEq] at hp
          rw [← hp]
          intro hnil
          rw [hnil] at hlen2
          simp at hlen2
        · rw [AList.lookup_insert_ne hpid] at hp
          exact h p tags hp

/-! ## The counter of the stream manager -/

/-- C22 (the code at the failing input): on a fresh manager, two `Connected`
notifications for two streams to the same peer leave `connCount = 2` while
the peer holds one stream, the second; when both streams are then
disconnected, the one still tracked first, the peer is dropped with its
stream and the notification for the other stream is ignored:
`connCount = 1` with no tracked stream. -/
theorem connCount_exceeds_tracked_streams :
    ((NewConnManager 10 30).notifyAll
        [.connected 0 "peerA" "stream1", .connected 1 "peerA" "stream2"]).map
      (fun cm => (cm.connCount, trackedStreams cm.segments,
        (trackedPeers cm.segments).map fun e => (e.1, e.2.conns.keys))) =
      some (2, 1, [("peerA", ["stream2"])]) ∧
    ((NewConnManager 10 30).notifyAll
        [.connected 0 "peerA" "stream1", .connected 1 "peerA" "stream2",
         .disconnected "peerA" "stream2", .disconnected "peerA" "stream1"]).map
      (fun cm => (cm.connCount, trackedStreams cm.segments)) = some (1, 0) := by
  decide

/-- The number of streams of the peers of one segment. -/
theorem segment_streams_kerase (k : String) :
    ∀ l : List (Sigma fun _ : String => PeerInfo),
      (l.map fun e => e.2.conns.entries.length).sum =
        ((l.dlookup k).map fun inf => inf.conns.entries.length).getD 0 +
          ((l.kerase k).map fun e => e.2.conns.entries.length).sum
  | [] => by simp
  | ⟨a, b⟩ :: l => by
    by_cases h : k = a
    · subst h
      simp [List.kerase_cons_eq, List.dlookup_cons_eq]
    · have ih := segment_streams_kerase k l
      rw [List.kerase_cons_ne h, List.dlookup_cons_ne _ _ h]
      simp only [List.map_cons, List.sum_cons]
      omega

theorem length_kerase {β : Type} (k : String) :
    ∀ (l : List (Sigma fun _ : String => β)) (v : β), l.dlookup k = some v →
      (l.kerase k).length + 1 = l.length
  | [], _, h => by simp at h
  | ⟨a, b⟩ :: l, v, h => by
    by_cases hk : k = a
    · subst hk
      simp [List.kerase_cons_eq]
    · rw [List.dlookup_cons_ne _ _ hk] at h
      rw [List.kerase_cons_ne hk]
      simp only [List.length_cons]
      have := length_kerase k l v h
      omega

theorem tracked_set_le (s2 : GoMap PeerInfo) (a b : Nat) :
    ∀ (segs : List (GoMap PeerInfo)) (i : Nat),
      (s2.entries.map fun e => e.2.conns.entries.length).sum + a ≤
        ((segs.getD i ∅).entries.map fun e => e.2.conns.entries.length).sum + b →
      trackedStreams (segs.set i s2) + a ≤ trackedStreams segs + b
  | [], _, h => by
    simp only [List.getD_nil, AList.empty_entries, List.map_nil, List.sum_nil] at h
    simp only [List.set_nil, trackedStreams, trackedPeers, List.flatMap_nil, List.map_nil,
      List.sum_nil]
    omega
  | s :: rest, 0, h => by
    simp only [List.getD_cons_zero] at h
    simp only [List.set_cons_zero, trackedStreams, trackedPeers, List.flatMap_cons,
      List.map_append, List.sum_append]
    omega
  | s :: rest, i + 1, h => by
    simp only [List.getD_cons_succ] at h
    have ih := tracked_set_le s2 a b rest i h
    simp only [List.set_cons_succ, trackedStreams, trackedPeers, List.flatMap_cons,
      List.map_append, List.sum_append] at ih ⊢
    omega

theorem connected_tracked_le (cm cm2 : Manager) (now : Int) (p c : String)
    (h : cm.Connected now p c = some cm2) :
    trackedStreams cm2.segments ≤ trackedStreams cm.segments + 1 ∧
      cm2.connCount = wrapInt32 (cm.connCount + 1) := by
  unfold Manager.Connected at h
  cases hi : segmentIndex p with
  | none => simp [hi] at h
  | some i =>
    simp only [hi, Option.some.injEq] at h
    rw [← h]
    refine ⟨?_, rfl⟩
    have hk := segment_streams_kerase p (cm.segments.getD i ∅).entries
    have := tracked_set_le ((cm.segments.getD i ∅).insert p
      { (match (cm.segments.getD i ∅).lookup p with
          | none => (⟨p, ∅, ∅, 0, false, ∅, now⟩ : PeerInfo)
          | some pinfo => if pinfo.temp then { pinfo with temp := false, firstSeen := now }
            else pinfo) with conns := AList.singleton c now }) 0 1 cm.segments i (by
        rw [AList.insert_entries]
        simp only [List.map_cons, List.sum_cons, AList.singleton_entries, List.length_singleton]
        omega)
    simpa using this

theorem disconnected_tracked_le (cm cm2 : Manager) (p c : String)
    (h : cm.Disconnected p c = some cm2) :
    (cm2 = cm) ∨
      (trackedStreams cm2.segments + 1 ≤ trackedStreams cm.segments ∧
        cm2.connCount = wrapInt32 (cm.connCount - 1)) := by
  unfold Manager.Disconnected at h
  cases hi : segmentIndex p with
  | none => simp [hi] at h
  | some i =>
    simp only [hi] at h
    cases hl : (cm.segments.getD i ∅).lookup p with
    | none =>
      simp only [hl, Option.some.injEq] at h
      exact Or.inl h.symm
    | some cinf =>
      simp only [hl] at h
      cases hc : cinf.conns.lookup c with
      | none =>
        simp only [hc, Option.some.injEq] at h
        exact Or.inl h.symm
      | some t =>
        simp only [hc, Option.some.injEq] at h
        right
        rw [← h]
        refine ⟨?_, rfl⟩
        have hk := segment_streams_kerase p (cm.segments.getD i ∅).entries
        have hd : (cm.segments.getD i ∅).entries.dlookup p = some cinf := hl
        rw [hd] at hk
        simp only [Option.map_some', Option.getD_some] at hk
        have hlen := length_kerase c cinf.conns.entries t hc
        have he : (cinf.conns.erase c).entries = cinf.conns.entries.kerase c := rfl
        have := tracked_set_le
          (if ((cinf.conns.erase c).entries.length == 0) = true then
            (cm.segments.getD i ∅).erase p
          else (cm.segments.getD i ∅).insert p { cinf with conns := cinf.conns.erase c })
          1 0 cm.segments i (by
            by_cases hz : ((cinf.conns.erase c).entries.length == 0) = true
            · rw [if_pos hz]
              have hee : ((cm.segments.getD i ∅).erase p).entries =
                (cm.segments.getD i ∅).entries.kerase p := rfl
              rw [hee]
              have hz2 : (cinf.conns.erase c).entries.length = 0 := by simpa using hz
              rw [he] at hz2
              omega
            · rw [if_neg hz, AList.insert_entries]
              simp only [List.map_cons, List.sum_cons]
              rw [he]
              omega)
        simpa using this

/-- Along the notifications the counter never falls below the number of
tracked streams, as long as it stays below the largest `int32`. -/
theorem notify_tracked_le (cm cm2 : Manager) (n : Notification) (h : cm.notify n = some cm2)
    (hle : (trackedStreams cm.segments : Int) ≤ cm.connCount)
    (hmax : cm.connCount < 2147483647) :
    (trackedStreams cm2.segments : Int) ≤ cm2.connCount ∧
      cm2.connCount ≤ cm.connCount + 1 := by
  cases n with
  | connected now p c =>
    obtain ⟨h1, h2⟩ := connected_tracked_le cm cm2 now p c h
    rw [h2]
    unfold wrapInt32
    omega
  | disconnected p c =>
    rcases disconnected_tracked_le cm cm2 p c h with h1 | ⟨h1, h2⟩
    · rw [h1]
      omega
    · rw [h2]
      unfold wrapInt32
      omega

theorem notifyAll_tracked_le :
    ∀ (events : List Notification) (cm cm2 : Manager), cm.notifyAll events = some cm2 →
      (trackedStreams cm.segments : Int) ≤ cm.connCount →
      cm.connCount + events.length < 2147483648 →
      (trackedStreams cm2.segments : Int) ≤ cm2.connCount ∧
        cm2.connCount ≤ cm.connCount + events.length
  | [], cm, cm2, h, hle, _ => by
    simp only [Manager.notifyAll, Option.some.injEq] at h
    rw [← h]
    simp [hle]
  | n :: rest, cm, cm2, h, hle, hmax => by
    unfold Manager.notifyAll at h
    cases hn : cm.notify n with
    | none => simp [hn] at h
    | some next =>
      simp only [hn] at h
      simp only [List.length_cons, Nat.cast_add, Nat.cast_one] at hmax ⊢
      obtain ⟨h1, h2⟩ := notify_tracked_le cm next n hn hle (by omega)
      obtain ⟨h3, h4⟩ := notifyAll_tracked_le rest next cm2 h h1 (by omega)
      exact ⟨h3, by omega⟩

/-- After fewer than `2^31` notifications on a fresh manager the counter is
at least the number of tracked streams and at most the number of
notifications. -/
theorem connCount_bounds (low hi : Int) (events : List Notification) (cm : Manager)
    (h : (NewConnManager low hi).notifyAll events = some cm)
    (hlen : events.length < 2147483648) :
    (trackedStreams cm.segments : Int) ≤ cm.connCount ∧ cm.connCount ≤ events.length := by
  have h0 : trackedStreams (NewConnManager low hi).segments = 0 := by
    unfold NewConnManager trackedStreams trackedPeers
    simp
  have := notifyAll_tracked_le events (NewConnManager low hi) cm h
    (by rw [h0]; simp [NewConnManager]) (by simp [NewConnManager]; omega)
  simpa [NewConnManager] using this

/-! ## The cached score of a peer -/

theorem wrapInt64_add_wrap (a b : Int) : wrapInt64 (wrapInt64 a + wrapInt64 b) = wrapInt64 (a + b) := by
  unfold wrapInt64
  omega

theorem wrapInt64_sub_left (a b : Int) : wrapInt64 (wrapInt64 a - b) = wrapInt64 (a - b) := by
  unfold wrapInt64
  omega

theorem wrapInt64_step (s a b : Int) :
    wrapInt64 (wrapInt64 s + wrapInt64 (0 + wrapInt64 (a - b))) = wrapInt64 (s + a - b) := by
  unfold wrapInt64
  omega

theorem wrapInt64_drop (s b : Int) :
    wrapInt64 (wrapInt64 s + wrapInt64 (0 - b)) = wrapInt64 (s - b) := by
  unfold wrapInt64
  omega

theorem wrapInt64_bump (s a b : Int) :
    wrapInt64 (wrapInt64 s + wrapInt64 (a - b)) = wrapInt64 (s + a - b) := by
  unfold wrapInt64
  omega

/-- The sum of a weight over a map splits into the weight at a key and the
sum over the map without that key. -/
theorem sum_kerase {β : Type} (w : β → Int) (k : String) :
    ∀ l : List (Sigma fun _ : String => β),
      (l.map fun e => w e.2).sum =
        ((l.dlookup k).map w).getD 0 + ((l.kerase k).map fun e => w e.2).sum
  | [] => by simp
  | ⟨a, b⟩ :: l => by
    by_cases h : k = a
    · subst h
      simp [List.kerase_cons_eq, List.dlookup_cons_eq]
    · have ih := sum_kerase w k l
      rw [List.kerase_cons_ne h, List.dlookup_cons_ne _ _ h]
      simp only [List.map_cons, List.sum_cons]
      omega

theorem sum_erase {β : Type} (w : β → Int) (k : String) (m : GoMap β) :
    ((m.erase k).entries.map fun e => w e.2).sum =
      (m.entries.map fun e => w e.2).sum - ((m.lookup k).map w).getD 0 := by
  have h := sum_kerase w k m.entries
  have he : (m.erase k).entries = m.entries.kerase k := rfl
  have hl : m.lookup k = m.entries.dlookup k := rfl
  rw [he, hl]
  omega

theorem sum_insert {β : Type} (w : β → Int) (k : String) (v : β) (m : GoMap β) :
    ((m.insert k v).entries.map fun e => w e.2).sum =
      (m.entries.map fun e => w e.2).sum + w v - ((m.lookup k).map w).getD 0 := by
  have h := sum_kerase w k m.entries
  have hl : m.lookup k = m.entries.dlookup k := rfl
  rw [AList.insert_entries, hl]
  simp only [List.map_cons, List.sum_cons]
  omega

theorem scoreOk_iff (p : PeerInfo) :
    scoreOk p = true ↔ p.value = wrapInt64 (sumTags p.tags + sumDecaying p.decaying) := by
  unfold scoreOk
  exact beq_iff_eq

theorem scoreOk_temp (id : String) (now : Int) :
    scoreOk ⟨id, ∅, ∅, 0, true, ∅, now⟩ = true := by
  rw [scoreOk_iff]
  rfl

theorem mem_tracked_set (e : Sigma fun _ : String => PeerInfo) (s2 : GoMap PeerInfo) :
    ∀ (segs : List (GoMap PeerInfo)) (i : Nat),
      e ∈ trackedPeers (segs.set i s2) → e ∈ s2.entries ∨ e ∈ trackedPeers segs
  | [], _, h => by simp [trackedPeers] at h
  | s :: rest, 0, h => by
    simp only [List.set_cons_zero, trackedPeers, List.flatMap_cons, List.mem_append] at h ⊢
    rcases h with h | h
    · exact Or.inl h
    · exact Or.inr (Or.inr h)
  | s :: rest, i + 1, h => by
    simp only [List.set_cons_succ, trackedPeers, List.flatMap_cons, List.mem_append] at h ⊢
    rcases h with h | h
    · exact Or.inr (Or.inl h)
    · rcases mem_tracked_set e s2 rest i h with h2 | h2
      · exact Or.inl h2
      · exact Or.inr (Or.inr h2)

theorem mem_tracked_getD (e : Sigma fun _ : String => PeerInfo) :
    ∀ (segs : List (GoMap PeerInfo)) (i : Nat),
      e ∈ (segs.getD i ∅).entries → e ∈ trackedPeers segs
  | [], _, h => by simp at h
  | s :: rest, 0, h => by
    simp only [List.getD_cons_zero] at h
    simp only [trackedPeers, List.flatMap_cons, List.mem_append]
    exact Or.inl h
  | s :: rest, i + 1, h => by
    simp only [List.getD_cons_succ] at h
    simp only [trackedPeers, List.flatMap_cons, List.mem_append]
    exact Or.inr (mem_tracked_getD e rest i h)

theorem mem_insert_entries {β : Type} (s : GoMap β) (k : String) (v : β)
    (e : Sigma fun _ : String => β) (h : e ∈ (s.insert k v).entries) :
    e = ⟨k, v⟩ ∨ e ∈ s.entries := by
  rw [AList.insert_entries, List.mem_cons] at h
  rcases h with h | h
  · exact Or.inl h
  · exact Or.inr ((List.kerase_sublist k s.entries).subset h)

theorem mem_erase_entries {β : Type} (s : GoMap β) (k : String)
    (e : Sigma fun _ : String => β) (h : e ∈ (s.erase k).entries) : e ∈ s.entries :=
  (List.kerase_sublist k s.entries).subset h

theorem lookup_mem_entries {β : Type} (s : GoMap β) (k : String) (v : β)
    (h : s.lookup k = some v) : (⟨k, v⟩ : Sigma fun _ : String => β) ∈ s.entries :=
  AList.mem_lookup_iff.mp h

theorem tagInfoFor_spec (s : GoMap PeerInfo) (p : String) (now : Int)
    (hs : ∀ e ∈ s.entries, scoreOk e.2 = true) :
    scoreOk (tagInfoFor s p now).1 = true ∧
      ∀ e ∈ (tagInfoFor s p now).2.entries, scoreOk e.2 = true := by
  unfold tagInfoFor
  cases hl : s.lookup p with
  | some pi => exact ⟨hs _ (lookup_mem_entries s p pi hl), hs⟩
  | none =>
    refine ⟨scoreOk_temp p now, ?_⟩
    intro e he
    rcases mem_insert_entries s p _ e he with rfl | h
    · exact scoreOk_temp p now
    · exact hs e h

/-- Writing a peer with a correct score into a segment keeps the score of
every tracked peer correct. -/
theorem inv_set_insert (segs : List (GoMap PeerInfo)) (i : Nat) (p : String) (q : PeerInfo)
    (s2 : GoMap PeerInfo) (hinv : ∀ e ∈ trackedPeers segs, scoreOk e.2 = true)
    (hs2 : ∀ e ∈ s2.entries, scoreOk e.2 = true) (hq : scoreOk q = true) :
    ∀ e ∈ trackedPeers (segs.set i (s2.insert p q)), scoreOk e.2 = true := by
  intro e he
  rcases mem_tracked_set e _ segs i he with h | h
  · rcases mem_insert_entries s2 p q e h with rfl | h2
    · exact hq
    · exact hs2 e h2
  · exact hinv e h

theorem inv_getD (segs : List (GoMap PeerInfo)) (i : Nat)
    (hinv : ∀ e ∈ trackedPeers segs, scoreOk e.2 = true) :
    ∀ e ∈ (segs.getD i ∅).entries, scoreOk e.2 = true :=
  fun e he => hinv e (mem_tracked_getD e segs i he)

theorem scoreOk_setTag (p : PeerInfo) (tag : String) (val : Int) (h : scoreOk p = true) :
    scoreOk { p with value := wrapInt64 (p.value + wrapInt64 (val - (p.tags.lookup tag).getD 0)),
                     tags := p.tags.insert tag val } = true := by
  rw [scoreOk_iff] at h ⊢
  have hs := sum_insert (fun v : Int => v) tag val p.tags
  have hopt : ((p.tags.lookup tag).map fun v : Int => v).getD 0 = (p.tags.lookup tag).getD 0 := by
    cases p.tags.lookup tag <;> rfl
  simp only [sumTags] at h ⊢
  rw [hs, hopt, h, wrapInt64_bump]
  congr 1
  omega

theorem scoreOk_untag (p : PeerInfo) (tag : String) (h : scoreOk p = true) :
    scoreOk { p with value := wrapInt64 (p.value - (p.tags.lookup tag).getD 0),
                     tags := p.tags.erase tag } = true := by
  rw [scoreOk_iff] at h ⊢
  have hs := sum_erase (fun v : Int => v) tag p.tags
  have hopt : ((p.tags.lookup tag).map fun v : Int => v).getD 0 = (p.tags.lookup tag).getD 0 := by
    cases p.tags.lookup tag <;> rfl
  simp only [sumTags] at h ⊢
  rw [hs, hopt, h, wrapInt64_sub_left]
  congr 1
  omega

theorem scoreOk_setDecaying (p : PeerInfo) (tag : String) (v : DecayingValue) (h : scoreOk p = true) :
    scoreOk { p with decaying := p.decaying.insert tag v,
                     value := wrapInt64 (p.value +
                       wrapInt64 (v.Value - ((p.decaying.lookup tag).map fun d => d.Value).getD 0)) } =
      true := by
  rw [scoreOk_iff] at h ⊢
  have hs := sum_insert (fun d : DecayingValue => d.Value) tag v p.decaying
  simp only [sumDecaying] at h ⊢
  rw [hs, h, wrapInt64_bump]
  congr 1
  omega

theorem scoreOk_dropDecaying (p : PeerInfo) (tag : String) (h : scoreOk p = true) :
    scoreOk { p with value := wrapInt64 (p.value -
                       ((p.decaying.lookup tag).map fun d => d.Value).getD 0),
                     decaying := p.decaying.erase tag } = true := by
  rw [scoreOk_iff] at h ⊢
  have hs := sum_erase (fun d : DecayingValue => d.Value) tag p.decaying
  simp only [sumDecaying] at h ⊢
  rw [hs, h, wrapInt64_sub_left]
  congr 1
  omega

theorem wrapInt64_neg_step (v x : Int) :
    wrapInt64 (v + wrapInt64 (0 - x)) = wrapInt64 (v - x) := by
  unfold wrapInt64
  omega

theorem wrapInt64_zero_step (v a b : Int) :
    wrapInt64 (v + wrapInt64 (0 + wrapInt64 (a - b))) = wrapInt64 (v + wrapInt64 (a - b)) := by
  unfold wrapInt64
  omega

theorem scoreOk_decayStep (visit : GoMap DecayingTag) (now : Int) (p : PeerInfo)
    (e : Sigma fun _ : String => DecayingValue) (h : scoreOk p = true)
    (hl : p.decaying.lookup e.1 = some e.2) : scoreOk (decayStep visit now p e) = true := by
  unfold decayStep
  cases visit.lookup e.1 with
  | none => exact h
  | some tag =>
    simp only
    by_cases hr : (tag.decayFn e.2).2 = true
    · rw [if_pos hr, wrapInt64_neg_step]
      have hd := scoreOk_dropDecaying p e.1 h
      rw [hl] at hd
      exact hd
    · rw [if_neg hr, wrapInt64_zero_step]
      have hd := scoreOk_setDecaying p e.1
        { e.2 with Value := (tag.decayFn e.2).1, LastVisit := now } h
      rw [hl] at hd
      exact hd

theorem lookup_decayStep (visit : GoMap DecayingTag) (now : Int) (p : PeerInfo)
    (e : Sigma fun _ : String => DecayingValue) (k : String) (hk : k ≠ e.1) :
    (decayStep visit now p e).decaying.lookup k = p.decaying.lookup k := by
  unfold decayStep
  cases visit.lookup e.1 with
  | none => rfl
  | some tag =>
    simp only
    by_cases hr : (tag.decayFn e.2).2 = true
    · rw [if_pos hr]
      exact AList.lookup_erase_ne hk
    · rw [if_neg hr]
      exact AList.lookup_insert_ne hk

theorem scoreOk_decayFold (visit : GoMap DecayingTag) (now : Int) :
    ∀ (l : List (Sigma fun _ : String => DecayingValue)) (p : PeerInfo),
      l.NodupKeys → scoreOk p = true → (∀ e ∈ l, p.decaying.lookup e.1 = some e.2) →
      scoreOk (l.foldl (decayStep visit now) p) = true
  | [], _, _, h, _ => h
  | e :: l, p, hnd, h, hl => by
    rw [List.foldl_cons]
    have hnd2 := List.nodupKeys_cons.mp hnd
    refine scoreOk_decayFold visit now l _ hnd2.2
      (scoreOk_decayStep visit now p e h (hl e (List.mem_cons_self _ _))) ?_
    intro e2 he2
    have hne : e2.1 ≠ e.1 := by
      intro heq
      exact hnd2.1 (heq ▸ List.mem_keys_of_mem he2)
    rw [lookup_decayStep visit now p e e2.1 hne]
    exact hl e2 (List.mem_cons_of_mem _ he2)

theorem scoreOk_decayPeer (visit : GoMap DecayingTag) (now : Int) (p : PeerInfo)
    (h : scoreOk p = true) : scoreOk (decayPeer visit now p) = true :=
  scoreOk_decayFold visit now p.decaying.entries p p.decaying.nodupKeys h
    fun _ he => AList.mem_lookup_iff.mpr he

theorem scoreOk_closePeerTag (t : DecayingTag) (p : PeerInfo) (h : scoreOk p = true) :
    scoreOk (closePeerTag t p) = true := by
  unfold closePeerTag
  cases hl : p.decaying.lookup t.name with
  | none => exact h
  | some dt =>
    have hd := scoreOk_dropDecaying p t.name h
    rw [hl] at hd
    exact hd

theorem mem_tracked_forPeers (f : PeerInfo → PeerInfo) (e : Sigma fun _ : String => PeerInfo) :
    ∀ segs : List (GoMap PeerInfo), e ∈ trackedPeers (segs.map (forPeers f)) →
      ∃ e0 ∈ trackedPeers segs, e = ⟨e0.1, f e0.2⟩
  | [], h => by simp [trackedPeers] at h
  | s :: rest, h => by
    simp only [List.map_cons, trackedPeers, List.flatMap_cons, List.mem_append] at h
    rcases h with h | h
    · obtain ⟨e0, he0, heq⟩ := List.mem_map.mp h
      exact ⟨e0, by simp [trackedPeers, he0], heq.symm⟩
    · obtain ⟨e0, he0, heq⟩ := mem_tracked_forPeers f e rest h
      exact ⟨e0, by
        simp only [trackedPeers, List.flatMap_cons, List.mem_append]
        exact Or.inr he0, heq⟩

theorem inv_forPeers (f : PeerInfo → PeerInfo) (segs : List (GoMap PeerInfo))
    (hf : ∀ p, scoreOk p = true → scoreOk (f p) = true)
    (hinv : ∀ e ∈ trackedPeers segs, scoreOk e.2 = true) :
    ∀ e ∈ trackedPeers (segs.map (forPeers f)), scoreOk e.2 = true := by
  intro e he
  obtain ⟨e0, he0, rfl⟩ := mem_tracked_forPeers f e segs he
  exact hf e0.2 (hinv e0 he0)

theorem tagPeer_inv (cm : Manager) (now : Int) (p tag : String) (val : Int) (hp : p ≠ "")
    (hinv : ∀ e ∈ trackedPeers cm.segments, scoreOk e.2 = true) :
    ∃ cm2, cm.TagPeer now p tag val = some cm2 ∧
      ∀ e ∈ trackedPeers cm2.segments, scoreOk e.2 = true := by
  obtain ⟨i, hi⟩ := segmentIndex_some p hp
  obtain ⟨h1, h2⟩ := tagInfoFor_spec (cm.segments.getD i ∅) p now (inv_getD cm.segments i hinv)
  refine ⟨_, by unfold Manager.TagPeer; rw [hi], ?_⟩
  exact inv_set_insert cm.segments i p _ _ hinv h2 (scoreOk_setTag _ tag val h1)

theorem upsertTag_inv (cm : Manager) (now : Int) (p tag : String) (upsert : Int → Int)
    (hp : p ≠ "") (hinv : ∀ e ∈ trackedPeers cm.segments, scoreOk e.2 = true) :
    ∃ cm2, cm.UpsertTag now p tag upsert = some cm2 ∧
      ∀ e ∈ trackedPeers cm2.segments, scoreOk e.2 = true := by
  obtain ⟨i, hi⟩ := segmentIndex_some p hp
  obtain ⟨h1, h2⟩ := tagInfoFor_spec (cm.segments.getD i ∅) p now (inv_getD cm.segments i hinv)
  refine ⟨_, by unfold Manager.UpsertTag; rw [hi], ?_⟩
  exact inv_set_insert cm.segments i p _ _ hinv h2 (scoreOk_setTag _ tag _ h1)

theorem untagPeer_inv (cm : Manager) (p tag : String) (hp : p ≠ "")
    (hinv : ∀ e ∈ trackedPeers cm.segments, scoreOk e.2 = true) :
    ∃ cm2, cm.UntagPeer p tag = some cm2 ∧
      ∀ e ∈ trackedPeers cm2.segments, scoreOk e.2 = true := by
  obtain ⟨i, hi⟩ := segmentIndex_some p hp
  have hs := inv_getD cm.segments i hinv
  unfold Manager.UntagPeer
  rw [hi]
  cases hl : (cm.segments.getD i ∅).lookup p with
  | none => exact ⟨cm, by simp only [hl], hinv⟩
  | some pi =>
    refine ⟨_, by simp only [hl]; rfl, ?_⟩
    exact inv_set_insert cm.segments i p _ _ hinv hs
      (scoreOk_untag pi tag (hs _ (lookup_mem_entries _ p pi hl)))

theorem bump_inv (d : Decayer) (now : Int) (peer : String) (tag : DecayingTag) (delta : Int)
    (hp : peer ≠ "") (hinv : ∀ e ∈ trackedPeers d.mgr.segments, scoreOk e.2 = true) :
    ∃ d2, d.bump now peer tag delta = some d2 ∧
      ∀ e ∈ trackedPeers d2.mgr.segments, scoreOk e.2 = true := by
  obtain ⟨i, hi⟩ := segmentIndex_some peer hp
  obtain ⟨h1, h2⟩ := tagInfoFor_spec (d.mgr.segments.getD i ∅) peer now
    (inv_getD d.mgr.segments i hinv)
  refine ⟨_, by unfold Decayer.bump; rw [hi], ?_⟩
  refine inv_set_insert d.mgr.segments i peer _ _ hinv h2 ?_
  cases hl : (tagInfoFor (d.mgr.segments.getD i ∅) peer now).1.decaying.lookup tag.name with
  | none =>
    have hd := scoreOk_setDecaying (tagInfoFor (d.mgr.segments.getD i ∅) peer now).1 tag.name
      { (⟨tag.name, peer, 0, now, now⟩ : DecayingValue) with
        Value := tag.bumpFn ⟨tag.name, peer, 0, now, now⟩ delta, LastVisit := now } h1
    rw [hl] at hd
    exact hd
  | some v =>
    have hd := scoreOk_setDecaying (tagInfoFor (d.mgr.segments.getD i ∅) peer now).1 tag.name
      { v with Value := tag.bumpFn v delta, LastVisit := now } h1
    rw [hl] at hd
    exact hd

theorem remove_inv (d : Decayer) (now : Int) (peer : String) (tag : DecayingTag)
    (hp : peer ≠ "") (hinv : ∀ e ∈ trackedPeers d.mgr.segments, scoreOk e.2 = true) :
    ∃ d2, d.remove now peer tag = some d2 ∧
      ∀ e ∈ trackedPeers d2.mgr.segments, scoreOk e.2 = true := by
  obtain ⟨i, hi⟩ := segmentIndex_some peer hp
  obtain ⟨h1, h2⟩ := tagInfoFor_spec (d.mgr.segments.getD i ∅) peer now
    (inv_getD d.mgr.segments i hinv)
  unfold Decayer.remove
  rw [hi]
  cases hl : (tagInfoFor (d.mgr.segments.getD i ∅) peer now).1.decaying.lookup tag.name with
  | none =>
    refine ⟨_, by simp only [hl]; rfl, ?_⟩
    intro e he
    rcases mem_tracked_set e _ d.mgr.segments i he with h | h
    · exact h2 e h
    · exact hinv e h
  | some v =>
    refine ⟨_, by simp only [hl]; rfl, ?_⟩
    refine inv_set_insert d.mgr.segments i peer _ _ hinv h2 ?_
    have hd := scoreOk_dropDecaying (tagInfoFor (d.mgr.segments.getD i ∅) peer now).1 tag.name h1
    rw [hl] at hd
    exact hd

/-- C23: if the cached `value` of every tracked peer is the sum of its static
and decaying tag values (in the arithmetic of Go `int`), then each operation
on the score (`TagPeer`, `UntagPeer`, `UpsertTag`, a bump, a remove, a decay
tick, the close of a decaying tag) on a non-empty peer ID returns and leaves
that true of every tracked peer. -/
theorem score_invariant (d : Decayer) (now : Int) (op : ScoreOp)
    (hinv : ∀ e ∈ trackedPeers d.mgr.segments, scoreOk e.2 = true)
    (hid : ∀ p, op.peer = some p → p ≠ "") :
    ∃ d2, d.apply now op = some d2 ∧
      ∀ e ∈ trackedPeers d2.mgr.segments, scoreOk e.2 = true := by
  cases op with
  | tagPeer p tag val =>
    obtain ⟨cm2, h1, h2⟩ := tagPeer_inv d.mgr now p tag val (hid p rfl) hinv
    exact ⟨{ d with mgr := cm2 }, by simp [Decayer.apply, h1], h2⟩
  | untagPeer p tag =>
    obtain ⟨cm2, h1, h2⟩ := untagPeer_inv d.mgr p tag (hid p rfl) hinv
    exact ⟨{ d with mgr := cm2 }, by simp [Decayer.apply, h1], h2⟩
  | upsertTag p tag upsert =>
    obtain ⟨cm2, h1, h2⟩ := upsertTag_inv d.mgr now p tag upsert (hid p rfl) hinv
    exact ⟨{ d with mgr := cm2 }, by simp [Decayer.apply, h1], h2⟩
  | bump peer tag delta => exact bump_inv d now peer tag delta (hid peer rfl) hinv
  | remove peer tag => exact remove_inv d now peer tag (hid peer rfl) hinv
  | tick =>
    exact ⟨d.tick now, rfl, inv_forPeers _ d.mgr.segments
      (fun p hp => scoreOk_decayPeer _ now p hp) hinv⟩
  | closeTag tag =>
    exact ⟨d.closeTag tag, rfl, inv_forPeers _ d.mgr.segments
      (fun p hp => scoreOk_closePeerTag tag p hp) hinv⟩

/-- The score of `peerA` along a run: a static tag of 5 and a bump of 8 give
13; a tick at one minute halves the decaying value, 9; two more ticks bring
it to 2 and 1, the next one removes it, 5; untagging gives 0. -/
theorem score_sample_run :
    scoreView scoredDecayer "peerA" = [("peerA", [("vpn", 5)], [("latency", 8)], 13)] ∧
    scoreView (scoredDecayer.tick 60000000000) "peerA" =
      [("peerA", [("vpn", 5)], [("latency", 4)], 9)] ∧
    scoreView (((scoredDecayer.tick 60000000000).tick 120000000000).tick 180000000000) "peerA" =
      [("peerA", [("vpn", 5)], [("latency", 1)], 6)] ∧
    scoreView ((((scoredDecayer.tick 60000000000).tick 120000000000).tick 180000000000).tick
      240000000000) "peerA" = [("peerA", [("vpn", 5)], [], 5)] ∧
    scoreView ((scoredDecayer.apply 0 (.untagPeer "peerA" "vpn")).getD ⟨crowdedState, ∅⟩)
      "peerA" = [("peerA", [], [("latency", 8)], 8)] ∧
    scoreView (scoredDecayer.closeTag halvingTag) "peerA" = [("peerA", [("vpn", 5)], [], 5)] :=
  ⟨by decide, by decide, by decide, by decide, by decide, by decide⟩

/-- Witness of C23: a decay tick on `scoredDecayer`. -/
theorem score_invariant_witness :
    (∀ e ∈ trackedPeers scoredDecayer.mgr.segments, scoreOk e.2 = true) ∧
    (∀ p, ScoreOp.tick.peer = some p → p ≠ "") ∧
    ∃ d2, scoredDecayer.apply 60000000000 .tick = some d2 ∧
      ∀ e ∈ trackedPeers d2.mgr.segments, scoreOk e.2 = true :=
  ⟨by decide, fun _ h => (by cases h),
    score_invariant scoredDecayer 60000000000 .tick (by decide) (fun _ h => (by cases h))⟩

/-! ## The VPN service -/

theorem peerTableLists_eq (table : GoMap (List Nat)) (remote : List Nat) :
    peerTableLists table remote =
      table.entries.any fun e => peerIDString e.2 == peerIDString remote := by
  unfold peerTableLists
  rw [foldl_found (fun e => peerIDString e.2 == peerIDString remote)]
  simp

theorem exists_eq (blk : Block) (ch : List Block) (b : String) (f : Data → Bool) :
    Ledger.Exists ⟨⟨some blk⟩, ch⟩ b f = true ↔
      0 < blk.Index ∧ ∃ k d, storageView blk.Storage b k = some (some d) ∧ f d = true := by
  unfold Ledger.Exists MemoryStore.Len MemoryStore.Last storageView
  simp only [gt_iff_lt]
  by_cases hidx : 0 < blk.Index
  · simp only [hidx, if_true, true_and, List.any_eq_true]
    constructor
    · rintro ⟨e, he, hf⟩
      cases hl : blk.Storage.lookup b with
      | none => simp [hl] at he
      | some bucket =>
        rw [hl] at he
        have hlk : bucket.lookup e.1 = some e.2 :=
          AList.mem_lookup_iff.mpr (show (⟨e.1, e.2⟩ : Sigma fun _ : String => Data) ∈
            bucket.entries from he)
        exact ⟨e.1, e.2, by simp [hlk], hf⟩
    · rintro ⟨k, d, hv, hf⟩
      cases hl : blk.Storage.lookup b with
      | none => simp [hl] at hv
      | some bucket =>
        rw [hl] at hv
        simp only [Option.map_some', Option.some.injEq] at hv
        exact ⟨⟨k, d⟩, by simpa using AList.mem_lookup_iff.mp hv, hf⟩
  · simp [hidx]

/-- C24 (as stated, refuted): the remote peer `collidingPeerA` has a machine
record in the bucket `machines` of the head block, but the node has a static
peer table, which lists another peer: the handler resets the stream. Without
peer table it accepts it. -/
theorem stream_reset_despite_machine_record :
    peerIDString samplePeerBytes = collidingPeerA ∧
    Ledger.GetKey ⟨⟨some machinesHead⟩, []⟩ MachinesLedgerKey "10.1.0.2" = ("stale", true) ∧
    (tableMachineDecoder machineTexts "stale").PeerID = collidingPeerA ∧
    streamHandler (tableMachineDecoder machineTexts) ⟨⟨some machinesHead⟩, []⟩
      (tableConfig samplePeerBytesB) samplePeerBytes = false ∧
    streamHandler (tableMachineDecoder machineTexts) ⟨⟨some machinesHead⟩, []⟩
      openConfig samplePeerBytes = true := by
  decide

/-- C24 (amended): the inbound stream handler accepts a stream exactly if
the static peer table is empty and the head block, at a positive index,
holds in `machines` a record whose `PeerID` is the string form of the remote
peer, or the static peer table is not empty and lists a peer with the string
form of the remote peer. -/
theorem streamHandler_accepts_iff (unmarshalMachine : Data → Machine) (blk : Block)
    (ch : List Block) (nc : NodeConfig) (remote : List Nat) :
    streamHandler unmarshalMachine ⟨⟨some blk⟩, ch⟩ nc remote = true ↔
      (nc.PeerTable.entries = [] ∧ 0 < blk.Index ∧
        ∃ k d, storageView blk.Storage MachinesLedgerKey k = some (some d) ∧
          (unmarshalMachine d).PeerID = peerIDString remote) ∨
      (nc.PeerTable.entries ≠ [] ∧
        ∃ e ∈ nc.PeerTable.entries, peerIDString e.2 = peerIDString remote) := by
  have hex : Ledger.Exists ⟨⟨some blk⟩, ch⟩ MachinesLedgerKey
      (fun d => (unmarshalMachine d).PeerID == peerIDString remote) = true ↔
      0 < blk.Index ∧ ∃ k d, storageView blk.Storage MachinesLedgerKey k = some (some d) ∧
        (unmarshalMachine d).PeerID = peerIDString remote := by
    rw [exists_eq]
    simp
  have hany : (nc.PeerTable.entries.any fun e => peerIDString e.2 == peerIDString remote) =
      true ↔ ∃ e ∈ nc.PeerTable.entries, peerIDString e.2 = peerIDString remote := by
    rw [List.any_eq_true]
    simp
  unfold streamHandler
  rw [peerTableLists_eq]
  generalize Ledger.Exists ⟨⟨some blk⟩, ch⟩ MachinesLedgerKey
    (fun d => (unmarshalMachine d).PeerID == peerIDString remote) = E at hex ⊢
  generalize (nc.PeerTable.entries.any fun e => peerIDString e.2 == peerIDString remote) = A
    at hany ⊢
  rw [← hex, ← hany]
  cases nc.PeerTable.entries with
  | nil => cases E <;> cases A <;> simp
  | cons e0 rest => cases E <;> cases A <;> simp

/-- C25 (as stated, refuted): the ledger holds at `machines/10.1.0.2` a
record with the peer ID of the node but another host name and version; it
differs from the record of the node, and the tick writes nothing. -/
theorem announce_skips_stale_record :
    Ledger.GetKey ⟨⟨some machinesHead⟩, []⟩ MachinesLedgerKey "10.1.0.2" = ("stale", true) ∧
    tableMachineDecoder machineTexts "stale" = staleMachine ∧
    staleMachine ≠ newBlockChainData sampleHost "10.1.0.2" ∧
    staleMachine.PeerID = sampleHost.ID ∧
    vpnAnnounce (tableMachineDecoder machineTexts) marshalSampleMachine sampleHost
      ⟨⟨some machinesHead⟩, []⟩ "2021-11-04 10:00:05 +0000 UTC" "10.1.0.2" =
      some ⟨⟨some machinesHead⟩, []⟩ := by
  decide

/-- C25 (amended): on a tick of the announce loop the node leaves the ledger
as it is when `GetKey(machines, ip)` finds an entry whose `PeerID` is the
peer ID of the node, whatever the other fields of the entry; otherwise (no
entry found, or another `PeerID`) it writes its machine record to
`machines/ip` with `Add`, and the written head block holds the record
there. -/
theorem announce_writes_iff (unmarshalMachine : Data → Machine)
    (marshalMachine : Machine → Option String) (n : HostInfo) (blk : Block) (ch : List Block)
    (now ip : String) :
    vpnAnnounce unmarshalMachine marshalMachine n ⟨⟨some blk⟩, ch⟩ now ip =
      (if (Ledger.GetKey ⟨⟨some blk⟩, ch⟩ MachinesLedgerKey ip).2 = true ∧
          (unmarshalMachine (Ledger.GetKey ⟨⟨some blk⟩, ch⟩ MachinesLedgerKey ip).1).PeerID = n.ID
        then some ⟨⟨some blk⟩, ch⟩
        else Ledger.Add marshalMachine ⟨⟨some blk⟩, ch⟩ now MachinesLedgerKey
          (AList.singleton ip (newBlockChainData n ip))) ∧
    ∃ head, Ledger.Add marshalMachine ⟨⟨some blk⟩, ch⟩ now MachinesLedgerKey
        (AList.singleton ip (newBlockChainData n ip)) = some ⟨⟨some head⟩, ch ++ [head]⟩ ∧
      head.Index = wrapInt64 (blk.Index + 1) ∧
      storageView head.Storage MachinesLedgerKey ip =
        some (some ((marshalMachine (newBlockChainData n ip)).getD "")) := by
  constructor
  · unfold vpnAnnounce
    generalize Ledger.GetKey ⟨⟨some blk⟩, ch⟩ MachinesLedgerKey ip = got
    cases hf : got.2 <;>
      by_cases hp : (unmarshalMachine got.1).PeerID = n.ID <;> simp [hf, hp]
  · exact ⟨_, add_singleton_some marshalMachine blk ch now MachinesLedgerKey ip _, rfl,
      storageView_after_add marshalMachine blk now MachinesLedgerKey ip _⟩

/-! ## The checksum of a block -/

theorem pinnedBlock_record (hash : String) : (pinnedBlock hash).record = "0t0map[]" := by
  have h : (pinnedBlock "").record = "0t0map[]" := by decide
  exact h

/-- C26: `Checksum` is the hexadecimal SHA-256 of the concatenation of the
printed index, the timestamp, the printed storage and the previous hash, in
that order; it does not depend on the field `Hash`; and on the block with
index 0, timestamp `t0`, empty storage and empty previous hash the hashed
string is `0t0map[]`, whose digest is `8e5829a0...150b`. -/
theorem checksum_is_sha256_of_record (b : Block) (hash : String) :
    b.Checksum =
      sha256Hex (toString b.Index ++ b.Timestamp ++ sprintStorage b.Storage ++ b.PrevHash) ∧
    Block.Checksum { b with Hash := hash } = b.Checksum ∧
    (pinnedBlock hash).record = "0t0map[]" ∧
    (pinnedBlock hash).Checksum = sha256Hex "0t0map[]" ∧
    sha256Hex "0t0map[]" = "8e5829a0f1e90df723ffea59e724de051cfe3b64858f98d110d0deed64e8150b" ∧
    printedBlock.record = "4t1map[dns:map[a:1 b:2] machines:map[]]ph" ∧
    printedBlock.Checksum =
      "cffa70b68574d08a8ce6979b7f344f8fed87d3b88b90f94ad2a2fca6d579a2ee" := by
  refine ⟨rfl, rfl, pinnedBlock_record hash, ?_, by decide, by decide, by decide⟩
  show sha256Hex (pinnedBlock hash).record = _
  rw [pinnedBlock_record]

/-! ## The ledger API and its client -/

theorem persistTick_stores {V : Type} (jsonMarshal : V → Option String) (blk : Block)
    (ch : List Block) (now bucket key : String) (value : V) :
    ∃ head ch2 cancelled,
      Ledger.persistTick jsonMarshal ⟨⟨some blk⟩, ch⟩ now bucket key value =
        some (⟨⟨some head⟩, ch2⟩, cancelled) ∧
      storageView head.Storage bucket key = some (some ((jsonMarshal value).getD "")) := by
  rw [persistTick_eq]
  by_cases h : storageView blk.Storage bucket key = some (some ((jsonMarshal value).getD ""))
  · exact ⟨blk, ch, true, by rw [if_pos h], h⟩
  · refine ⟨blk.NewBlock now (setInner (ensureBucket (bucketsCopy blk.Storage) bucket) bucket key
        ((jsonMarshal value).getD "")),
      ch ++ [blk.NewBlock now (setInner (ensureBucket (bucketsCopy blk.Storage) bucket) bucket key
        ((jsonMarshal value).getD ""))], false, ?_,
      storageView_after_add jsonMarshal blk now bucket key value⟩
    rw [if_neg h, add_singleton_some]
    rfl

/-- C27: `Client.Put(b, k, v)` sends the base64 text `d` of the JSON text
`dat` of `v`; a tick of the task of the `PUT` handler leaves a ledger that
holds `json(d)` at `(b, k)`; and `Client.GetBucketKey` applied to the body
that the `GET` handler writes for that ledger returns `dat`, the JSON
encoding of `v`. The hypotheses are the round trips of `encoding/json` and
`encoding/base64` on the three texts involved. -/
theorem put_then_getBucketKey {V : Type} (c : ApiCodec) (jsonMarshal : V → Except String String)
    (v : V) (dat stored sent : String) (blk : Block) (ch : List Block) (now b k : String)
    (hv : jsonMarshal v = .ok dat)
    (hstored : c.jsonMarshalString (c.base64Encode dat) = some stored)
    (hsent : c.jsonMarshalString stored = some sent)
    (hbody : c.jsonUnmarshalString (sent ++ "\n") = .ok stored)
    (hinner : c.jsonUnmarshalString stored = .ok (c.base64Encode dat))
    (hbase : c.base64Decode (c.base64Encode dat) = .ok dat) :
    putValue c jsonMarshal v = .ok (c.base64Encode dat) ∧
    ∃ head ch2 cancelled,
      putHandlerTick c ⟨⟨some blk⟩, ch⟩ now b k (c.base64Encode dat) =
        some (⟨⟨some head⟩, ch2⟩, cancelled) ∧
      storageView head.Storage b k = some (some stored) ∧
      getHandlerBody c ⟨⟨some head⟩, ch2⟩ b k = some (sent ++ "\n") ∧
      (getHandlerBody c ⟨⟨some head⟩, ch2⟩ b k).map (GetBucketKey c) = some (.ok dat) := by
  refine ⟨by simp [putValue, hv], ?_⟩
  obtain ⟨head, ch2, cancelled, hrun, hview⟩ :=
    persistTick_stores c.jsonMarshalString blk ch now b k (c.base64Encode dat)
  rw [hstored] at hview
  have hbodyeq : getHandlerBody c ⟨⟨some head⟩, ch2⟩ b k = some (sent ++ "\n") := by
    unfold getHandlerBody Ledger.CurrentData MemoryStore.Last
    simp only [lookup_getD_eq_view, storageView_bucketsCopy, hview, Option.getD_some, hsent]
  refine ⟨head, ch2, cancelled, hrun, hview, hbodyeq, ?_⟩
  rw [hbodyeq]
  simp [GetBucketKey, hbody, hinner, hbase]

/-- Witness of C27: the string `bar` is put and read back as its JSON text
`"bar"`. -/
theorem put_then_getBucketKey_witness :
    marshalBar "bar" = .ok "\"bar\"" ∧
    sampleApiCodec.jsonMarshalString (sampleApiCodec.base64Encode "\"bar\"") =
      some "\"ImJhciI=\"" ∧
    sampleApiCodec.jsonMarshalString "\"ImJhciI=\"" = some "\"\\\"ImJhciI=\\\"\"" ∧
    sampleApiCodec.jsonUnmarshalString ("\"\\\"ImJhciI=\\\"\"" ++ "\n") = .ok "\"ImJhciI=\"" ∧
    sampleApiCodec.jsonUnmarshalString "\"ImJhciI=\"" =
      .ok (sampleApiCodec.base64Encode "\"bar\"") ∧
    sampleApiCodec.base64Decode (sampleApiCodec.base64Encode "\"bar\"") = .ok "\"bar\"" ∧
    (putValue sampleApiCodec marshalBar "bar" = .ok (sampleApiCodec.base64Encode "\"bar\"") ∧
    ∃ head ch2 cancelled,
      putHandlerTick sampleApiCodec ⟨⟨some freshGenesis⟩, []⟩ "2021-11-04 10:00:07 +0000 UTC"
          "b" "f" (sampleApiCodec.base64Encode "\"bar\"") =
        some (⟨⟨some head⟩, ch2⟩, cancelled) ∧
      storageView head.Storage "b" "f" = some (some "\"ImJhciI=\"") ∧
      getHandlerBody sampleApiCodec ⟨⟨some head⟩, ch2⟩ "b" "f" =
        some ("\"\\\"ImJhciI=\\\"\"" ++ "\n") ∧
      (getHandlerBody sampleApiCodec ⟨⟨some head⟩, ch2⟩ "b" "f").map
        (GetBucketKey sampleApiCodec) = some (.ok "\"bar\"")) :=
  ⟨rfl, rfl, rfl, rfl, rfl, rfl,
    put_then_getBucketKey sampleApiCodec marshalBar "bar" "\"bar\"" "\"ImJhciI=\""
      "\"\\\"ImJhciI=\\\"\"" freshGenesis [] "2021-11-04 10:00:07 +0000 UTC" "b" "f"
      rfl rfl rfl rfl rfl rfl⟩

/-! ## AES encryption and decryption -/

theorem hexDigit_spec : ∀ n, n < 16 →
    utf8Char (hexDigit n) = [(hexDigit n).toNat] ∧ fromHexChar (hexDigit n).toNat = some n := by
  decide

theorem hexDecode_encode :
    ∀ (bytes acc : List Nat), (∀ x ∈ bytes, x < 256) →
      hexDecode ((bytes.flatMap fun b => [hexDigit (b / 16), hexDigit (b % 16)]).flatMap utf8Char)
        acc = (acc ++ bytes, none)
  | [], acc, _ => by simp [hexDecode]
  | b :: rest, acc, h => by
    have hb : b < 256 := h b (List.mem_cons_self _ _)
    have hrest : ∀ x ∈ rest, x < 256 := fun x hx => h x (List.mem_cons_of_mem _ hx)
    obtain ⟨h1, h2⟩ := hexDigit_spec (b / 16) (by omega)
    obtain ⟨h3, h4⟩ := hexDigit_spec (b % 16) (by omega)
    simp only [List.flatMap_cons, List.flatMap_append, List.flatMap_nil, List.append_nil,
      List.cons_append, List.nil_append, h1, h3, List.singleton_append]
    rw [hexDecode]
    simp only [h2, h4]
    rw [hexDecode_encode rest _ hrest]
    have hval : b / 16 * 16 + b % 16 = b := by omega
    rw [hval, List.append_assoc]
    rfl

theorem hexDecodeString_encode (bytes : List Nat) (h : ∀ x ∈ bytes, x < 256) :
    hexDecodeString (hexEncode bytes) = (bytes, none) := by
  unfold hexDecodeString hexEncode utf8Bytes
  have := hexDecode_encode bytes [] h
  simpa using this

/-- C28: for a key that `aes.NewCipher` and `cipher.NewGCM` accept (every
32-byte key) and every nonce of the size of the GCM that the random reader
returns, `AESEncrypt` returns a ciphertext without error and `AESDecrypt`
on that ciphertext and the same key returns the plaintext without error.
The hypothesis on `gcmOpen` is the correctness of AES-GCM: opening what was
sealed under the same nonce gives the plaintext back. -/
theorem aes_round_trip (p : AesGcm) (gcmSeal : List Nat → List Nat → String → List Nat)
    (readRandom : Nat → Except String (List Nat)) (m : String) (key block gcm nonce : List Nat)
    (hc : p.newCipher key = .ok block) (hg : p.newGCM block = .ok gcm)
    (hr : readRandom p.nonceSize = .ok nonce) (hn : nonce.length = p.nonceSize)
    (hbytes : ∀ x ∈ nonce ++ gcmSeal gcm nonce m, x < 256)
    (hopen : p.gcmOpen gcm nonce (gcmSeal gcm nonce m) = .ok m) :
    AESEncrypt p gcmSeal readRandom m key = (hexEncode (nonce ++ gcmSeal gcm nonce m), none) ∧
    AESDecrypt p (AESEncrypt p gcmSeal readRandom m key).1 key = (m, none) := by
  have henc : AESEncrypt p gcmSeal readRandom m key =
      (hexEncode (nonce ++ gcmSeal gcm nonce m), none) := by
    unfold AESEncrypt
    rw [hc]
    simp only [hg, hr]
  refine ⟨henc, ?_⟩
  rw [henc]
  unfold AESDecrypt
  rw [hc]
  simp only [hg, hexDecodeString_encode _ hbytes]
  have hlen : ¬ (nonce ++ gcmSeal gcm nonce m).length < p.nonceSize := by
    rw [List.length_append, hn]
    omega
  rw [if_neg hlen, ← hn, List.take_left, List.drop_left, hopen]

/-- Witness of C28: the plaintext `foo` under two draws of the nonce; the
ciphertexts differ, have 62 characters each, and both decrypt to `foo`. -/
theorem aes_round_trip_witness :
    shiftGcm.newCipher sampleKey = .ok sampleKey ∧
    shiftGcm.newGCM sampleKey = .ok sampleKey ∧
    (fun _ => Except.ok sampleNonce1 : Nat → Except String (List Nat)) shiftGcm.nonceSize =
      .ok sampleNonce1 ∧
    sampleNonce1.length = shiftGcm.nonceSize ∧
    (∀ x ∈ sampleNonce1 ++ shiftSeal sampleKey sampleNonce1 "foo", x < 256) ∧
    shiftGcm.gcmOpen sampleKey sampleNonce1 (shiftSeal sampleKey sampleNonce1 "foo") = .ok "foo" ∧
    (AESEncrypt shiftGcm shiftSeal (fun _ => .ok sampleNonce1) "foo" sampleKey =
      (hexEncode (sampleNonce1 ++ shiftSeal sampleKey sampleNonce1 "foo"), none) ∧
    AESDecrypt shiftGcm (AESEncrypt shiftGcm shiftSeal (fun _ => .ok sampleNonce1) "foo"
      sampleKey).1 sampleKey = ("foo", none)) :=
  ⟨rfl, rfl, rfl, by decide, by decide, rfl,
    aes_round_trip shiftGcm shiftSeal (fun _ => .ok sampleNonce1) "foo" sampleKey sampleKey
      sampleKey sampleNonce1 rfl rfl rfl (by decide) (by decide) rfl⟩

theorem aes_sample_ciphertexts :
    (AESEncrypt shiftGcm shiftSeal (fun _ => .ok sampleNonce1) "foo" sampleKey).1 =
      "0102030405060708090a0b0c6d76760102030405060708090a0b0c00000000" ∧
    (AESEncrypt shiftGcm shiftSeal (fun _ => .ok sampleNonce2) "foo" sampleKey).1 =
      "fffefdfcfbfaf9f8f7f6f5f46d7676fffefdfcfbfaf9f8f7f6f5f400000000" ∧
    (AESEncrypt shiftGcm shiftSeal (fun _ => .ok sampleNonce1) "foo" sampleKey).1.length = 62 ∧
    AESDecrypt shiftGcm (AESEncrypt shiftGcm shiftSeal (fun _ => .ok sampleNonce2) "foo"
      sampleKey).1 sampleKey = ("foo", none) ∧
    (AESDecrypt shiftGcm "0102030405060708090a0b0c6d76760102030405060708090a0b0c00000001"
      sampleKey).2 = some "cipher: message authentication failed" := by
  decide

/-! ## The service client -/

theorem except_ok_inj {α : Type} {a b : α} (h : a = b) :
    (Except.ok a : Except String α) = Except.ok b := by rw [h]

/-- C29 (the code at the failing input): the uuid `a-uuidb` is advertised:
the bucket holds the key `a-uuidb-uuid` with a timestamp one second old.
`ListItems` removes both occurrences of `-uuid` and lists `ab`, the key
`ab-uuid` is not in the bucket, and `AdvertizingNodes` returns the empty
list. The uuid `foo` advertised in the same way is returned. -/
theorem advertized_uuid_not_listed :
    advertizeKey "a-uuidb" = "a-uuidb-uuid" ∧
    ListItems (bucketClient (AList.singleton "a-uuidb-uuid" "1000000000")) "svc" "uuid" =
      .ok ["ab"] ∧
    AdvertizingNodes (bucketClient (AList.singleton "a-uuidb-uuid" "1000000000")) numeralTime
      "svc" 2000000000 = .ok [] ∧
    AdvertizingNodes (bucketClient (AList.singleton (advertizeKey "foo") "1000000000"))
      numeralTime "svc" 2000000000 = .ok ["foo"] :=
  ⟨by decide, except_ok_inj (by decide), except_ok_inj (by decide), except_ok_inj (by decide)⟩

theorem no_border_uuid (t : List Char) (ht : t ≠ [])
    (h : "-uuid".toList <+: t ++ "-uuid".toList) : "-uuid".toList <+: t := by
  by_cases hlen : 5 ≤ t.length
  · exact List.prefix_of_prefix_length_le h (List.prefix_append t _) hlen
  · exfalso
    have hb := List.isPrefixOf_iff_prefix.mpr h
    rcases t with _ | ⟨a, _ | ⟨b, _ | ⟨c, _ | ⟨d, _ | ⟨e, t⟩⟩⟩⟩⟩
    · exact ht rfl
    · revert hb; simp [List.isPrefixOf]
    · revert hb; simp [List.isPrefixOf]
    · revert hb; simp [List.isPrefixOf]
    · revert hb; simp [List.isPrefixOf]
    · simp at hlen

theorem replaceAll_strips_suffix :
    ∀ l : List Char, ¬ "-uuid".toList <:+: l →
      replaceAllChars "-uuid".toList [] 0 (l ++ "-uuid".toList) = l
  | [], _ => by decide
  | c :: l, h => by
    have hno : ("-uuid".toList).isPrefixOf (c :: (l ++ "-uuid".toList)) = false := by
      cases hb : ("-uuid".toList).isPrefixOf (c :: (l ++ "-uuid".toList))
      · rfl
      · exfalso
        have hp : "-uuid".toList <+: (c :: l) ++ "-uuid".toList := List.isPrefixOf_iff_prefix.mp hb
        exact h (no_border_uuid (c :: l) (by simp) hp).isInfix
    have hrest : ¬ "-uuid".toList <:+: l := fun hi =>
      h (hi.trans (List.suffix_cons c l).isInfix)
    rw [List.cons_append, replaceAllChars, hno]
    simp only [Bool.false_eq_true, if_false]
    rw [replaceAll_strips_suffix l hrest]

theorem stringsReplaceAll_advertizeKey (u : String) (h : ¬ "-uuid".toList <:+: u.toList) :
    stringsReplaceAll (advertizeKey u) ("-" ++ "uuid") "" = u := by
  unfold stringsReplaceAll advertizeKey
  have h1 : (u ++ "-uuid").toList = u.toList ++ "-uuid".toList := by simp
  have h2 : ("-" ++ "uuid" : String) = "-uuid" := by decide
  rw [h1, h2]
  have := replaceAll_strips_suffix u.toList h
  simp only [String.toList] at this ⊢
  rw [this]

theorem hasSuffix_advertizeKey (u : String) : hasSuffix (advertizeKey u) "uuid" = true := by
  unfold hasSuffix advertizeKey
  have h1 : (u ++ "-uuid").toList = u.toList ++ "-uuid".toList := by simp
  rw [h1, List.reverse_append]
  have h2 : "-uuid".toList.reverse = "uuid".toList.reverse ++ ['-'] := by decide
  rw [h2, List.append_assoc]
  exact List.isPrefixOf_iff_prefix.mpr (List.prefix_append _ _)

theorem listItems_eq (c : ApiClient) (serviceID suffix : String) (keys : List String)
    (hkeys : c.GetBucketKeys serviceID = .ok keys) :
    ListItems c serviceID suffix =
      .ok ((keys.filter fun b => hasSuffix b suffix).map fun b =>
        stringsReplaceAll b ("-" ++ suffix) "") := by
  unfold ListItems
  rw [hkeys]
  have h := foldl_collect (fun b => hasSuffix b suffix)
    (fun b => stringsReplaceAll b ("-" ++ suffix) "") keys []
  rw [List.nil_append] at h
  exact except_ok_inj h

theorem active_mem (c : ApiClient) (unmarshalTime : Data → Int) (serviceID : String) (now : Int)
    (u : String) (d : Data) (hget : c.GetBucketKey serviceID (u ++ "-uuid") = .ok d)
    (hfresh : unmarshalTime d + 900000000000 > now) :
    ∀ (uuids active : List String), u ∈ active ∨ u ∈ uuids →
      u ∈ uuids.foldl (fun active u =>
        match c.GetBucketKey serviceID (u ++ "-uuid") with
        | .error _ => active
        | .ok res =>
          let d := unmarshalTime res
          if d + 900000000000 > now then active ++ [u] else active) active
  | [], active, h => by
    rcases h with h | h
    · exact h
    · cases h
  | x :: rest, active, h => by
    rw [List.foldl_cons]
    apply active_mem c unmarshalTime serviceID now u d hget hfresh rest
    by_cases hx : u = x
    · subst hx
      left
      simp [hget, hfresh]
    · rcases h with h | h
      · left
        cases c.GetBucketKey serviceID (x ++ "-uuid") with
        | error e => exact h
        | ok res =>
          simp only
          split
          · exact List.mem_append_left _ h
          · exact h
      · right
        rcases List.mem_cons.mp h with h2 | h2
        · exact absurd h2 hx
        · exact h2

/-- When the uuid does not contain the text `-uuid`, the claim of C29 holds:
if the key that `Advertize(u)` writes is among the keys of the service bucket
and reads as a timestamp less than 15 minutes old, `AdvertizingNodes` returns
a list that contains `u`. -/
theorem advertizingNodes_lists (c : ApiClient) (unmarshalTime : Data → Int)
    (serviceID u : String) (now : Int) (keys : List String) (d : Data)
    (hkeys : c.GetBucketKeys serviceID = .ok keys) (hkey : advertizeKey u ∈ keys)
    (hget : c.GetBucketKey serviceID (advertizeKey u) = .ok d)
    (hfresh : unmarshalTime d + 900000000000 > now)
    (hclean : ¬ "-uuid".toList <:+: u.toList) :
    ∃ active, AdvertizingNodes c unmarshalTime serviceID now = .ok active ∧ u ∈ active := by
  unfold AdvertizingNodes
  rw [listItems_eq c serviceID "uuid" keys hkeys]
  refine ⟨_, rfl, ?_⟩
  apply active_mem c unmarshalTime serviceID now u d hget hfresh
  right
  refine List.mem_map.mpr ⟨advertizeKey u, List.mem_filter.mpr ⟨hkey, hasSuffix_advertizeKey u⟩, ?_⟩
  exact stringsReplaceAll_advertizeKey u hclean

/-! ## Buckets after `Delete` and `DeleteBucket` -/

theorem entries_nil_of_lookup_none {β : Type} (m : GoMap β) (h : ∀ k, m.lookup k = none) :
    m.entries = [] := by
  cases he : m.entries with
  | nil => rfl
  | cons e rest =>
    have hl : m.lookup e.1 = some e.2 :=
      AList.mem_lookup_iff.mpr (by rw [he]; exact List.mem_cons_self _ _)
    rw [h] at hl
    cases hl

theorem storageView_isSome (m : Storage) (b k : String) :
    (storageView m b k).isSome = (m.lookup b).isSome := by
  unfold storageView
  cases m.lookup b <;> rfl

theorem lookup_of_view (m : Storage) (b : String) (f : String → Option Data)
    (h : ∀ k, storageView m b k = some (f k)) :
    ∃ bucket, m.lookup b = some bucket ∧ ∀ k, bucket.lookup k = f k := by
  cases hl : m.lookup b with
  | none =>
    have := h ""
    simp [storageView, hl] at this
  | some bucket =>
    refine ⟨bucket, rfl, fun k => ?_⟩
    have := h k
    simpa [storageView, hl] using this

/-- C30: on a ledger whose head block holds the bucket `b`, `Delete(b, k)`
returns, and in `CurrentData()` of the ledger it leaves `b` is still a
bucket: it holds the other keys with their values and not `k`, and it is the
empty bucket when `b` held no other key than `k`; every other bucket is still
there as well. `DeleteBucket(b)` returns and leaves a ledger whose
`CurrentData()` has no bucket `b`, and every other bucket. -/
theorem delete_keeps_bucket (blk : Block) (ch : List Block) (now b k : String) (bucket : Bucket)
    (hb : blk.Storage.lookup b = some bucket) :
    (∃ head cur bucket2,
      Ledger.Delete ⟨⟨some blk⟩, ch⟩ now b k = some ⟨⟨some head⟩, ch ++ [head]⟩ ∧
      Ledger.CurrentData ⟨⟨some head⟩, ch ++ [head]⟩ = some cur ∧
      cur.lookup b = some bucket2 ∧
      (∀ k1, bucket2.lookup k1 = if k1 = k then none else bucket.lookup k1) ∧
      ((∀ k1, k1 ≠ k → bucket.lookup k1 = none) → bucket2.entries = []) ∧
      ∀ b1, (blk.Storage.lookup b1).isSome = true → (cur.lookup b1).isSome = true) ∧
    ∃ head cur,
      Ledger.DeleteBucket ⟨⟨some blk⟩, ch⟩ now b = some ⟨⟨some head⟩, ch ++ [head]⟩ ∧
      Ledger.CurrentData ⟨⟨some head⟩, ch ++ [head]⟩ = some cur ∧
      cur.lookup b = none ∧
      ∀ b1, b1 ≠ b → (blk.Storage.lookup b1).isSome = true → (cur.lookup b1).isSome = true := by
  constructor
  · have hview : ∀ k1, storageView (bucketsCopy (deleteStorage b k blk.Storage)) b k1 =
        some (if k1 = k then none else bucket.lookup k1) := by
      intro k1
      rw [storageView_bucketsCopy, storageView_deleteStorage]
      by_cases hk : k1 = k
      · simp [hk, hb]
      · simp [hk, storageView, hb]
    obtain ⟨bucket2, hl2, hkeys⟩ := lookup_of_view _ b _ hview
    refine ⟨blk.NewBlock now (deleteStorage b k blk.Storage),
      bucketsCopy (deleteStorage b k blk.Storage), bucket2, delete_some blk ch now b k, rfl, hl2,
      hkeys, ?_, ?_⟩
    · intro honly
      apply entries_nil_of_lookup_none
      intro k1
      rw [hkeys k1]
      by_cases hk : k1 = k
      · rw [if_pos hk]
      · rw [if_neg hk]
        exact honly k1 hk
    · intro b1 h1
      rw [← storageView_isSome _ b1 "", storageView_bucketsCopy, storageView_deleteStorage]
      by_cases hc : b1 = b ∧ "" = k
      · rw [if_pos hc]
        cases hl : blk.Storage.lookup b1 with
        | none => rw [hl] at h1; cases h1
        | some x => rfl
      · rw [if_neg hc, storageView_isSome]
        exact h1
  · refine ⟨blk.NewBlock now (deleteBucketStorage b blk.Storage),
      bucketsCopy (deleteBucketStorage b blk.Storage), deleteBucket_some blk ch now b, rfl, ?_, ?_⟩
    · have h := storageView_isSome (bucketsCopy (deleteBucketStorage b blk.Storage)) b ""
      rw [storageView_bucketsCopy, storageView_deleteBucketStorage, if_pos rfl] at h
      cases hl : (bucketsCopy (deleteBucketStorage b blk.Storage)).lookup b with
      | none => rfl
      | some x => rw [hl] at h; cases h
    · intro b1 hne h1
      rw [← storageView_isSome _ b1 "", storageView_bucketsCopy, storageView_deleteBucketStorage,
        if_neg hne, storageView_isSome]
      exact h1

/-- Witness of C30: the bucket `machines` of `machinesHead` holds the one key
10.1.0.2. -/
theorem delete_keeps_bucket_witness :
    machinesHead.Storage.lookup "machines" = some (AList.singleton "10.1.0.2" "stale") ∧
    ((∃ head cur bucket2,
      Ledger.Delete ⟨⟨some machinesHead⟩, []⟩ "2021-11-04 10:00:09 +0000 UTC" "machines"
        "10.1.0.2" = some ⟨⟨some head⟩, [] ++ [head]⟩ ∧
      Ledger.CurrentData ⟨⟨some head⟩, [] ++ [head]⟩ = some cur ∧
      cur.lookup "machines" = some bucket2 ∧
      (∀ k1, bucket2.lookup k1 =
        if k1 = "10.1.0.2" then none else (AList.singleton "10.1.0.2" "stale" : Bucket).lookup k1) ∧
      ((∀ k1, k1 ≠ "10.1.0.2" → (AList.singleton "10.1.0.2" "stale" : Bucket).lookup k1 = none) →
        bucket2.entries = []) ∧
      ∀ b1, (machinesHead.Storage.lookup b1).isSome = true → (cur.lookup b1).isSome = true) ∧
    ∃ head cur,
      Ledger.DeleteBucket ⟨⟨some machinesHead⟩, []⟩ "2021-11-04 10:00:09 +0000 UTC" "machines" =
        some ⟨⟨some head⟩, [] ++ [head]⟩ ∧
      Ledger.CurrentData ⟨⟨some head⟩, [] ++ [head]⟩ = some cur ∧
      cur.lookup "machines" = none ∧
      ∀ b1, b1 ≠ "machines" → (machinesHead.Storage.lookup b1).isSome = true →
        (cur.lookup b1).isSome = true) :=
  ⟨rfl, delete_keeps_bucket machinesHead [] "2021-11-04 10:00:09 +0000 UTC" "machines" "10.1.0.2"
    (AList.singleton "10.1.0.2" "stale") rfl⟩

/-- The buckets listed after `Delete` and after `DeleteBucket` on
`machinesHead`. -/
theorem delete_sample_buckets :
    ((Ledger.Delete ⟨⟨some machinesHead⟩, []⟩ "2021-11-04 10:00:09 +0000 UTC" "machines"
      "10.1.0.2").bind Ledger.CurrentData).map (fun cur =>
        cur.entries.map fun e => (e.1, e.2.keys)) = some [("machines", [])] ∧
    ((Ledger.DeleteBucket ⟨⟨some machinesHead⟩, []⟩ "2021-11-04 10:00:09 +0000 UTC"
      "machines").bind Ledger.CurrentData).map (fun cur =>
        cur.entries.map fun e => (e.1, e.2.keys)) = some [] := by
  decide

/-- A static peer table filled as the command line fills it, with
`peer.ID(text)` for the text of the remote peer, does not list that peer for
the stream handler: the string form of the entry is the base58 text of the
text. A table that holds the peer ID itself lists it. -/
theorem text_cast_table_entry_not_listed :
    peerIDString samplePeerBytes = collidingPeerA ∧
    peerIDString (utf8Bytes collidingPeerA) ≠ collidingPeerA ∧
    streamHandler (tableMachineDecoder machineTexts) ⟨⟨some machinesHead⟩, []⟩
      (tableConfig (utf8Bytes collidingPeerA)) samplePeerBytes = false ∧
    streamHandler (tableMachineDecoder machineTexts) ⟨⟨some machinesHead⟩, []⟩
      (tableConfig samplePeerBytes) samplePeerBytes = true := by
  decide

end EdgeVPN
